import Mathlib

/-!
Selection and rotation core of igl::MouseController

Shallow embedding of `ALICE_PLATFORM/src/iglx/MouseController.h`.

* `Eigen::VectorXi` (and `VectorXb`, which the header typedefs to `Eigen::VectorXi`)
  is a `List Int`; an entry is "true" when it is non-zero, `|=` is bitwise or.
* A function returns `none` when the C++ would fail an assertion, index a
  vector out of range, or (for the loops that are bounded by fuel) when the
  fuel is used up before the loop ends.
-/

namespace igl

abbrev VectorXi := List Int

/-- The header has `typedef Eigen::VectorXi VectorXb`. -/
abbrev VectorXb := List Int

/-- Coefficient access `v(i)`: defined for `0 ≤ i < v.rows()` only. -/
def coeff (v : List Int) (i : Int) : Option Int :=
  if 0 ≤ i then v[i.toNat]? else none

/-- Conversion `int → bool`. -/
def truthy (x : Int) : Bool := decide (x ≠ 0)

/-- Conversion `bool → int`. -/
def ofBool (b : Bool) : Int := if b then 1 else 0

/-- Counted loop `for(int e = lo; e < lo + k; e++) body`. -/
def forLoop {σ : Type} (body : Nat → σ → Option σ) : Nat → Nat → σ → Option σ
  | 0, _, s => some s
  | k + 1, e, s =>
    match body e s with
    | none => none
    | some s1 => forLoop body k (e + 1) s1

/-- The recursive lambda `look_up` of `propogate_to_descendants_if`, on the
captured state `(T, seen)`. One unit of fuel per call. -/
def look_up (P : VectorXi) :
    Nat → Int → VectorXb × List Bool → Option (Bool × (VectorXb × List Bool))
  | 0, _, _ => none
  | fuel + 1, e, (T, seen) =>
    if e = -1 then some (false, (T, seen))
    else if e < 0 then none
    else
      match seen[e.toNat]? with
      | none => none
      | some sn =>
        let after : Option (VectorXb × List Bool) :=
          if sn then some (T, seen)
          else
            -- seen[e] = true; T(e) |= look_up(P(e));
            match P[e.toNat]? with
            | none => none
            | some p =>
              match look_up P fuel p (T, seen.set e.toNat true) with
              | none => none
              | some (b, (T1, seen1)) =>
                match T1[e.toNat]? with
                | none => none
                | some t => some (T1.set e.toNat (Int.lor t (ofBool b)), seen1)
        match after with
        | none => none
        | some (T2, seen2) =>
          -- return T(e);
          match T2[e.toNat]? with
          | none => none
          | some t => some (truthy t, (T2, seen2))

/-- Body of the loop `for(int e = 0;e<n;e++) if(!seen[e]) T(e) = look_up(e);`. -/
def propogate_body (fuel : Nat) (P : VectorXi) (e : Nat) (st : VectorXb × List Bool) :
    Option (VectorXb × List Bool) :=
  match st.2[e]? with
  | none => none
  | some true => some st
  | some false =>
    match look_up P fuel (e : Int) st with
    | none => none
    | some (b, (T1, seen1)) => some (T1.set e (ofBool b), seen1)

/-- The static function `igl::MouseController::propogate_to_descendants_if(S,P,T)`;
the result is `T`. -/
def propogate_to_descendants_if (fuel : Nat) (S : VectorXb) (P : VectorXi) :
    Option VectorXb :=
  let n := S.length
  if P.length ≠ n then none
  else
    (forLoop (propogate_body fuel P) n 0 (S, List.replicate n false)).map Prod.fst

/-! ### The normalisation inside `set_selection` -/

/-- The `while(true)` of the lambda `propagate(e,S,N)`, entered with the
current bone `f`; one unit of fuel per iteration. -/
def propagate_walk (P : VectorXi) (S : VectorXb) : Nat → Nat → VectorXb → Option VectorXb
  | 0, _, _ => none
  | fuel + 1, f, N =>
    -- int p = P(f);
    match P[f]? with
    | none => none
    | some p =>
      -- if(p==-1||!S(p)) break;
      if p = -1 then some N
      else
        match coeff S p with
        | none => none
        | some sp =>
          if sp = 0 then some N
          else if f < N.length then
            -- N(f) = false; f = p;
            propagate_walk P S fuel p.toNat (N.set f 0)
          else none

/-- The lambda `propagate(e,S,N)` of `set_selection`: zero-out `N` up a path of
ones of `S` from `e`. The result is `N`. -/
def propagate (fuel : Nat) (P : VectorXi) (e : Nat) (S N : VectorXb) : Option VectorXb :=
  match S[e]? with
  | none => none
  | some s => if s ≠ 0 then propagate_walk P S fuel e N else some N

/-- The call `v.maxCoeff()`, which Eigen refuses on an empty vector. -/
def maxCoeff : List Int → Option Int
  | [] => none
  | x :: xs => some (xs.foldl max x)

/-- Body of `for(e) SRP(RP(e)) |= m_selection(e);`. -/
def spread_gather (RP : VectorXi) (sel : VectorXb) (e : Nat) (SRP : VectorXb) :
    Option VectorXb :=
  match RP[e]?, sel[e]? with
  | some g, some s =>
    match coeff SRP g with
    | none => none
    | some v => some (SRP.set g.toNat (Int.lor v s))
  | _, _ => none

/-- Body of `for(e) m_selection(e) = SRP(RP(e));`. -/
def spread_scatter (RP : VectorXi) (SRP : VectorXb) (e : Nat) (sel : VectorXb) :
    Option VectorXb :=
  match RP[e]? with
  | none => none
  | some g =>
    match coeff SRP g with
    | none => none
    | some v => if e < sel.length then some (sel.set e v) else none

/-- The step "Spread selection accross rigid pieces": the two loops over `BE.rows()` bones
around `SRP`, a zero vector of size `RP.maxCoeff()+1`. -/
def spread (n : Nat) (RP : VectorXi) (sel : VectorXb) : Option VectorXb :=
  match maxCoeff RP with
  | none => none
  | some m =>
    if m + 1 < 0 then none
    else
      match forLoop (spread_gather RP sel) n 0 (List.replicate (m + 1).toNat 0) with
      | none => none
      | some SRP => forLoop (spread_scatter RP SRP) n 0 sel

/-- The step "Clear selections below m_selection ancestors": `new_selection = m_selection`
followed by `propagate(e,m_selection,new_selection)` for every `e < P.rows()`. -/
def clear_below (fuel : Nat) (P : VectorXi) (sel : VectorXb) : Option VectorXb :=
  forLoop (fun e N => propagate fuel P e sel N) P.length 0 sel

/-- One pass of the body of the `while(true)` in `set_selection`, up to
`m_selection = new_selection`. -/
def normalize_pass (wfuel n : Nat) (P RP : VectorXi) (sel : VectorXb) : Option VectorXb :=
  match spread n RP sel with
  | none => none
  | some sel1 => clear_below wfuel P sel1

/-- The `while(true)` of `set_selection`; at the loop head `m_selection` and
`prev_selection` are both `prev`. One unit of fuel per pass. -/
def normalize_loop (wfuel n : Nat) (P RP : VectorXi) : Nat → VectorXb → Option VectorXb
  | 0, _ => none
  | fuel + 1, prev =>
    match normalize_pass wfuel n P RP prev with
    | none => none
    | some sel => if sel = prev then some sel else normalize_loop wfuel n P RP fuel sel

/-- The selection part of `set_selection`: `m_selection = S`, the three size
assertions, and the normalisation loop. `nBE` is `BE.rows()`; `wfuel` bounds
each upward walk and `pfuel` the number of passes. -/
def set_selection_normalize (wfuel pfuel : Nat) (S : VectorXi) (nBE : Nat)
    (P RP : VectorXi) : Option VectorXb :=
  if S.length ≠ nBE ∨ nBE ≠ P.length ∨ nBE ≠ RP.length then none
  else normalize_loop wfuel nBE P RP pfuel S

/-- Bitwise or of the entries `sel[e]`, `e < k`, of the bones of rigid group `g`:
the value held by `SRP(g)` after `k` rounds of the gathering loop. -/
def groupOr (RP : VectorXi) (sel : VectorXb) : Nat → Int → Int
  | 0, _ => 0
  | k + 1, g =>
    if RP[k]? = some g then Int.lor (groupOr RP sel k g) (sel.getD k 0)
    else groupOr RP sel k g

/-! ### Geometry types

`Eigen` is not part of the sources. Scalars are exact rationals, so the
quaternion algebra below is the exact one; rounding of `double` is not modelled. -/

/-- Modelled from the spec: `Eigen::Vector3d`, a point or direction with three
coordinates. -/
structure Vector3d where
  x : ℚ
  y : ℚ
  z : ℚ
deriving DecidableEq

/-- Modelled from the spec: `Eigen::Quaterniond`, the quaternion `w + xi + yj + zk`. -/
structure Quaterniond where
  w : ℚ
  x : ℚ
  y : ℚ
  z : ℚ
deriving DecidableEq

namespace Vector3d

def zero : Vector3d := ⟨0, 0, 0⟩

def add (a b : Vector3d) : Vector3d := ⟨a.x + b.x, a.y + b.y, a.z + b.z⟩

def sub (a b : Vector3d) : Vector3d := ⟨a.x - b.x, a.y - b.y, a.z - b.z⟩

/-- Coefficient-wise division `v.array() /= k`. -/
def divScalar (a : Vector3d) (k : ℚ) : Vector3d := ⟨a.x / k, a.y / k, a.z / k⟩

end Vector3d

namespace Quaterniond

/-- Modelled from the spec: `Quaterniond::Identity()`. -/
def Identity : Quaterniond := ⟨1, 0, 0, 0⟩

/-- Modelled from the spec: the quaternion product `a * b` (Hamilton product). -/
def mul (a b : Quaterniond) : Quaterniond :=
  ⟨a.w * b.w - a.x * b.x - a.y * b.y - a.z * b.z,
   a.w * b.x + a.x * b.w + a.y * b.z - a.z * b.y,
   a.w * b.y + a.y * b.w + a.z * b.x - a.x * b.z,
   a.w * b.z + a.z * b.w + a.x * b.y - a.y * b.x⟩

/-- Modelled from the spec: `q.conjugate()`. -/
def conjugate (q : Quaterniond) : Quaterniond := ⟨q.w, -q.x, -q.y, -q.z⟩

/-- Squared norm `q.squaredNorm()`; `q` is a unit quaternion when it is `1`. -/
def squaredNorm (q : Quaterniond) : ℚ := q.w * q.w + q.x * q.x + q.y * q.y + q.z * q.z

/-- Coefficient-wise sum `a.coeffs() += b.coeffs()`. -/
def addCoeffs (a b : Quaterniond) : Quaterniond := ⟨a.w + b.w, a.x + b.x, a.y + b.y, a.z + b.z⟩

/-- Coefficient-wise division `q.coeffs().array() /= k`. -/
def divCoeffs (a : Quaterniond) (k : ℚ) : Quaterniond := ⟨a.w / k, a.x / k, a.y / k, a.z / k⟩

/-- All coefficients zero, `q.coeffs().setConstant(0)`. -/
def zeroCoeffs : Quaterniond := ⟨0, 0, 0, 0⟩

end Quaterniond

/-- The header has `typedef std::vector<Eigen::Quaterniond,...> RotationList`. -/
abbrev RotationList := List Quaterniond

/-- The class `igl::RotateWidget` as far as the controller reads and writes it; `internal`
stands for its private members. -/
structure RotateWidget where
  pos : Vector3d
  rot : Quaterniond
  m_is_enabled : Bool
  internal : List Int
deriving DecidableEq

/-- The functions of libigl, Eigen and OpenGL that the controller calls and that
are not part of the sources. -/
structure Collaborators where
  /-- The call `igl::forward_kinematics(C,BE,P,dQ,vQ,vT)`, returning `(vQ,vT)`. -/
  forward_kinematics :
    List Vector3d → List (Int × Int) → VectorXi → RotationList → RotationList × List Vector3d
  /-- The function `igl::project`. -/
  project : Vector3d → Vector3d
  /-- The test `igl::line_segment_in_rectangle(s,d,A,B)` on the first two coordinates. -/
  line_segment_in_rectangle : ℚ × ℚ → ℚ × ℚ → ℚ × ℚ → ℚ × ℚ → Bool
  /-- The product `a * p` for `a = Affine3d::Identity()` after `a.translate(t); a.rotate(q)`. -/
  transform : Vector3d → Quaterniond → Vector3d → Vector3d
  /-- The rotation `Quaterniond::setFromTwoVectors(a,b)`. -/
  setFromTwoVectors : Vector3d → Vector3d → Quaterniond
  /-- The result of `Quaterniond::normalize()`. -/
  normalized : Quaterniond → Quaterniond
  /-- The call `RotateWidget::down(x,y)`: the answer and the widget afterwards. -/
  widget_down : RotateWidget → Int → Int → Bool × RotateWidget
  /-- The call `RotateWidget::drag(x,y)`. -/
  widget_drag : RotateWidget → Int → Int → Bool × RotateWidget
  /-- The call `RotateWidget::up(x,y)`. -/
  widget_up : RotateWidget → Int → Int → Bool × RotateWidget

/-- The data members of `igl::MouseController`. -/
structure MouseController where
  m_is_selecting : Bool
  m_selection : VectorXb
  m_down_x : Int
  m_down_y : Int
  m_drag_x : Int
  m_drag_y : Int
  m_width : Int
  m_height : Int
  m_widget : RotateWidget
  m_widget_rot_at_selection : Quaterniond
  m_rotations : RotationList
  m_rotations_at_selection : RotationList
  m_fk_rotations_at_selection : RotationList
  m_root_enabled : Bool
deriving DecidableEq

/-- Row access `l[i]` with an `int` index: defined for `0 ≤ i < size` only. -/
def rowAt {α : Type} (l : List α) (i : Int) : Option α :=
  if 0 ≤ i then l[i.toNat]? else none

/-- The function `igl::any_of(S)`: some entry of `S` is true. -/
def any_of (S : VectorXb) : Bool := S.any (fun t => truthy t)

namespace MouseController

/-- The constructor `MouseController()`; `w0` and `q0` are what the default
constructors of the widget and of `m_widget_rot_at_selection` leave. -/
def init (w0 : RotateWidget) (q0 : Quaterniond) : MouseController where
  m_is_selecting := false
  m_selection := []
  m_down_x := -1
  m_down_y := -1
  m_drag_x := -1
  m_drag_y := -1
  m_width := -1
  m_height := -1
  m_widget := w0
  m_widget_rot_at_selection := q0
  m_rotations := []
  m_rotations_at_selection := []
  m_fk_rotations_at_selection := []
  m_root_enabled := true

def reshape (c : MouseController) (w h : Int) : MouseController :=
  { c with m_width := w, m_height := h }

/-- The method `any_selection()`: "Returns true iff some element in m_selection is true". -/
def any_selection (c : MouseController) : Bool := any_of c.m_selection

/-- The method `clear_selection()`: `m_selection.setConstant(false)`. -/
def clear_selection (c : MouseController) : MouseController :=
  { c with m_selection := c.m_selection.map (fun _ => 0) }

/-- The method `set_size(n)`; a negative `n` cannot be a vector size. -/
def set_size (c : MouseController) (n : Int) : Option MouseController :=
  if n < 0 then none
  else
    let c1 := c.clear_selection
    some { c1 with
      m_rotations := List.replicate n.toNat Quaterniond.Identity
      m_selection := List.replicate n.toNat 0 }

/-- The method `reset_rotations()`: fill `m_rotations` with the identity, then clear the
selection. -/
def reset_rotations (c : MouseController) : MouseController :=
  clear_selection { c with m_rotations := c.m_rotations.map (fun _ => Quaterniond.Identity) }

/-- Body of the loop of `reset_selected_rotations()`. -/
def reset_selected_body (sel : VectorXb) (e : Nat) (rots : RotationList) :
    Option RotationList :=
  match sel[e]? with
  | none => none
  | some s =>
    if s ≠ 0 then
      if e < rots.length then some (rots.set e Quaterniond.Identity) else none
    else some rots

def reset_selected_rotations (c : MouseController) : Option MouseController :=
  match forLoop (reset_selected_body c.m_selection) c.m_selection.length 0 c.m_rotations with
  | none => none
  | some rots => some { c with m_rotations := rots }

/-- The method `set_rotations(vQ)`: the returned flag and the controller afterwards; `none`
when `assert(!any_selection())` fails. -/
def set_rotations (c : MouseController) (vQ : RotationList) : Option (Bool × MouseController) :=
  if vQ.length ≠ c.m_rotations.length then some (false, c)
  else if c.any_selection then none
  else some (true, { c with m_rotations := vQ })

/-- The method `down(x,y)`; the widget is asked only when something is selected. -/
def down (env : Collaborators) (c : MouseController) (x y : Int) : Bool × MouseController :=
  let c1 := { c with m_down_x := x, m_drag_x := x, m_down_y := y, m_drag_y := y }
  let r : Bool × RotateWidget :=
    if c1.any_selection then env.widget_down c1.m_widget x (c1.m_height - y)
    else (false, c1.m_widget)
  let c2 := { c1 with m_widget := r.2 }
  let c3 := if !r.1 then { c2 with m_is_selecting := true } else c2
  (c3.m_is_selecting || r.1, c3)

/-- The right-hand side of the assignment to `m_rotations[e]` in `drag`:
`m_rotations_at_selection[e] * frame.conjugate() *
(m_widget.rot*m_widget_rot_at_selection.conjugate()) * frame`, products taken
from the left. -/
def rederive (r0 frame w w0 : Quaterniond) : Quaterniond :=
  ((r0.mul frame.conjugate).mul (w.mul w0.conjugate)).mul frame

/-- Body of the loop of `drag` over the bones, on `m_rotations`. -/
def drag_body (c : MouseController) (e : Nat) (rots : RotationList) : Option RotationList :=
  match c.m_selection[e]? with
  | none => none
  | some s =>
    if s ≠ 0 then
      match c.m_fk_rotations_at_selection[e]?, c.m_rotations_at_selection[e]? with
      | some frame, some r0 =>
        if e < rots.length then
          some (rots.set e (rederive r0 frame c.m_widget.rot c.m_widget_rot_at_selection))
        else none
      | _, _ => none
    else some rots

/-- The method `drag(x,y)`: the returned flag and the controller afterwards; `none` when one
of the two assertions fails or a snapshot is indexed out of range. -/
def drag (env : Collaborators) (c : MouseController) (x y : Int) :
    Option (Bool × MouseController) :=
  let c1 := { c with m_drag_x := x, m_drag_y := y }
  if c1.m_is_selecting then some (c1.m_is_selecting, c1)
  else
    let r := env.widget_drag c1.m_widget x (c1.m_height - y)
    let c2 := { c1 with m_widget := r.2 }
    if !r.1 then some (false, c2)
    else if !c2.any_selection then none
    else if c2.m_selection.length ≠ c2.m_rotations.length then none
    else
      match forLoop (drag_body c2) c2.m_selection.length 0 c2.m_rotations with
      | none => none
      | some rots => some (true, { c2 with m_rotations := rots })

/-- The method `up(x,y)`. -/
def up (env : Collaborators) (c : MouseController) (x y : Int) : Bool × MouseController :=
  let c1 := { c with m_is_selecting := false }
  (false, { c1 with m_widget := (env.widget_up c1.m_widget x (c1.m_height - y)).2 })

end MouseController

/-! ### Picking and `set_selection` -/

/-- Running sums of the loop "Compute average widget for selection". -/
structure WidgetSums where
  pos : Vector3d
  rot : Quaterniond
  num_selection : Nat

/-- Body of the loop "Compute average widget for selection". -/
def widget_sum_body (env : Collaborators) (sel : VectorXb) (C : List Vector3d)
    (BE : List (Int × Int)) (vQ : RotationList) (vT : List Vector3d) (e : Nat)
    (acc : WidgetSums) : Option WidgetSums :=
  match sel[e]? with
  | none => none
  | some t =>
    if t ≠ 0 then
      match BE[e]? with
      | none => none
      | some be =>
        match rowAt C be.1, rowAt C be.2, vT[e]?, vQ[e]? with
        | some s, some d, some t1, some q =>
          let b := d.sub s
          let rot_at_bind := env.setFromTwoVectors ⟨1, 0, 0⟩ b
          let abs_rot := q.mul rot_at_bind
          some
            { pos := acc.pos.add (env.transform t1 q s)
              rot := acc.rot.addCoeffs abs_rot
              num_selection := acc.num_selection + 1 }
        | _, _, _, _ => none
    else some acc

/-- The block `if(any_of(m_selection)) { ... }` of `set_selection`: the widget
position and rotation become the average over the selected bones. -/
def widget_average (env : Collaborators) (c : MouseController) (C : List Vector3d)
    (BE : List (Int × Int)) (vQ : RotationList) (vT : List Vector3d) :
    Option MouseController :=
  match forLoop (widget_sum_body env c.m_selection C BE vQ vT) BE.length 0
      ⟨Vector3d.zero, Quaterniond.zeroCoeffs, 0⟩ with
  | none => none
  | some acc =>
    let rot := env.normalized (acc.rot.divCoeffs (acc.num_selection : ℚ))
    some { c with
      m_widget := { c.m_widget with
        pos := acc.pos.divScalar (acc.num_selection : ℚ)
        rot := rot }
      m_widget_rot_at_selection := rot }

/-- The last loop of `set_selection`, from bone `s` on with `k` bones left: the
value of `m_widget.m_is_enabled` it leaves. -/
def root_scan (root_enabled : Bool) (sel : VectorXb) (P : VectorXi) : Nat → Nat → Option Bool
  | 0, _ => some true
  | k + 1, s =>
    match sel[s]? with
    | none => none
    | some t =>
      if !root_enabled && truthy t then
        match P[s]? with
        | none => none
        | some p => if p = -1 then some false else root_scan root_enabled sel P k (s + 1)
      else root_scan root_enabled sel P k (s + 1)

namespace MouseController

/-- The method `set_selection(S,C,BE,P,RP)`. `wfuel` bounds each upward walk of the
normalisation and `pfuel` its number of passes. -/
def set_selection (env : Collaborators) (wfuel pfuel : Nat) (c : MouseController)
    (S : VectorXi) (C : List Vector3d) (BE : List (Int × Int)) (P RP : VectorXi) :
    Option MouseController :=
  let fk := env.forward_kinematics C BE P c.m_rotations
  let c1 := { c with m_fk_rotations_at_selection := fk.1 }
  match set_selection_normalize wfuel pfuel S BE.length P RP with
  | none => none
  | some sel =>
    let c2 := { c1 with m_selection := sel }
    match (if any_of c2.m_selection then widget_average env c2 C BE fk.1 fk.2 else some c2) with
    | none => none
    | some c3 =>
      match root_scan c3.m_root_enabled c3.m_selection P c3.m_selection.length 0 with
      | none => none
      | some en => some { c3 with m_widget := { c3.m_widget with m_is_enabled := en } }

/-- Body of the loop "Loop over deformed bones" of `set_selection_from_last_drag`. -/
def pick_body (env : Collaborators) (c : MouseController) (C : List Vector3d)
    (BE : List (Int × Int)) (vQ : RotationList) (vT : List Vector3d) (e : Nat)
    (sel : VectorXb) : Option VectorXb :=
  match BE[e]? with
  | none => none
  | some be =>
    match rowAt C be.1, rowAt C be.2, vT[e]?, vQ[e]? with
    | some s0, some d0, some t1, some q =>
      let projs := env.project (env.transform t1 q s0)
      let projd := env.project (env.transform t1 q d0)
      if e < sel.length then
        some (sel.set e (ofBool (env.line_segment_in_rectangle
          (projs.x, projs.y) (projd.x, projd.y)
          ((c.m_down_x : ℚ), ((c.m_height - c.m_down_y : Int) : ℚ))
          ((c.m_drag_x : ℚ), ((c.m_height - c.m_drag_y : Int) : ℚ)))))
      else none
    | _, _, _, _ => none

/-- The raw picks of `set_selection_from_last_drag`: bone `e` is marked when its
projected segment meets the marquee rectangle. -/
def marquee_picks (env : Collaborators) (c : MouseController) (C : List Vector3d)
    (BE : List (Int × Int)) (P : VectorXi) : Option VectorXb :=
  let fk := env.forward_kinematics C BE P c.m_rotations
  forLoop (pick_body env c C BE fk.1 fk.2) BE.length 0 (List.replicate BE.length 0)

/-- The method `set_selection_from_last_drag(C,BE,P,RP)`. -/
def set_selection_from_last_drag (env : Collaborators) (wfuel pfuel : Nat)
    (c : MouseController) (C : List Vector3d) (BE : List (Int × Int)) (P RP : VectorXi) :
    Option MouseController :=
  let c1 := { c with m_rotations_at_selection := c.m_rotations }
  if BE.length ≠ P.length then none
  else
    match marquee_picks env c1 C BE P with
    | none => none
    | some picks =>
      let c2 := { c1 with m_selection := picks }
      set_selection env wfuel pfuel c2 c2.m_selection C BE P RP

end MouseController

/-- Modelled from the spec: the segment-in-rectangle test
`intersects(segmentStart2D, segmentEnd2D, rectCorner1, rectCorner2)`, which libigl
provides (`igl/line_segment_in_rectangle.h` is included, not part of the sources),
in exact arithmetic. The closed segment from `s` to `d` meets the closed
axis-aligned rectangle with opposite corners `a` and `b`: the segment is clipped
to the x-range of the rectangle, and the y-range of what is left is compared with
the y-range of the rectangle. -/
def segment_meets_rectangle (s d a b : ℚ × ℚ) : Bool :=
  let minX := max (min s.1 d.1) (min a.1 b.1)
  let maxX := min (max s.1 d.1) (max a.1 b.1)
  if maxX < minX then false
  else
    let dx := d.1 - s.1
    let y0 := if dx = 0 then s.2 else s.2 + (d.2 - s.2) / dx * (minX - s.1)
    let y1 := if dx = 0 then d.2 else s.2 + (d.2 - s.2) / dx * (maxX - s.1)
    decide (max (min y0 y1) (min a.2 b.2) ≤ min (max y0 y1) (max a.2 b.2))

/-- A stand-in for the collaborators, to run the controller on concrete input:
forward kinematics of the rest pose, no projection, the segment-in-rectangle test
on both end points, and a widget that accepts every event. -/
def restCollaborators : Collaborators where
  forward_kinematics := fun _ BE _ _ =>
    (List.replicate BE.length Quaterniond.Identity, List.replicate BE.length Vector3d.zero)
  project := fun p => p
  line_segment_in_rectangle := segment_meets_rectangle
  transform := fun t _ p => t.add p
  setFromTwoVectors := fun _ _ => Quaterniond.Identity
  normalized := fun q => q
  widget_down := fun w _ _ => (true, w)
  widget_drag := fun w _ _ => (true, w)
  widget_up := fun w _ _ => (false, w)

/-- The joints of the chain `0→1→2→3`: five points on the x axis. -/
def chainJoints : List Vector3d := [⟨0, 0, 0⟩, ⟨10, 0, 0⟩, ⟨20, 0, 0⟩, ⟨30, 0, 0⟩, ⟨40, 0, 0⟩]

/-- The bones of the chain: bone `e` joins joint `e` to joint `e+1`. -/
def chainBones : List (Int × Int) := [(0, 1), (1, 2), (2, 3), (3, 4)]

/-- A widget to start from. -/
def restWidget : RotateWidget := ⟨Vector3d.zero, Quaterniond.Identity, true, []⟩

/-- The controller after `reshape(100,100)` and `set_size(4)`. -/
def chainController : MouseController :=
  { MouseController.init restWidget Quaterniond.Identity with
    m_width := 100
    m_height := 100
    m_rotations := List.replicate 4 Quaterniond.Identity
    m_selection := List.replicate 4 0 }

/-- A posed chain with bone 2 selected: the controller as a marquee pick leaves
it, with unit quaternions for the snapshots and the widget. -/
def posedChain : MouseController :=
  { chainController with
    m_selection := [0, 0, 1, 0]
    m_widget := ⟨⟨20, 0, 0⟩, ⟨3 / 5, 4 / 5, 0, 0⟩, true, []⟩
    m_widget_rot_at_selection := ⟨3 / 5, 4 / 5, 0, 0⟩
    m_rotations := [⟨1, 0, 0, 0⟩, ⟨0, 1, 0, 0⟩, ⟨0, 0, 1, 0⟩, ⟨1, 0, 0, 0⟩]
    m_rotations_at_selection := [⟨1, 0, 0, 0⟩, ⟨0, 1, 0, 0⟩, ⟨0, 0, 1, 0⟩, ⟨1, 0, 0, 0⟩]
    m_fk_rotations_at_selection :=
      [⟨1, 0, 0, 0⟩, ⟨0, 1, 0, 0⟩, ⟨0, 0, 0, -1⟩, ⟨0, 0, 0, -1⟩] }

/-- The chain controller with the marquee of `down(22,95)`, `drag(28,105)`: in
window coordinates (height 100) the rectangle from `(22,5)` to `(28,-5)`, which
crosses bone 2, the segment from `(20,0)` to `(30,0)`, and no other bone. -/
def marqueeChain : MouseController :=
  { chainController with m_down_x := 22, m_down_y := 95, m_drag_x := 28, m_drag_y := 105 }

/-- The chain controller as `down(22,95)`, `drag(28,105)` leave it: selecting, with
the marquee of `marqueeChain`. -/
def selectingChain : MouseController :=
  { marqueeChain with m_is_selecting := true }

/-! ### Vocabulary for the hierarchy -/

/-- Parent of bone `e` as stored in `P`; `-1` for `-1` and outside the array. -/
def parentOf (P : VectorXi) (e : Int) : Int :=
  if 0 ≤ e then P.getD e.toNat (-1) else -1

/-- The bone reached from `e` by `k` parent steps (`-1` once a root is passed). -/
def ancestorAt (P : VectorXi) : Nat → Int → Int
  | 0, e => e
  | k + 1, e => ancestorAt P k (parentOf P e)

/-- Entries of `P` are `-1` or a valid bone index. -/
def ValidParents (P : VectorXi) : Prop :=
  ∀ p ∈ P, p = -1 ∨ (0 ≤ p ∧ p < (P.length : Int))

/-- The parent array describes a forest: valid entries and no cycle, i.e. every
bone leaves the array after at most `#P` parent steps. -/
def IsForest (P : VectorXi) : Prop :=
  ValidParents P ∧ ∀ e : Nat, e < P.length → ancestorAt P P.length (e : Int) = -1

instance (P : VectorXi) : Decidable (ValidParents P) := by
  unfold ValidParents; infer_instance

instance (P : VectorXi) : Decidable (IsForest P) := by
  unfold IsForest; infer_instance

/-- Entry `i` of the selection vector `v` exists and is true (non-zero). -/
def isSel (v : VectorXb) (i : Int) : Prop :=
  ∃ t, coeff v i = some t ∧ t ≠ 0

instance (v : VectorXb) (i : Int) : Decidable (isSel v i) :=
  match h : coeff v i with
  | none => isFalse (by rintro ⟨t, ht, _⟩; rw [h] at ht; cases ht)
  | some t =>
    if h0 : t = 0 then isFalse (by rintro ⟨t1, ht, hne⟩; rw [h] at ht; cases ht; exact hne h0)
    else isTrue ⟨t, h, h0⟩

/-- Entry of bone `j` once the bones below a selected parent are cleared in `Y`. -/
def cleared (P : VectorXi) (Y : VectorXb) (j : Nat) : Int :=
  if isSel Y (j : Int) ∧ isSel Y (parentOf P (j : Int)) then 0 else Y.getD j 0

/-- Rigid-group ids are valid indices of `SRP`: none is negative. -/
def ValidGroups (RP : VectorXi) : Prop := ∀ g ∈ RP, 0 ≤ g

instance (RP : VectorXi) : Decidable (ValidGroups RP) := by
  unfold ValidGroups; infer_instance

/-- Well-formed input of the normalisation for `n` bones: at least one bone, arrays
of matching length, `P` a forest and no negative rigid-group id. -/
def WellFormed (n : Nat) (P RP : VectorXi) : Prop :=
  0 < n ∧ P.length = n ∧ RP.length = n ∧ IsForest P ∧ ValidGroups RP

instance (n : Nat) (P RP : VectorXi) : Decidable (WellFormed n P RP) := by
  unfold WellFormed; infer_instance

/-- The rig handed to `set_selection` fits the controller: forward kinematics
returns one rotation and one translation per bone, and both ends of every bone
are rows of `C`. -/
def ValidRig (env : Collaborators) (rots : RotationList) (C : List Vector3d)
    (BE : List (Int × Int)) (P : VectorXi) : Prop :=
  (env.forward_kinematics C BE P rots).1.length = BE.length ∧
  (env.forward_kinematics C BE P rots).2.length = BE.length ∧
  ∀ be ∈ BE, (0 ≤ be.1 ∧ be.1 < (C.length : Int)) ∧ (0 ≤ be.2 ∧ be.2 < (C.length : Int))

instance (env : Collaborators) (rots : RotationList) (C : List Vector3d)
    (BE : List (Int × Int)) (P : VectorXi) : Decidable (ValidRig env rots C BE P) := by
  unfold ValidRig; infer_instance

/-- The projected segment of bone `e` meets the marquee of `c`: with `(vQ,vT)` the
forward kinematics of the current rotations, both end points of the bone are moved
by `vT[e]` and `vQ[e]`, projected, and tested against the rectangle with corners
`(m_down_x, m_height - m_down_y)` and `(m_drag_x, m_height - m_drag_y)`. False when
`e` is not a bone of the rig. -/
def bone_in_marquee (env : Collaborators) (c : MouseController) (C : List Vector3d)
    (BE : List (Int × Int)) (P : VectorXi) (e : Nat) : Bool :=
  match BE[e]?, (env.forward_kinematics C BE P c.m_rotations).2[e]?,
      (env.forward_kinematics C BE P c.m_rotations).1[e]? with
  | some be, some t, some q =>
    match rowAt C be.1, rowAt C be.2 with
    | some s0, some d0 =>
      env.line_segment_in_rectangle
        ((env.project (env.transform t q s0)).x, (env.project (env.transform t q s0)).y)
        ((env.project (env.transform t q d0)).x, (env.project (env.transform t q d0)).y)
        ((c.m_down_x : ℚ), ((c.m_height - c.m_down_y : Int) : ℚ))
        ((c.m_drag_x : ℚ), ((c.m_height - c.m_drag_y : Int) : ℚ))
    | _, _ => false
  | _, _, _ => false

/-- Every seen bone has no parent or a seen parent. -/
def SeenClosed (P : VectorXi) (seen : List Bool) : Prop :=
  ∀ i : Nat, seen[i]? = some true →
    parentOf P (i : Int) = -1 ∨ ∃ p : Nat, parentOf P (i : Int) = (p : Int) ∧ seen[p]? = some true

/-- Every seen bone below a true parent has the lowest bit of its entry set. -/
def LowBit (P : VectorXi) (T : VectorXb) (seen : List Bool) : Prop :=
  ∀ (i : Nat) (t : Int), seen[i]? = some true → T[i]? = some t →
    isSel T (parentOf P (i : Int)) → Int.lor t 1 = t

/-- The entry of every seen bone is `0` or `1`, unless the bone is an ancestor of
a bone with a smaller index. -/
def NormOrCovered (P : VectorXi) (T : VectorXb) (seen : List Bool) : Prop :=
  ∀ (i : Nat) (t : Int), seen[i]? = some true → T[i]? = some t →
    (t = 0 ∨ t = 1) ∨ ∃ e k : Nat, e < i ∧ ancestorAt P k (e : Int) = (i : Int)

/-- Bone `e` or one of its ancestors is selected in `S`. -/
def Anc (S : VectorXb) (P : VectorXi) (e : Int) : Prop :=
  ∃ k, isSel S (ancestorAt P k e)

/-- State invariant of the memoised upward look-up; `pend` holds the bones whose
call is still on the stack. -/
structure LookInv (S : VectorXb) (P : VectorXi) (pend : Nat → Prop)
    (T : VectorXb) (seen : List Bool) : Prop where
  lenT : T.length = S.length
  lenSeen : seen.length = S.length
  unseen : ∀ i : Nat, seen[i]? = some false → T[i]? = S[i]? ∧ ¬ pend i
  done : ∀ i : Nat, seen[i]? = some true → ¬ pend i →
    ∃ t, T[i]? = some t ∧ (t ≠ 0 ↔ Anc S P (i : Int))
  pending : ∀ i : Nat, pend i → T[i]? = S[i]?

/-! ### Generic facts -/

theorem forLoop_inv {σ : Type} (body : Nat → σ → Option σ) (Inv : Nat → σ → Prop)
    (k lo : Nat)
    (hstep : ∀ e s, lo ≤ e → e < lo + k → Inv e s → ∃ s1, body e s = some s1 ∧ Inv (e + 1) s1)
    (s : σ) (h0 : Inv lo s) :
    ∃ s1, forLoop body k lo s = some s1 ∧ Inv (lo + k) s1 := by
  induction k generalizing lo s with
  | zero => exact ⟨s, rfl, h0⟩
  | succ k ih =>
    obtain ⟨s1, hb, hi⟩ := hstep lo s (le_refl _) (by omega) h0
    obtain ⟨s2, hl, hi2⟩ := ih (lo + 1)
      (fun e t h1 h2 hI => hstep e t (by omega) (by omega) hI) s1 hi
    refine ⟨s2, ?_, ?_⟩
    · simp only [forLoop, hb, hl]
    · have : lo + (k + 1) = lo + 1 + k := by omega
      rw [this]; exact hi2

theorem nat_lor_eq_zero (a b : Nat) (h : a ||| b = 0) : a = 0 ∧ b = 0 := by
  constructor
  · apply Nat.eq_of_testBit_eq; intro i
    have := congrArg (fun x => x.testBit i) h
    simp at this; simp [this.1]
  · apply Nat.eq_of_testBit_eq; intro i
    have := congrArg (fun x => x.testBit i) h
    simp at this; simp [this.2]

theorem lor_eq_zero_iff (a b : Int) : Int.lor a b = 0 ↔ a = 0 ∧ b = 0 := by
  constructor
  · intro h
    cases a <;> cases b <;> simp only [Int.lor] at h
    · rename_i a b
      have h2 : a ||| b = 0 := by exact_mod_cast h
      have := nat_lor_eq_zero a b h2
      simp [this.1, this.2]
    all_goals (exact absurd h (by simp))
  · rintro ⟨rfl, rfl⟩; rfl

theorem coeff_natCast (v : List Int) (i : Nat) : coeff v (i : Int) = v[i]? := by
  simp [coeff]

theorem isSel_natCast (v : VectorXb) (i : Nat) :
    isSel v (i : Int) ↔ ∃ t, v[i]? = some t ∧ t ≠ 0 := by
  simp [isSel, coeff_natCast]

theorem not_isSel_neg (v : VectorXb) (i : Int) (h : i < 0) : ¬ isSel v i := by
  rintro ⟨t, ht, _⟩
  have : ¬ (0 ≤ i) := by omega
  simp [coeff, this] at ht

/-! ### Ancestors -/

theorem parentOf_neg (P : VectorXi) (e : Int) (h : e < 0) : parentOf P e = -1 := by
  have : ¬ (0 ≤ e) := by omega
  simp [parentOf, this]

theorem ancestorAt_neg_one (P : VectorXi) (k : Nat) : ancestorAt P k (-1) = -1 := by
  induction k with
  | zero => rfl
  | succ k ih => simp only [ancestorAt]; rw [parentOf_neg P (-1) (by omega)]; exact ih

theorem ancestorAt_add (P : VectorXi) (j k : Nat) (e : Int) :
    ancestorAt P (j + k) e = ancestorAt P k (ancestorAt P j e) := by
  induction j generalizing e with
  | zero => simp [ancestorAt]
  | succ j ih =>
    have : j + 1 + k = (j + k) + 1 := by omega
    rw [this]; simp only [ancestorAt]; exact ih _

theorem ancestorAt_ge (P : VectorXi) (j k : Nat) (e : Int) (hjk : j ≤ k)
    (h : ancestorAt P j e = -1) : ancestorAt P k e = -1 := by
  obtain ⟨d, rfl⟩ := Nat.exists_eq_add_of_le hjk
  rw [ancestorAt_add, h, ancestorAt_neg_one]

theorem ancestorAt_mul_fixed (P : VectorXi) (k : Nat) (e : Int) (h : ancestorAt P k e = e)
    (m : Nat) : ancestorAt P (m * k) e = e := by
  induction m with
  | zero => simp [ancestorAt]
  | succ m ih =>
    have : (m + 1) * k = m * k + k := by ring
    rw [this, ancestorAt_add, ih, h]

/-- In a forest no bone is its own proper ancestor. -/
theorem IsForest.no_cycle {P : VectorXi} (hF : IsForest P) (e : Nat) (he : e < P.length)
    (k : Nat) (hk : 0 < k) : ancestorAt P k (e : Int) ≠ (e : Int) := by
  intro h
  have h1 := ancestorAt_mul_fixed P k e h P.length
  have h2 := ancestorAt_ge P P.length (P.length * k) e (Nat.le_mul_of_pos_right _ hk) (hF.2 e he)
  rw [h1] at h2
  omega

theorem parentOf_of_getElem? (P : VectorXi) (i : Nat) (p : Int) (h : P[i]? = some p) :
    parentOf P (i : Int) = p := by
  simp [parentOf, h]

theorem ValidParents.getElem? {P : VectorXi} (hV : ValidParents P) (i : Nat) (p : Int)
    (h : P[i]? = some p) : p = -1 ∨ (0 ≤ p ∧ p < (P.length : Int)) := by
  obtain ⟨hi, rfl⟩ := List.getElem?_eq_some.1 h
  exact hV _ (List.getElem_mem _)

theorem Anc_neg_one (S : VectorXb) (P : VectorXi) : ¬ Anc S P (-1) := by
  rintro ⟨k, hk⟩
  rw [ancestorAt_neg_one] at hk
  exact not_isSel_neg S (-1) (by omega) hk

theorem Anc_step (S : VectorXb) (P : VectorXi) (e : Int) :
    Anc S P e ↔ isSel S e ∨ Anc S P (parentOf P e) := by
  constructor
  · rintro ⟨k, hk⟩
    cases k with
    | zero => exact Or.inl hk
    | succ k => exact Or.inr ⟨k, hk⟩
  · rintro (h | ⟨k, hk⟩)
    · exact ⟨0, h⟩
    · exact ⟨k + 1, hk⟩

/-! ### The memoised look-up -/

theorem look_up_spec (S : VectorXb) (P : VectorXi) (hlen : P.length = S.length)
    (hF : IsForest P) :
    ∀ (fuel : Nat) (e : Int) (T : VectorXb) (seen : List Bool) (pend : Nat → Prop) (h : Nat),
      LookInv S P pend T seen →
      (e = -1 ∨ (0 ≤ e ∧ e < (S.length : Int))) →
      ancestorAt P h e = -1 → h < fuel →
      (∀ (k i : Nat), ancestorAt P k e = (i : Int) → ¬ pend i) →
      ∃ b T1 seen1, look_up P fuel e (T, seen) = some (b, (T1, seen1)) ∧
        (b = true ↔ Anc S P e) ∧ LookInv S P pend T1 seen1 ∧
        (∀ i : Nat, seen[i]? = some true → seen1[i]? = some true) ∧
        (0 ≤ e → seen1[e.toNat]? = some true) := by
  intro fuel
  induction fuel with
  | zero => intro e T seen pend h _ _ _ hlt; omega
  | succ fuel ih =>
    intro e T seen pend h hI he hh hlt hpend
    rcases he with rfl | ⟨he0, hen⟩
    · refine ⟨false, T, seen, by simp [look_up], ?_, hI, fun i hi => hi, by omega⟩
      simp [Anc_neg_one]
    · obtain ⟨i, rfl⟩ := Int.eq_ofNat_of_zero_le he0
      have hi : i < S.length := by exact_mod_cast hen
      have hne : ¬ ((i : Int) = -1) := by omega
      have hnn : ¬ ((i : Int) < 0) := by omega
      have hseen : ∃ sn, seen[i]? = some sn := by
        have : i < seen.length := by rw [hI.lenSeen]; exact hi
        exact ⟨seen[i], List.getElem?_eq_getElem this⟩
      obtain ⟨sn, hs⟩ := hseen
      cases sn with
      | true =>
        obtain ⟨t, ht, htA⟩ := hI.done i hs (hpend 0 i rfl)
        refine ⟨truthy t, T, seen, ?_, ?_, hI, fun j hj => hj, fun _ => by simpa using hs⟩
        · simp [look_up, hne, hnn, hs, ht]
        · simp only [truthy, decide_eq_true_eq]; exact htA
      | false =>
        obtain ⟨hTS, hnp⟩ := hI.unseen i hs
        have hPi : i < P.length := by omega
        have hp : P[i]? = some P[i] := List.getElem?_eq_getElem hPi
        have hpar := parentOf_of_getElem? P i _ hp
        have hval := hF.1.getElem? i _ hp
        rw [hlen] at hval
        cases h with
        | zero => simp [ancestorAt] at hh
        | succ h1 =>
          have hh1 : ancestorAt P h1 P[i] = -1 := by
            simpa [ancestorAt, hpar] using hh
          have hI1 : LookInv S P (fun j => pend j ∨ j = i) T (seen.set i true) := by
            refine ⟨hI.lenT, by simp [hI.lenSeen], ?_, ?_, ?_⟩
            · intro j hj
              rw [List.getElem?_set] at hj
              by_cases hij : i = j
              · subst hij; simp at hj
              · simp only [hij, if_false] at hj
                obtain ⟨h1, h2⟩ := hI.unseen j hj
                exact ⟨h1, fun h3 => h3.elim h2 (fun h4 => hij h4.symm)⟩
            · intro j hj hnpj
              have hij : i ≠ j := fun h => hnpj (Or.inr h.symm)
              rw [List.getElem?_set_ne hij] at hj
              exact hI.done j hj (fun h => hnpj (Or.inl h))
            · rintro j (hj | rfl)
              · exact hI.pending j hj
              · exact hTS
          have hpend1 : ∀ (k j : Nat), ancestorAt P k P[i] = (j : Int) →
              ¬ (pend j ∨ j = i) := by
            intro k j hk hj
            have hk1 : ancestorAt P (k + 1) (i : Int) = (j : Int) := by
              simp only [ancestorAt, hpar]; exact hk
            rcases hj with hj | rfl
            · exact hpend (k + 1) j hk1 hj
            · exact hF.no_cycle j hPi (k + 1) (by omega) hk1
          obtain ⟨b, T1, seen1, hrun, hb, hJ, hmono, _⟩ :=
            ih P[i] T (seen.set i true) _ h1 hI1 hval hh1 (by omega) hpend1
          have hT1 : T1[i]? = S[i]? := hJ.pending i (Or.inr rfl)
          have hSi : S[i]? = some S[i] := List.getElem?_eq_getElem hi
          have hseen1 : seen1[i]? = some true := by
            apply hmono
            rw [List.getElem?_set]
            have : i < seen.length := by rw [hI.lenSeen]; exact hi
            simp [this]
          have hiT1 : i < T1.length := by rw [hJ.lenT]; exact hi
          have hmean : Int.lor S[i] (ofBool b) ≠ 0 ↔ Anc S P (i : Int) := by
            rw [Anc_step, hpar, ← hb, isSel_natCast, hSi]
            rw [Ne, lor_eq_zero_iff]
            cases b <;> simp [ofBool]
          refine ⟨truthy (Int.lor S[i] (ofBool b)), T1.set i (Int.lor S[i] (ofBool b)), seen1,
            ?_, ?_, ?_, ?_, fun _ => by simpa using hseen1⟩
          · simp [look_up, hne, hnn, hs, hp, hrun, hT1, hSi, hiT1]
          · simp only [truthy, decide_eq_true_eq]; exact hmean
          · refine ⟨by simp [hJ.lenT], hJ.lenSeen, ?_, ?_, ?_⟩
            · intro j hj
              have hij : i ≠ j := by
                rintro rfl; rw [hseen1] at hj; cases hj
              obtain ⟨h1, h2⟩ := hJ.unseen j hj
              rw [List.getElem?_set_ne hij]
              exact ⟨h1, fun h3 => h2 (Or.inl h3)⟩
            · intro j hj hnpj
              by_cases hij : i = j
              · subst hij
                exact ⟨_, by simp [hiT1], hmean⟩
              · rw [List.getElem?_set_ne hij]
                exact hJ.done j hj (fun h => h.elim hnpj (fun h4 => hij h4.symm))
            · intro j hj
              have hij : i ≠ j := by rintro rfl; exact hnp hj
              rw [List.getElem?_set_ne hij]
              exact hJ.pending j (Or.inl hj)
          · intro j hj
            apply hmono
            by_cases hij : i = j
            · subst hij; rw [hs] at hj; cases hj
            · rw [List.getElem?_set_ne hij]; exact hj

theorem propogate_body_spec (S : VectorXb) (P : VectorXi) (hlen : P.length = S.length)
    (hF : IsForest P) (fuel : Nat) (hfuel : S.length < fuel) (e : Nat) (he : e < S.length)
    (st : VectorXb × List Bool)
    (hI : LookInv S P (fun _ => False) st.1 st.2 ∧ ∀ i : Nat, i < e → st.2[i]? = some true) :
    ∃ st1, propogate_body fuel P e st = some st1 ∧
      (LookInv S P (fun _ => False) st1.1 st1.2 ∧
        ∀ i : Nat, i < e + 1 → st1.2[i]? = some true) := by
  obtain ⟨T, seen⟩ := st
  obtain ⟨hL, hall⟩ := hI
  simp only at hL hall
  have hseen : ∃ sn, seen[e]? = some sn := by
    have : e < seen.length := by rw [hL.lenSeen]; exact he
    exact ⟨seen[e], List.getElem?_eq_getElem this⟩
  obtain ⟨sn, hs⟩ := hseen
  cases sn with
  | true =>
    refine ⟨(T, seen), by simp [propogate_body, hs], hL, ?_⟩
    intro i hi
    rcases Nat.lt_succ_iff_lt_or_eq.1 hi with h | rfl
    · exact hall i h
    · exact hs
  | false =>
    have hanc : ancestorAt P S.length (e : Int) = -1 := by
      have := hF.2 e (by omega)
      rwa [hlen] at this
    obtain ⟨b, T1, seen1, hrun, hb, hJ, hmono, hse⟩ :=
      look_up_spec S P hlen hF fuel (e : Int) T seen (fun _ => False) S.length hL
        (Or.inr ⟨by omega, by exact_mod_cast he⟩) hanc hfuel (fun _ _ _ h => h)
    have hse1 : seen1[e]? = some true := by simpa using hse (by omega)
    refine ⟨(T1.set e (ofBool b), seen1), by simp [propogate_body, hs, hrun], ?_, ?_⟩
    · refine ⟨by simp [hJ.lenT], hJ.lenSeen, ?_, ?_, fun j hj => hj.elim⟩
      · intro j hj
        have hij : e ≠ j := by rintro rfl; rw [hse1] at hj; cases hj
        simp only [List.getElem?_set_ne hij]
        exact hJ.unseen j hj
      · intro j hj hnp
        by_cases hij : e = j
        · subst hij
          have : e < T1.length := by rw [hJ.lenT]; exact he
          refine ⟨ofBool b, by simp [this], ?_⟩
          rw [← hb]; cases b <;> simp [ofBool]
        · simp only [List.getElem?_set_ne hij]
          exact hJ.done j hj hnp
    · intro i hi
      rcases Nat.lt_succ_iff_lt_or_eq.1 hi with h | rfl
      · exact hmono i (hall i h)
      · exact hse1

theorem propogate_all_done (S : VectorXb) (P : VectorXi) (hlen : P.length = S.length)
    (hF : IsForest P) (fuel : Nat) (hfuel : S.length < fuel) :
    ∃ T, propogate_to_descendants_if fuel S P = some T ∧ T.length = S.length ∧
      ∀ e : Nat, e < S.length → (isSel T (e : Int) ↔ Anc S P (e : Int)) := by
  have hinit : LookInv S P (fun _ => False) S (List.replicate S.length false) ∧
      ∀ i : Nat, i < 0 → (List.replicate S.length false)[i]? = some true := by
    refine ⟨⟨rfl, by simp, ?_, ?_, fun j hj => hj.elim⟩, fun i hi => by omega⟩
    · intro i _; exact ⟨rfl, fun h => h⟩
    · intro i hi
      rw [List.getElem?_replicate] at hi
      split at hi <;> simp at hi
  obtain ⟨st1, hrun, hL, hall⟩ := forLoop_inv (propogate_body fuel P)
    (fun k st => LookInv S P (fun _ => False) st.1 st.2 ∧
      ∀ i : Nat, i < k → st.2[i]? = some true) S.length 0
    (fun e st _ he hI => propogate_body_spec S P hlen hF fuel hfuel e (by omega) st hI)
    (S, List.replicate S.length false) hinit
  refine ⟨st1.1, ?_, hL.lenT, ?_⟩
  · simp [propogate_to_descendants_if, hlen, hrun]
  · intro e he
    obtain ⟨t, ht, hmean⟩ := hL.done e (hall e (by omega)) (fun h => h)
    rw [isSel_natCast, ht]
    simpa using hmean

theorem Anc_iff_proper (S : VectorXb) (P : VectorXi) (e : Int) :
    Anc S P e ↔ isSel S e ∨ ∃ k, 0 < k ∧ isSel S (ancestorAt P k e) := by
  constructor
  · rintro ⟨k, hk⟩
    cases k with
    | zero => exact Or.inl hk
    | succ k => exact Or.inr ⟨k + 1, by omega, hk⟩
  · rintro (h | ⟨k, _, hk⟩)
    · exact ⟨0, h⟩
    · exact ⟨k, hk⟩

theorem parentOf_valid {P : VectorXi} (hV : ValidParents P) (e : Nat) (he : e < P.length) :
    parentOf P (e : Int) = -1 ∨
      ∃ p : Nat, p < P.length ∧ parentOf P (e : Int) = (p : Int) := by
  have hp : P[e]? = some P[e] := List.getElem?_eq_getElem he
  rw [parentOf_of_getElem? P e _ hp]
  rcases hV.getElem? e _ hp with h | ⟨h0, h1⟩
  · exact Or.inl h
  · obtain ⟨p, hp⟩ := Int.eq_ofNat_of_zero_le h0
    exact Or.inr ⟨p, by rw [hp] at h1; exact_mod_cast h1, hp⟩

/-- C1: for a forest `P` and a selection `S` of the same length,
`propogate_to_descendants_if` returns a vector `T` of that length in which bone `e`
is true exactly when `S[e]` is true or `S[a]` is true for a proper ancestor `a`
of `e`; equivalently `T[e] = S[e] OR T[P[e]]`, where `T[-1]` counts as false. -/
theorem propogate_to_descendants_if_spec (S : VectorXb) (P : VectorXi)
    (hlen : P.length = S.length) (hF : IsForest P) (fuel : Nat) (hfuel : S.length < fuel) :
    ∃ T, propogate_to_descendants_if fuel S P = some T ∧ T.length = S.length ∧
      ∀ e : Nat, e < S.length →
        (isSel T (e : Int) ↔
          isSel S (e : Int) ∨ ∃ k, 0 < k ∧ isSel S (ancestorAt P k (e : Int))) ∧
        (isSel T (e : Int) ↔ isSel S (e : Int) ∨ isSel T (parentOf P (e : Int))) := by
  obtain ⟨T, hrun, hlenT, hT⟩ := propogate_all_done S P hlen hF fuel hfuel
  refine ⟨T, hrun, hlenT, fun e he => ⟨?_, ?_⟩⟩
  · rw [hT e he]; exact Anc_iff_proper S P _
  · rw [hT e he, Anc_step]
    have hpar : isSel T (parentOf P (e : Int)) ↔ Anc S P (parentOf P (e : Int)) := by
      rcases parentOf_valid hF.1 e (by omega) with h | ⟨p, hp, h⟩
      · rw [h]
        exact ⟨fun h1 => absurd h1 (not_isSel_neg T (-1) (by omega)),
          fun h1 => absurd h1 (Anc_neg_one S P)⟩
      · rw [h]; exact hT p (by omega)
    rw [hpar]

/-- C1, at the chain `0→1→2→3` with bone 1 picked. -/
theorem propogate_to_descendants_if_spec_witness :
    ∃ T, propogate_to_descendants_if 5 [0, 1, 0, 0] [-1, 0, 1, 2] = some T ∧
      T.length = ([0, 1, 0, 0] : VectorXb).length ∧
      ∀ e : Nat, e < ([0, 1, 0, 0] : VectorXb).length →
        (isSel T (e : Int) ↔ isSel [0, 1, 0, 0] (e : Int) ∨
          ∃ k, 0 < k ∧ isSel [0, 1, 0, 0] (ancestorAt [-1, 0, 1, 2] k (e : Int))) ∧
        (isSel T (e : Int) ↔
          isSel [0, 1, 0, 0] (e : Int) ∨ isSel T (parentOf [-1, 0, 1, 2] (e : Int))) :=
  propogate_to_descendants_if_spec [0, 1, 0, 0] [-1, 0, 1, 2] (by decide) (by decide) 5
    (by decide)

/-! ### Bitwise or on `int` -/

theorem int_zero_lor (v : Int) : Int.lor 0 v = v := by
  cases v with
  | ofNat n =>
    show Int.lor (Int.ofNat 0) (Int.ofNat n) = _
    simp [Int.lor]
  | negSucc n =>
    show Int.lor (Int.ofNat 0) (Int.negSucc n) = _
    simp only [Int.lor]
    congr 1
    apply Nat.eq_of_testBit_eq; intro i
    simp [Nat.testBit_ldiff]

theorem int_lor_zero (v : Int) : Int.lor v 0 = v := by
  cases v with
  | ofNat n =>
    show Int.lor (Int.ofNat n) (Int.ofNat 0) = _
    simp [Int.lor]
  | negSucc n =>
    show Int.lor (Int.negSucc n) (Int.ofNat 0) = _
    simp only [Int.lor]
    congr 1
    apply Nat.eq_of_testBit_eq; intro i
    simp [Nat.testBit_ldiff]

theorem int_lor_self (v : Int) : Int.lor v v = v := by
  cases v with
  | ofNat n => simp [Int.lor]
  | negSucc n => simp [Int.lor]

/-! ### Spreading over rigid groups -/

theorem foldl_max_ge (xs : List Int) (x : Int) :
    x ≤ xs.foldl max x ∧ ∀ g ∈ xs, g ≤ xs.foldl max x := by
  induction xs generalizing x with
  | nil => simp
  | cons y ys ih =>
    simp only [List.foldl_cons, List.mem_cons]
    obtain ⟨h1, h2⟩ := ih (max x y)
    refine ⟨le_trans (le_max_left x y) h1, ?_⟩
    rintro g (rfl | hg)
    · exact le_trans (le_max_right x g) h1
    · exact h2 g hg

theorem maxCoeff_spec (RP : VectorXi) (h : 0 < RP.length) :
    ∃ m, maxCoeff RP = some m ∧ ∀ g ∈ RP, g ≤ m := by
  cases RP with
  | nil => simp at h
  | cons x xs =>
    refine ⟨xs.foldl max x, rfl, ?_⟩
    intro g hg
    rcases List.mem_cons.1 hg with rfl | hg
    · exact (foldl_max_ge xs g).1
    · exact (foldl_max_ge xs x).2 g hg

theorem spread_gather_spec (RP : VectorXi) (sel : VectorXb) (M : Nat)
    (hRP : RP.length = sel.length) (hV : ValidGroups RP)
    (hM : ∀ g ∈ RP, g.toNat < M) (e : Nat) (he : e < sel.length) (SRP : VectorXb)
    (hI : SRP.length = M ∧ ∀ g : Nat, g < M → SRP[g]? = some (groupOr RP sel e (g : Int))) :
    ∃ SRP1, spread_gather RP sel e SRP = some SRP1 ∧
      (SRP1.length = M ∧
        ∀ g : Nat, g < M → SRP1[g]? = some (groupOr RP sel (e + 1) (g : Int))) := by
  obtain ⟨hlen, hval⟩ := hI
  have heR : e < RP.length := by omega
  have hg : RP[e]? = some RP[e] := List.getElem?_eq_getElem heR
  have hs : sel[e]? = some sel[e] := List.getElem?_eq_getElem he
  have hmem : RP[e] ∈ RP := List.getElem_mem _
  obtain ⟨gn, hgn⟩ := Int.eq_ofNat_of_zero_le (hV _ hmem)
  have hgM : gn < M := by
    have := hM _ hmem
    rw [hgn] at this; simpa using this
  have hc : coeff SRP RP[e] = some (groupOr RP sel e (gn : Int)) := by
    rw [hgn, coeff_natCast]; exact hval gn hgM
  refine ⟨SRP.set gn (Int.lor (groupOr RP sel e (gn : Int)) sel[e]), ?_, by simp [hlen], ?_⟩
  · simp only [spread_gather, hg, hs, hc]
    rw [hgn]; simp
  · intro g hgl
    by_cases hgg : gn = g
    · subst hgg
      have : gn < SRP.length := by omega
      simp [groupOr, hg, hgn, hs, this]
    · rw [List.getElem?_set_ne hgg, hval g hgl]
      have : ¬ (RP[e]? = some (g : Int)) := by
        rw [hg, hgn]; simp; exact hgg
      simp [groupOr, this]

theorem spread_scatter_spec (RP : VectorXi) (SRP : VectorXb) (n : Nat) (val : Int → Int)
    (hRP : RP.length = n) (hV : ValidGroups RP)
    (hS : ∀ g ∈ RP, SRP[g.toNat]? = some (val g))
    (e : Nat) (he : e < n) (sel : VectorXb)
    (hI : sel.length = n ∧ ∀ j : Nat, j < e → sel[j]? = some (val (RP.getD j 0))) :
    ∃ sel1, spread_scatter RP SRP e sel = some sel1 ∧
      (sel1.length = n ∧ ∀ j : Nat, j < e + 1 → sel1[j]? = some (val (RP.getD j 0))) := by
  obtain ⟨hlen, hval⟩ := hI
  have heR : e < RP.length := by omega
  have hg : RP[e]? = some RP[e] := List.getElem?_eq_getElem heR
  have hmem : RP[e] ∈ RP := List.getElem_mem _
  have hc : coeff SRP RP[e] = some (val RP[e]) := by
    simp only [coeff, hV _ hmem, if_true]; exact hS _ hmem
  have hel : e < sel.length := by omega
  refine ⟨sel.set e (val RP[e]), by simp [spread_scatter, hg, hc, hel], by simp [hlen], ?_⟩
  intro j hj
  by_cases hje : e = j
  · subst hje
    simp [hel, hg]
  · rw [List.getElem?_set_ne hje]
    exact hval j (by omega)

/-- Spreading gives every bone the or of the bits of its rigid group. -/
theorem spread_spec (RP : VectorXi) (sel : VectorXb) (hRP : RP.length = sel.length)
    (hV : ValidGroups RP) (hpos : 0 < sel.length) :
    ∃ Y, spread sel.length RP sel = some Y ∧ Y.length = sel.length ∧
      ∀ j : Nat, j < sel.length →
        Y[j]? = some (groupOr RP sel sel.length (RP.getD j 0)) := by
  obtain ⟨m, hm, hmax⟩ := maxCoeff_spec RP (by omega)
  have hm0 : 0 ≤ m := by
    have h0 : 0 < RP.length := by omega
    have hmem : RP[0] ∈ RP := List.getElem_mem _
    exact le_trans (hV _ hmem) (hmax _ hmem)
  have hM : ∀ g ∈ RP, g.toNat < (m + 1).toNat := by
    intro g hg
    have := hmax g hg
    have := hV g hg
    omega
  obtain ⟨SRP, hgather, hlenS, hvalS⟩ := forLoop_inv (spread_gather RP sel)
    (fun k SRP => SRP.length = (m + 1).toNat ∧
      ∀ g : Nat, g < (m + 1).toNat → SRP[g]? = some (groupOr RP sel k (g : Int)))
    sel.length 0
    (fun e SRP _ he hI => spread_gather_spec RP sel _ hRP hV hM e (by omega) SRP hI)
    (List.replicate (m + 1).toNat 0)
    ⟨by simp, fun g hg => by simp [List.getElem?_replicate, hg, groupOr]⟩
  simp only [Nat.zero_add] at hgather hvalS
  have hS : ∀ g ∈ RP, SRP[g.toNat]? = some (groupOr RP sel sel.length g) := by
    intro g hg
    have h1 := hvalS g.toNat (hM g hg)
    rwa [Int.toNat_of_nonneg (hV g hg)] at h1
  obtain ⟨Y, hscatter, hlenY, hvalY⟩ := forLoop_inv (spread_scatter RP SRP)
    (fun k sel1 => sel1.length = sel.length ∧
      ∀ j : Nat, j < k → sel1[j]? = some (groupOr RP sel sel.length (RP.getD j 0)))
    sel.length 0
    (fun e sel1 _ he hI =>
      spread_scatter_spec RP SRP sel.length _ hRP hV hS e (by omega) sel1 hI)
    sel ⟨rfl, fun j hj => by omega⟩
  simp only [Nat.zero_add] at hscatter hvalY
  refine ⟨Y, ?_, hlenY, hvalY⟩
  have : ¬ (m + 1 < 0) := by omega
  simp [spread, hm, this, hgather, hscatter]

/-! ### Clearing below selected parents -/

theorem cleared_of_not_parent (P : VectorXi) (Y : VectorXb) (j : Nat)
    (h : ¬ isSel Y (parentOf P (j : Int))) : cleared P Y j = Y.getD j 0 := by
  simp [cleared, h]

theorem cleared_of_not_sel (P : VectorXi) (Y : VectorXb) (j : Nat)
    (h : ¬ isSel Y (j : Int)) : cleared P Y j = Y.getD j 0 := by
  simp [cleared, h]

theorem getElem?_eq_getD (Y : List Int) (j : Nat) (h : j < Y.length) :
    Y[j]? = some (Y.getD j 0) := by
  simp [List.getElem?_eq_getElem h]

theorem propagate_walk_spec (P : VectorXi) (Y : VectorXb) (hlen : P.length = Y.length)
    (hV : ValidParents P) :
    ∀ (fuel f : Nat) (N : VectorXb) (h : Nat),
      f < Y.length → ancestorAt P h (f : Int) = -1 → h ≤ fuel →
      N.length = Y.length →
      (∀ j : Nat, j < Y.length → N[j]? = Y[j]? ∨ N[j]? = some (cleared P Y j)) →
      ∃ N1, propagate_walk P Y fuel f N = some N1 ∧ N1.length = Y.length ∧
        (∀ j : Nat, j < Y.length → N1[j]? = Y[j]? ∨ N1[j]? = some (cleared P Y j)) ∧
        (∀ j : Nat, N[j]? = some (cleared P Y j) → N1[j]? = some (cleared P Y j)) ∧
        (isSel Y (f : Int) → N1[f]? = some (cleared P Y f)) := by
  intro fuel
  induction fuel with
  | zero =>
    intro f N h _ hh hle
    have : h = 0 := by omega
    subst this
    simp [ancestorAt] at hh
  | succ fuel ih =>
    intro f N h hf hh hle hN hI
    have hfP : f < P.length := by omega
    have hp : P[f]? = some P[f] := List.getElem?_eq_getElem hfP
    have hpar := parentOf_of_getElem? P f _ hp
    have hraw : ¬ isSel Y (parentOf P (f : Int)) → N[f]? = some (cleared P Y f) := by
      intro hns
      rcases hI f hf with h1 | h1
      · rw [h1, cleared_of_not_parent P Y f hns]; exact getElem?_eq_getD Y f hf
      · exact h1
    rcases hV.getElem? f _ hp with hneg | ⟨hp0, hpn⟩
    · refine ⟨N, by simp [propagate_walk, hp, hneg], hN, hI, fun j hj => hj, fun _ => ?_⟩
      apply hraw
      rw [hpar, hneg]; exact not_isSel_neg Y (-1) (by omega)
    · obtain ⟨pn, hpe⟩ := Int.eq_ofNat_of_zero_le hp0
      have hpnY : pn < Y.length := by rw [hpe, hlen] at hpn; exact_mod_cast hpn
      have hne : ¬ (P[f] = -1) := by omega
      have hc : coeff Y P[f] = some (Y.getD pn 0) := by
        rw [hpe, coeff_natCast]; exact getElem?_eq_getD Y pn hpnY
      by_cases hsp : Y.getD pn 0 = 0
      · refine ⟨N, by simp only [propagate_walk, hp, hne, hc, hsp, if_true, if_false],
          hN, hI, fun j hj => hj, fun _ => ?_⟩
        apply hraw
        rw [hpar]
        rintro ⟨t, ht, ht0⟩
        rw [hc] at ht
        cases ht
        exact ht0 hsp
      · have hselp : isSel Y (parentOf P (f : Int)) := by
          rw [hpar]; exact ⟨_, hc, hsp⟩
        have hfN : f < N.length := by omega
        have hcl0 : cleared P Y f = 0 := by
          by_cases hsf : isSel Y (f : Int)
          · simp only [cleared, hsf, hselp, and_self, if_true]
          · rw [cleared_of_not_sel P Y f hsf]
            by_contra hne0
            exact hsf ((isSel_natCast Y f).2 ⟨_, getElem?_eq_getD Y f hf, hne0⟩)
        have hset : (N.set f 0)[f]? = some (cleared P Y f) := by
          rw [hcl0, List.getElem?_set_self hfN]
        cases h with
        | zero => simp [ancestorAt] at hh
        | succ h1 =>
          have hh1 : ancestorAt P h1 (pn : Int) = -1 := by
            simp only [ancestorAt, hpar, hpe] at hh; exact hh
          have hI1 : ∀ j : Nat, j < Y.length →
              (N.set f 0)[j]? = Y[j]? ∨ (N.set f 0)[j]? = some (cleared P Y j) := by
            intro j hj
            by_cases hfj : f = j
            · subst hfj; exact Or.inr hset
            · rw [List.getElem?_set_ne hfj]; exact hI j hj
          obtain ⟨N1, hrun, hN1, hJ, hkeep, _⟩ :=
            ih pn (N.set f 0) h1 hpnY hh1 (by omega) (by simp [hN]) hI1
          refine ⟨N1, ?_, hN1, hJ, ?_, ?_⟩
          · simp only [propagate_walk, hp, hne, hc, hsp, hfN, if_false, if_true]
            rw [hpe]; simpa using hrun
          · intro j hj
            apply hkeep
            by_cases hfj : f = j
            · subst hfj; exact hset
            · rw [List.getElem?_set_ne hfj]; exact hj
          · intro _
            exact hkeep f hset

theorem clear_below_spec (P : VectorXi) (Y : VectorXb) (hlen : P.length = Y.length)
    (hF : IsForest P) (fuel : Nat) (hfuel : Y.length ≤ fuel) :
    ∃ X, clear_below fuel P Y = some X ∧ X.length = Y.length ∧
      ∀ j : Nat, j < Y.length → X[j]? = some (cleared P Y j) := by
  obtain ⟨X, hrun, hX, _, hdone⟩ := forLoop_inv (fun e N => propagate fuel P e Y N)
    (fun k N => N.length = Y.length ∧
      (∀ j : Nat, j < Y.length → N[j]? = Y[j]? ∨ N[j]? = some (cleared P Y j)) ∧
      ∀ j : Nat, j < k → N[j]? = some (cleared P Y j))
    P.length 0
    (by
      intro e N _ he ⟨hN, hI, hdone⟩
      have heY : e < Y.length := by omega
      have hs : Y[e]? = some (Y.getD e 0) := getElem?_eq_getD Y e heY
      by_cases h0 : Y.getD e 0 = 0
      · have hns : ¬ isSel Y (e : Int) := by
          rw [isSel_natCast, hs]
          rintro ⟨t, ht, ht0⟩
          cases ht
          exact ht0 h0
        refine ⟨N, by simp only [propagate, hs, h0, ne_eq, not_true, if_false], hN, hI, ?_⟩
        intro j hj
        rcases Nat.lt_succ_iff_lt_or_eq.1 hj with h | rfl
        · exact hdone j h
        · rcases hI j heY with h1 | h1
          · rw [h1, cleared_of_not_sel P Y j hns]; exact hs
          · exact h1
      · have hsel : isSel Y (e : Int) := (isSel_natCast Y e).2 ⟨_, hs, h0⟩
        have hanc : ancestorAt P Y.length (e : Int) = -1 := by
          have := hF.2 e (by omega)
          rwa [hlen] at this
        obtain ⟨N1, hrun, hN1, hJ, hkeep, hself⟩ :=
          propagate_walk_spec P Y hlen hF.1 fuel e N Y.length heY hanc hfuel hN hI
        refine ⟨N1, by simp only [propagate, hs, h0, hrun, ne_eq, not_false_iff, if_true],
          hN1, hJ, ?_⟩
        intro j hj
        rcases Nat.lt_succ_iff_lt_or_eq.1 hj with h | rfl
        · exact hkeep j (hdone j h)
        · exact hself hsel)
    Y ⟨rfl, fun j _ => Or.inl rfl, fun j hj => by omega⟩
  refine ⟨X, hrun, hX, fun j hj => hdone j (by omega)⟩

/-! ### One pass, pointwise -/

theorem getD_of_getElem? (Y : List Int) (j : Nat) (v : Int) (h : Y[j]? = some v) :
    Y.getD j 0 = v := by
  rw [List.getD_eq_getElem?_getD, h]; rfl

theorem isSel_iff_getD (Y : VectorXb) (j : Nat) : isSel Y (j : Int) ↔ Y.getD j 0 ≠ 0 := by
  rw [isSel_natCast, List.getD_eq_getElem?_getD]
  cases h : Y[j]? with
  | none => simp
  | some t => simp

theorem getD_ne_zero_lt (Y : List Int) (j : Nat) (h : Y.getD j 0 ≠ 0) : j < Y.length := by
  by_contra hlt
  apply h
  rw [List.getD_eq_getElem?_getD, List.getElem?_eq_none (by omega)]; rfl

theorem isSel_parent_cases (P : VectorXi) (Y : VectorXb) (j : Nat)
    (h : isSel Y (parentOf P (j : Int))) :
    ∃ pn : Nat, parentOf P (j : Int) = (pn : Int) ∧ Y.getD pn 0 ≠ 0 := by
  obtain ⟨t, ht, ht0⟩ := h
  by_cases h0 : 0 ≤ parentOf P (j : Int)
  · obtain ⟨pn, hpn⟩ := Int.eq_ofNat_of_zero_le h0
    refine ⟨pn, hpn, ?_⟩
    rw [hpn, coeff_natCast] at ht
    rw [getD_of_getElem? Y pn t ht]; exact ht0
  · simp [coeff, h0] at ht

theorem cleared_cases (P : VectorXi) (Y : VectorXb) (j : Nat) :
    cleared P Y j = 0 ∨ cleared P Y j = Y.getD j 0 := by
  unfold cleared
  split
  · exact Or.inl rfl
  · exact Or.inr rfl

theorem cleared_ne_zero_iff (P : VectorXi) (Y : VectorXb) (j : Nat) :
    cleared P Y j ≠ 0 ↔ Y.getD j 0 ≠ 0 ∧ ¬ isSel Y (parentOf P (j : Int)) := by
  have hs := isSel_iff_getD Y j
  unfold cleared
  by_cases h1 : isSel Y (j : Int) <;> by_cases h2 : isSel Y (parentOf P (j : Int))
  · simp only [h1, h2, and_self, if_true]; tauto
  · simp only [h1, h2, and_false, if_false]; tauto
  · simp only [h1, h2, false_and, if_false]; tauto
  · simp only [h1, h2, and_self, if_false]; tauto

theorem groupOr_ne_zero (RP : VectorXi) (x : VectorXb) (k : Nat) (g : Int) :
    groupOr RP x k g ≠ 0 ↔ ∃ e : Nat, e < k ∧ RP[e]? = some g ∧ x.getD e 0 ≠ 0 := by
  induction k with
  | zero => simp [groupOr]
  | succ k ih =>
    unfold groupOr
    split
    · rename_i hg
      rw [Ne, lor_eq_zero_iff, not_and_or]
      constructor
      · rintro (h | h)
        · obtain ⟨e, he, h1, h2⟩ := ih.1 h
          exact ⟨e, by omega, h1, h2⟩
        · exact ⟨k, by omega, hg, h⟩
      · rintro ⟨e, he, h1, h2⟩
        rcases Nat.lt_succ_iff_lt_or_eq.1 he with h | rfl
        · exact Or.inl (ih.2 ⟨e, h, h1, h2⟩)
        · exact Or.inr h2
    · rename_i hg
      rw [ih]
      constructor
      · rintro ⟨e, he, h1, h2⟩
        exact ⟨e, by omega, h1, h2⟩
      · rintro ⟨e, he, h1, h2⟩
        rcases Nat.lt_succ_iff_lt_or_eq.1 he with h | rfl
        · exact ⟨e, h, h1, h2⟩
        · exact absurd h1 hg

theorem groupOr_two_valued (RP : VectorXi) (x : VectorXb) (k : Nat) (g v : Int)
    (h : ∀ e : Nat, e < k → RP[e]? = some g → x.getD e 0 = 0 ∨ x.getD e 0 = v) :
    groupOr RP x k g = 0 ∨ groupOr RP x k g = v := by
  induction k with
  | zero => exact Or.inl rfl
  | succ k ih =>
    have ih1 := ih (fun e he hg => h e (by omega) hg)
    unfold groupOr
    split
    · rename_i hg
      rcases ih1 with h1 | h1 <;> rcases h k (by omega) hg with h2 | h2 <;> rw [h1, h2]
      · exact Or.inl rfl
      · exact Or.inr (int_zero_lor v)
      · exact Or.inr (int_lor_zero v)
      · exact Or.inr (int_lor_self v)
    · exact ih1

/-- Under well-formed input a pass runs to its end; `Y` is the selection after
spreading and `X` the selection after clearing. -/
theorem normalize_pass_spec (n : Nat) (P RP : VectorXi) (hW : WellFormed n P RP)
    (wfuel : Nat) (hfuel : n ≤ wfuel) (x : VectorXb) (hx : x.length = n) :
    ∃ Y X, spread n RP x = some Y ∧ normalize_pass wfuel n P RP x = some X ∧
      Y.length = n ∧ X.length = n ∧
      (∀ j : Nat, j < n → Y.getD j 0 = groupOr RP x n (RP.getD j 0)) ∧
      (∀ j : Nat, j < n → X.getD j 0 = cleared P Y j) := by
  obtain ⟨hpos, hP, hRP, hF, hG⟩ := hW
  subst hx
  obtain ⟨Y, hY, hYl, hYv⟩ := spread_spec RP x hRP hG hpos
  obtain ⟨X, hX, hXl, hXv⟩ := clear_below_spec P Y (by omega) hF wfuel (by omega)
  refine ⟨Y, X, hY, by simp only [normalize_pass, hY, hX], hYl, by omega, ?_, ?_⟩
  · intro j hj; exact getD_of_getElem? _ _ _ (hYv j hj)
  · intro j hj; exact getD_of_getElem? _ _ _ (hXv j (by omega))

theorem list_ext_getD (A B : List Int) (h : A.length = B.length)
    (hv : ∀ j : Nat, j < A.length → A.getD j 0 = B.getD j 0) : A = B := by
  apply List.ext_getElem h
  intro j h1 h2
  have := hv j h1
  rw [List.getD_eq_getElem?_getD, List.getD_eq_getElem?_getD,
    List.getElem?_eq_getElem h1, List.getElem?_eq_getElem h2] at this
  simpa using this

/-! ### The loop settles after the second pass -/

/-- The spread selection of the third pass equals that of the second. -/
theorem spread_stable (n : Nat) (P RP : VectorXi) (hRP : RP.length = n)
    (x0 Y0 x1 Y1 x2 Y2 : VectorXb)
    (hY1l : Y1.length = n) (hY2l : Y2.length = n)
    (hY0 : ∀ j : Nat, j < n → Y0.getD j 0 = groupOr RP x0 n (RP.getD j 0))
    (hx1 : ∀ j : Nat, j < n → x1.getD j 0 = cleared P Y0 j)
    (hY1 : ∀ j : Nat, j < n → Y1.getD j 0 = groupOr RP x1 n (RP.getD j 0))
    (hx2 : ∀ j : Nat, j < n → x2.getD j 0 = cleared P Y1 j)
    (hY2 : ∀ j : Nat, j < n → Y2.getD j 0 = groupOr RP x2 n (RP.getD j 0)) :
    Y2 = Y1 := by
  have hgrp : ∀ (e : Nat) (g : Int), RP[e]? = some g → RP.getD e 0 = g :=
    fun e g h => getD_of_getElem? RP e g h
  have hself : ∀ e : Nat, e < n → RP[e]? = some (RP.getD e 0) :=
    fun e he => getElem?_eq_getD RP e (by omega)
  have h1v : ∀ e : Nat, e < n →
      x1.getD e 0 = 0 ∨ x1.getD e 0 = groupOr RP x0 n (RP.getD e 0) := by
    intro e he
    rw [hx1 e he, ← hY0 e he]; exact cleared_cases P Y0 e
  have hY1v : ∀ j : Nat, j < n →
      Y1.getD j 0 = 0 ∨ Y1.getD j 0 = groupOr RP x0 n (RP.getD j 0) := by
    intro j hj
    rw [hY1 j hj]
    apply groupOr_two_valued
    intro e he hg
    have := h1v e he
    rwa [hgrp e _ hg] at this
  have h2v : ∀ e : Nat, e < n →
      x2.getD e 0 = 0 ∨ x2.getD e 0 = groupOr RP x0 n (RP.getD e 0) := by
    intro e he
    rw [hx2 e he]
    rcases cleared_cases P Y1 e with h | h
    · exact Or.inl h
    · rw [h]; exact hY1v e he
  have hY2v : ∀ j : Nat, j < n →
      Y2.getD j 0 = 0 ∨ Y2.getD j 0 = groupOr RP x0 n (RP.getD j 0) := by
    intro j hj
    rw [hY2 j hj]
    apply groupOr_two_valued
    intro e he hg
    have := h2v e he
    rwa [hgrp e _ hg] at this
  have hiff : ∀ j : Nat, j < n → (Y2.getD j 0 ≠ 0 ↔ Y1.getD j 0 ≠ 0) := by
    intro j hj
    rw [hY2 j hj, hY1 j hj, groupOr_ne_zero, groupOr_ne_zero]
    constructor
    · rintro ⟨e, he, hg, hne⟩
      rw [hx2 e he, cleared_ne_zero_iff, hY1 e he, groupOr_ne_zero] at hne
      obtain ⟨⟨e1, he1, hg1, hne1⟩, _⟩ := hne
      exact ⟨e1, he1, by rw [hg1, hgrp e _ hg], hne1⟩
    · rintro ⟨e, he, hg, hne⟩
      refine ⟨e, he, hg, ?_⟩
      rw [hx2 e he, cleared_ne_zero_iff, hY1 e he, groupOr_ne_zero]
      refine ⟨⟨e, he, hself e he, hne⟩, ?_⟩
      intro hpar
      obtain ⟨pn, hpn, hpv⟩ := isSel_parent_cases P Y1 e hpar
      have hpl : pn < n := by
        have := getD_ne_zero_lt Y1 pn hpv; omega
      rw [hY1 pn hpl, groupOr_ne_zero] at hpv
      obtain ⟨e1, he1, hg1, hne1⟩ := hpv
      rw [hx1 e1 he1, cleared_ne_zero_iff] at hne1
      rw [hx1 e he, cleared_ne_zero_iff] at hne
      apply hne.2
      rw [hpn, isSel_iff_getD, hY0 pn hpl, ← hgrp e1 _ hg1, ← hY0 e1 he1]
      exact hne1.1
  apply list_ext_getD Y2 Y1 (by omega)
  intro j hj
  have hj1 : j < n := by omega
  rcases hY2v j hj1 with h2 | h2 <;> rcases hY1v j hj1 with h1 | h1
  · rw [h1, h2]
  · have h3 : Y1.getD j 0 = 0 := not_not.1 ((hiff j hj1).not.1 (not_not.2 h2))
    rw [h2, h3]
  · have h3 : Y2.getD j 0 = 0 := not_not.1 ((hiff j hj1).not.2 (not_not.2 h1))
    rw [h1, h3]
  · rw [h1, h2]

/-- The normalisation loop ends within three passes for well-formed input, and
what it returns is the selection after two passes, which a further pass leaves
as it is. -/
theorem normalize_loop_spec (n : Nat) (P RP : VectorXi) (hW : WellFormed n P RP)
    (wfuel pfuel : Nat) (hwf : n ≤ wfuel) (hpf : 3 ≤ pfuel) (x0 : VectorXb)
    (hx0 : x0.length = n) :
    ∃ x1 x2, normalize_pass wfuel n P RP x0 = some x1 ∧
      normalize_pass wfuel n P RP x1 = some x2 ∧
      normalize_pass wfuel n P RP x2 = some x2 ∧
      x1.length = n ∧ x2.length = n ∧
      normalize_loop wfuel n P RP pfuel x0 = some x2 := by
  obtain ⟨Y0, x1, hs0, hp0, hY0l, hx1l, hY0, hx1⟩ :=
    normalize_pass_spec n P RP hW wfuel hwf x0 hx0
  obtain ⟨Y1, x2, hs1, hp1, hY1l, hx2l, hY1, hx2⟩ :=
    normalize_pass_spec n P RP hW wfuel hwf x1 hx1l
  obtain ⟨Y2, x3, hs2, hp2, hY2l, hx3l, hY2, hx3⟩ :=
    normalize_pass_spec n P RP hW wfuel hwf x2 hx2l
  have hYY : Y2 = Y1 :=
    spread_stable n P RP hW.2.2.1 x0 Y0 x1 Y1 x2 Y2 hY1l hY2l hY0 hx1 hY1 hx2 hY2
  have h32 : x3 = x2 := by
    apply list_ext_getD x3 x2 (by omega)
    intro j hj
    rw [hx3 j (by omega), hx2 j (by omega), hYY]
  rw [h32] at hp2
  refine ⟨x1, x2, hp0, hp1, hp2, hx1l, hx2l, ?_⟩
  obtain ⟨k, rfl⟩ : ∃ k, pfuel = k + 3 := ⟨pfuel - 3, by omega⟩
  simp only [normalize_loop, hp0]
  by_cases h10 : x1 = x0
  · have h21 : x2 = x1 := by
      rw [h10, hp0] at hp1
      exact (Option.some.inj hp1).symm
    simp only [h10, if_true]
    rw [h21, h10]
  · simp only [h10, if_false, hp1]
    by_cases h21 : x2 = x1
    · simp only [h21, if_true]
    · simp only [h21, if_false, hp2, if_true]

/-! ### `set_selection` on the controller -/

theorem rowAt_of_valid {α : Type} (l : List α) (i : Int) (h0 : 0 ≤ i)
    (h1 : i < (l.length : Int)) : ∃ a, rowAt l i = some a := by
  obtain ⟨k, rfl⟩ := Int.eq_ofNat_of_zero_le h0
  have hk : k < l.length := by exact_mod_cast h1
  exact ⟨l[k], by simp [rowAt, List.getElem?_eq_getElem hk]⟩

theorem widget_sum_total (env : Collaborators) (sel : VectorXb) (C : List Vector3d)
    (BE : List (Int × Int)) (vQ : RotationList) (vT : List Vector3d)
    (hsel : sel.length = BE.length) (hQ : vQ.length = BE.length) (hT : vT.length = BE.length)
    (hBE : ∀ be ∈ BE, (0 ≤ be.1 ∧ be.1 < (C.length : Int)) ∧
      (0 ≤ be.2 ∧ be.2 < (C.length : Int)))
    (acc0 : WidgetSums) :
    ∃ acc, forLoop (widget_sum_body env sel C BE vQ vT) BE.length 0 acc0 = some acc := by
  obtain ⟨acc, h, _⟩ := forLoop_inv (widget_sum_body env sel C BE vQ vT) (fun _ _ => True)
    BE.length 0
    (by
      intro e acc _ he _
      have he1 : e < BE.length := by omega
      have hs : sel[e]? = some sel[e] := List.getElem?_eq_getElem (by omega)
      have hb : BE[e]? = some BE[e] := List.getElem?_eq_getElem he1
      have hq : vQ[e]? = some vQ[e] := List.getElem?_eq_getElem (by omega)
      have ht : vT[e]? = some vT[e] := List.getElem?_eq_getElem (by omega)
      have hmem : BE[e] ∈ BE := List.getElem_mem _
      obtain ⟨s, hs1⟩ := rowAt_of_valid C _ (hBE _ hmem).1.1 (hBE _ hmem).1.2
      obtain ⟨d, hd1⟩ := rowAt_of_valid C _ (hBE _ hmem).2.1 (hBE _ hmem).2.2
      by_cases h0 : sel[e] = 0
      · exact ⟨acc, by simp [widget_sum_body, hs, h0], trivial⟩
      · have hrun : ∃ a, widget_sum_body env sel C BE vQ vT e acc = some a := by
          simp only [widget_sum_body, hs, h0, hb, hs1, hd1, hq, ht, ne_eq,
            not_false_iff, if_true]
          exact ⟨_, rfl⟩
        obtain ⟨a, ha⟩ := hrun
        exact ⟨a, ha, trivial⟩)
    acc0 trivial
  exact ⟨acc, h⟩

/-- The last loop of `set_selection` ends, and it leaves the widget disabled
exactly when root manipulation is off and a selected bone from `s` on is a root. -/
theorem root_scan_spec (re : Bool) (sel : VectorXb) (P : VectorXi) (n : Nat)
    (hsel : sel.length = n) (hP : P.length = n) :
    ∀ (k s : Nat), s + k = n →
      ∃ en, root_scan re sel P k s = some en ∧
        (en = false ↔ re = false ∧
          ∃ j : Nat, s ≤ j ∧ j < n ∧ sel.getD j 0 ≠ 0 ∧ P.getD j 0 = -1) := by
  intro k
  induction k with
  | zero =>
    intro s hs
    refine ⟨true, rfl, ?_⟩
    constructor
    · intro h; cases h
    · rintro ⟨_, j, h1, h2, _⟩; omega
  | succ k ih =>
    intro s hs
    have hs1 : sel[s]? = some (sel.getD s 0) := getElem?_eq_getD sel s (by omega)
    have hp1 : P[s]? = some (P.getD s 0) := getElem?_eq_getD P s (by omega)
    obtain ⟨en, hrun, hen⟩ := ih (s + 1) (by omega)
    have hrest : (re = false ∧ ∃ j : Nat, s + 1 ≤ j ∧ j < n ∧ sel.getD j 0 ≠ 0 ∧
        P.getD j 0 = -1) →
        (re = false ∧ ∃ j : Nat, s ≤ j ∧ j < n ∧ sel.getD j 0 ≠ 0 ∧ P.getD j 0 = -1) := by
      rintro ⟨h1, j, h2, h3, h4⟩
      exact ⟨h1, j, by omega, h3, h4⟩
    by_cases hc : re = false ∧ sel.getD s 0 ≠ 0
    · have hcond : (!re && truthy (sel.getD s 0)) = true := by
        have ht : truthy (sel.getD s 0) = true := by
          simp only [truthy, decide_eq_true_eq]; exact hc.2
        rw [hc.1, ht]; rfl
      by_cases hroot : P.getD s 0 = -1
      · refine ⟨false, by simp only [root_scan, hs1, hcond, hp1, hroot, if_true], ?_⟩
        simp only [true_iff]
        exact ⟨hc.1, s, le_refl _, by omega, hc.2, hroot⟩
      · refine ⟨en, by simp only [root_scan, hs1, hcond, hp1, hroot, if_true, if_false, hrun],
          ?_⟩
        rw [hen]
        constructor
        · exact hrest
        · rintro ⟨h1, j, h2, h3, h4, h5⟩
          refine ⟨h1, j, ?_, h3, h4, h5⟩
          rcases Nat.eq_or_lt_of_le h2 with h | h
          · subst h; exact absurd h5 hroot
          · omega
    · have hcond : (!re && truthy (sel.getD s 0)) = false := by
        cases re with
        | true => rfl
        | false =>
          have h0 : sel.getD s 0 = 0 := by
            by_contra hne; exact hc ⟨rfl, hne⟩
          rw [h0]; rfl
      refine ⟨en, by simp only [root_scan, hs1, hcond, hrun, Bool.false_eq_true, if_false], ?_⟩
      rw [hen]
      constructor
      · exact hrest
      · rintro ⟨h1, j, h2, h3, h4, h5⟩
        refine ⟨h1, j, ?_, h3, h4, h5⟩
        rcases Nat.eq_or_lt_of_le h2 with h | h
        · subst h; exact absurd ⟨h1, h4⟩ hc
        · omega

theorem set_selection_normalize_spec (n : Nat) (P RP : VectorXi) (hW : WellFormed n P RP)
    (wfuel pfuel : Nat) (hwf : n ≤ wfuel) (hpf : 3 ≤ pfuel) (S : VectorXb)
    (hS : S.length = n) :
    ∃ x1 R, normalize_pass wfuel n P RP S = some x1 ∧
      normalize_pass wfuel n P RP x1 = some R ∧
      normalize_pass wfuel n P RP R = some R ∧
      x1.length = n ∧ R.length = n ∧
      set_selection_normalize wfuel pfuel S n P RP = some R := by
  obtain ⟨x1, R, h0, h1, h2, hl1, hl2, hloop⟩ :=
    normalize_loop_spec n P RP hW wfuel pfuel hwf hpf S hS
  refine ⟨x1, R, h0, h1, h2, hl1, hl2, ?_⟩
  obtain ⟨_, hP, hRP, _, _⟩ := hW
  have hc : ¬ (S.length ≠ n ∨ n ≠ P.length ∨ n ≠ RP.length) := by
    rw [hS, hP, hRP]; simp
  simp only [set_selection_normalize, hc, if_false, hloop]

/-- What `set_selection` does to the controller, given the selection `R` that its
normalisation returns. -/
theorem set_selection_of_normalize (env : Collaborators) (wfuel pfuel : Nat)
    (c : MouseController) (S : VectorXi) (C : List Vector3d) (BE : List (Int × Int))
    (P RP : VectorXi) (R : VectorXb)
    (hnorm : set_selection_normalize wfuel pfuel S BE.length P RP = some R)
    (hRl : R.length = BE.length) (hPl : P.length = BE.length)
    (hR : ValidRig env c.m_rotations C BE P) :
    ∃ c1, MouseController.set_selection env wfuel pfuel c S C BE P RP = some c1 ∧
      c1.m_selection = R ∧ c1.m_rotations = c.m_rotations ∧
      c1.m_rotations_at_selection = c.m_rotations_at_selection ∧
      c1.m_fk_rotations_at_selection = (env.forward_kinematics C BE P c.m_rotations).1 ∧
      c1.m_is_selecting = c.m_is_selecting ∧ c1.m_root_enabled = c.m_root_enabled ∧
      (c1.m_widget.m_is_enabled = false ↔ c.m_root_enabled = false ∧
        ∃ j : Nat, j < BE.length ∧ R.getD j 0 ≠ 0 ∧ P.getD j 0 = -1) := by
  obtain ⟨hQ, hT, hrows⟩ := hR
  obtain ⟨en, hscan, hen⟩ := root_scan_spec c.m_root_enabled R P BE.length hRl hPl
    BE.length 0 (by omega)
  have hen1 : en = false ↔ c.m_root_enabled = false ∧
      ∃ j : Nat, j < BE.length ∧ R.getD j 0 ≠ 0 ∧ P.getD j 0 = -1 := by
    rw [hen]
    constructor
    · rintro ⟨h1, j, _, h2⟩; exact ⟨h1, j, h2⟩
    · rintro ⟨h1, j, h2⟩; exact ⟨h1, j, Nat.zero_le _, h2⟩
  by_cases hany : any_of R = true
  · obtain ⟨acc, hacc⟩ := widget_sum_total env R C BE
      (env.forward_kinematics C BE P c.m_rotations).1
      (env.forward_kinematics C BE P c.m_rotations).2 hRl hQ hT hrows
      ⟨Vector3d.zero, Quaterniond.zeroCoeffs, 0⟩
    simp only [MouseController.set_selection, hnorm, hany, if_true, widget_average, hacc,
      hRl, hscan]
    exact ⟨_, rfl, rfl, rfl, rfl, rfl, rfl, rfl, hen1⟩
  · have hany1 : any_of R = false := by simpa using hany
    simp only [MouseController.set_selection, hnorm, hany1, Bool.false_eq_true, if_false, hRl,
      hscan]
    exact ⟨_, rfl, rfl, rfl, rfl, rfl, rfl, rfl, hen1⟩

/-! ### Facts about the normalised selection -/

theorem cleared_no_parent (P : VectorXi) (Y R : VectorXb) (n : Nat) (hRl : R.length = n)
    (hR : ∀ j : Nat, j < n → R.getD j 0 = cleared P Y j) (e : Nat) (he : e < n)
    (hsel : isSel R (e : Int)) : ¬ isSel R (parentOf P (e : Int)) := by
  intro hpar
  rw [isSel_iff_getD, hR e he, cleared_ne_zero_iff] at hsel
  obtain ⟨pn, hpn, hpv⟩ := isSel_parent_cases P R e hpar
  have hpl : pn < n := by
    have := getD_ne_zero_lt R pn hpv; omega
  rw [hR pn hpl, cleared_ne_zero_iff] at hpv
  apply hsel.2
  rw [hpn, isSel_iff_getD]
  exact hpv.1

theorem normalize_loop_fixed (wfuel n : Nat) (P RP : VectorXi) (R : VectorXb)
    (hfix : normalize_pass wfuel n P RP R = some R) (pfuel : Nat) (hpf : 0 < pfuel) :
    normalize_loop wfuel n P RP pfuel R = some R := by
  obtain ⟨k, rfl⟩ : ∃ k, pfuel = k + 1 := ⟨pfuel - 1, by omega⟩
  simp only [normalize_loop, hfix, if_true]

/-- Everything the claims use about a call of `set_selection` on well-formed input. -/
theorem set_selection_result (env : Collaborators) (wfuel pfuel : Nat) (c : MouseController)
    (S : VectorXi) (C : List Vector3d) (BE : List (Int × Int)) (P RP : VectorXi)
    (hW : WellFormed BE.length P RP) (hS : S.length = BE.length)
    (hR : ValidRig env c.m_rotations C BE P) (hwf : BE.length ≤ wfuel) (hpf : 3 ≤ pfuel) :
    ∃ x1 R Y c1,
      normalize_pass wfuel BE.length P RP S = some x1 ∧
      normalize_pass wfuel BE.length P RP x1 = some R ∧
      normalize_pass wfuel BE.length P RP R = some R ∧
      x1.length = BE.length ∧ R.length = BE.length ∧ Y.length = BE.length ∧
      (∀ j : Nat, j < BE.length → Y.getD j 0 = groupOr RP R BE.length (RP.getD j 0)) ∧
      (∀ j : Nat, j < BE.length → R.getD j 0 = cleared P Y j) ∧
      MouseController.set_selection env wfuel pfuel c S C BE P RP = some c1 ∧
      c1.m_selection = R ∧ c1.m_rotations = c.m_rotations ∧
      c1.m_rotations_at_selection = c.m_rotations_at_selection := by
  obtain ⟨x1, R, h0, h1, h2, hl1, hl2, hnorm⟩ :=
    set_selection_normalize_spec BE.length P RP hW wfuel pfuel hwf hpf S hS
  obtain ⟨Y, X, _, hpX, hYl, _, hY, hX⟩ :=
    normalize_pass_spec BE.length P RP hW wfuel hwf R hl2
  have hXR : X = R := by
    rw [h2] at hpX; exact (Option.some.inj hpX).symm
  subst hXR
  obtain ⟨c1, hrun, hsel, hrot, hras, _⟩ :=
    set_selection_of_normalize env wfuel pfuel c S C BE P RP X hnorm hl2 hW.2.1 hR
  exact ⟨x1, X, Y, c1, h0, h1, h2, hl1, hl2, hYl, hY, hX, hrun, hsel, hrot, hras⟩

/-- C2: for a forest `P` (well-formed input of `BE.rows()` bones) and every
selection `S`, `set_selection(S,C,BE,P,RP)` returns and leaves no selected bone
with a selected parent: there is no bone `e` with `m_selection[e]` true,
`P[e] != -1` and `m_selection[P[e]]` true. -/
theorem set_selection_no_selected_parent (env : Collaborators) (wfuel pfuel : Nat)
    (c : MouseController) (S : VectorXi) (C : List Vector3d) (BE : List (Int × Int))
    (P RP : VectorXi)
    (hW : WellFormed BE.length P RP) (hS : S.length = BE.length)
    (hR : ValidRig env c.m_rotations C BE P) (hwf : BE.length ≤ wfuel) (hpf : 3 ≤ pfuel) :
    ∃ c1, MouseController.set_selection env wfuel pfuel c S C BE P RP = some c1 ∧
      ¬ ∃ e : Nat, e < BE.length ∧ isSel c1.m_selection (e : Int) ∧
        parentOf P (e : Int) ≠ -1 ∧ isSel c1.m_selection (parentOf P (e : Int)) := by
  obtain ⟨x1, R, Y, c1, _, _, _, _, hRl, _, _, hRv, hrun, hsel, _⟩ :=
    set_selection_result env wfuel pfuel c S C BE P RP hW hS hR hwf hpf
  refine ⟨c1, hrun, ?_⟩
  rintro ⟨e, he, h1, _, h2⟩
  rw [hsel] at h1 h2
  exact cleared_no_parent P Y R BE.length hRl hRv e he h1 h2

/-- C2, on the chain `0→1→2→3` with bones 1 and 2 picked. -/
theorem set_selection_no_selected_parent_witness :
    ∃ c1, MouseController.set_selection restCollaborators 4 3 chainController [0, 1, 1, 0]
        chainJoints chainBones [-1, 0, 1, 2] [0, 1, 2, 3] = some c1 ∧
      ¬ ∃ e : Nat, e < chainBones.length ∧ isSel c1.m_selection (e : Int) ∧
        parentOf [-1, 0, 1, 2] (e : Int) ≠ -1 ∧
        isSel c1.m_selection (parentOf [-1, 0, 1, 2] (e : Int)) :=
  set_selection_no_selected_parent restCollaborators 4 3 chainController [0, 1, 1, 0]
    chainJoints chainBones [-1, 0, 1, 2] [0, 1, 2, 3] (by decide) (by decide) (by decide)
    (by decide) (by decide)

/-- C3 fails as stated: on the chain with bones 0 and 1 in one rigid group and
bone 0 picked, `set_selection` leaves bone 0 selected and bone 1, of the same
group, unselected. -/
theorem set_selection_group_not_uniform :
    WellFormed chainBones.length [-1, 0, 1, 2] [0, 0, 1, 2] ∧
    ∃ c1, MouseController.set_selection restCollaborators 4 3 chainController [1, 0, 0, 0]
        chainJoints chainBones [-1, 0, 1, 2] [0, 0, 1, 2] = some c1 ∧
      ([0, 0, 1, 2] : VectorXi).getD 0 0 = ([0, 0, 1, 2] : VectorXi).getD 1 0 ∧
      isSel c1.m_selection 0 ∧ ¬ isSel c1.m_selection 1 := by
  refine ⟨by decide, ?_⟩
  obtain ⟨c1, hrun, hsel, _⟩ := set_selection_of_normalize restCollaborators 4 3
    chainController [1, 0, 0, 0] chainJoints chainBones [-1, 0, 1, 2] [0, 0, 1, 2]
    [1, 0, 0, 0] (by decide) (by decide) (by decide) (by decide)
  refine ⟨c1, hrun, by decide, ?_, ?_⟩ <;> rw [hsel] <;> decide

/-- C3, amended: after `set_selection` a rigid group is uniform except for the
bones cleared below a selected parent. For bones `e`, `f` with `RP[e] = RP[f]`
and `m_selection[e]` true, either `m_selection[f] = m_selection[e]`, or
`m_selection[f]` is false and the parent of `f` is a bone whose rigid group holds
a selected bone. -/
theorem set_selection_group_uniform_up_to_clearing (env : Collaborators)
    (wfuel pfuel : Nat) (c : MouseController) (S : VectorXi) (C : List Vector3d)
    (BE : List (Int × Int)) (P RP : VectorXi)
    (hW : WellFormed BE.length P RP) (hS : S.length = BE.length)
    (hR : ValidRig env c.m_rotations C BE P) (hwf : BE.length ≤ wfuel) (hpf : 3 ≤ pfuel) :
    ∃ c1, MouseController.set_selection env wfuel pfuel c S C BE P RP = some c1 ∧
      ∀ e f : Nat, e < BE.length → f < BE.length → RP.getD e 0 = RP.getD f 0 →
        isSel c1.m_selection (e : Int) →
        c1.m_selection.getD f 0 = c1.m_selection.getD e 0 ∨
        (c1.m_selection.getD f 0 = 0 ∧
          ∃ p g : Nat, parentOf P (f : Int) = (p : Int) ∧ p < BE.length ∧ g < BE.length ∧
            RP.getD g 0 = RP.getD p 0 ∧ isSel c1.m_selection (g : Int)) := by
  obtain ⟨x1, R, Y, c1, _, _, _, _, hRl, hYl, hYv, hRv, hrun, hsel, _⟩ :=
    set_selection_result env wfuel pfuel c S C BE P RP hW hS hR hwf hpf
  refine ⟨c1, hrun, ?_⟩
  rw [hsel]
  intro e f he hf hg hse
  have hYef : Y.getD f 0 = Y.getD e 0 := by rw [hYv f hf, hYv e he, hg]
  rw [isSel_iff_getD] at hse
  have hRe : R.getD e 0 = Y.getD e 0 := by
    rcases cleared_cases P Y e with h | h
    · rw [hRv e he, h] at hse; exact absurd rfl hse
    · rw [hRv e he, h]
  by_cases hcl : isSel Y (f : Int) ∧ isSel Y (parentOf P (f : Int))
  · right
    refine ⟨by rw [hRv f hf]; simp only [cleared, hcl, and_self, if_true], ?_⟩
    obtain ⟨p, hp, hpv⟩ := isSel_parent_cases P Y f hcl.2
    have hpl : p < BE.length := by
      have := getD_ne_zero_lt Y p hpv; omega
    rw [hYv p hpl, groupOr_ne_zero] at hpv
    obtain ⟨g, hgl, hgg, hgv⟩ := hpv
    exact ⟨p, g, hp, hpl, hgl, getD_of_getElem? RP g _ hgg, (isSel_iff_getD R g).2 hgv⟩
  · left
    rw [hRv f hf, hRe]
    simp only [cleared, hcl, if_false]
    exact hYef

/-- C3 amended, on the chain with bones 0 and 1 in one rigid group. -/
theorem set_selection_group_uniform_up_to_clearing_witness :
    ∃ c1, MouseController.set_selection restCollaborators 4 3 chainController [1, 0, 0, 0]
        chainJoints chainBones [-1, 0, 1, 2] [0, 0, 1, 2] = some c1 ∧
      ∀ e f : Nat, e < chainBones.length → f < chainBones.length →
        ([0, 0, 1, 2] : VectorXi).getD e 0 = ([0, 0, 1, 2] : VectorXi).getD f 0 →
        isSel c1.m_selection (e : Int) →
        c1.m_selection.getD f 0 = c1.m_selection.getD e 0 ∨
        (c1.m_selection.getD f 0 = 0 ∧
          ∃ p g : Nat, parentOf [-1, 0, 1, 2] (f : Int) = (p : Int) ∧ p < chainBones.length ∧
            g < chainBones.length ∧
            ([0, 0, 1, 2] : VectorXi).getD g 0 = ([0, 0, 1, 2] : VectorXi).getD p 0 ∧
            isSel c1.m_selection (g : Int)) :=
  set_selection_group_uniform_up_to_clearing restCollaborators 4 3 chainController
    [1, 0, 0, 0] chainJoints chainBones [-1, 0, 1, 2] [0, 0, 1, 2] (by decide) (by decide)
    (by decide) (by decide) (by decide)

/-- C4, the code at the failing input: on the chain `0→1→2→3` with every bone
its own rigid group and bones 0 and 2 picked, `set_selection` returns with the
selection `[1,0,1,0]`: bone 2 stays selected although bone 0, its proper ancestor
two parent steps up, is selected too. The clearing walk stops at the first
unselected parent, so the selection does not contain just the roots of the
selected subtrees. -/
theorem set_selection_keeps_selected_ancestor :
    WellFormed chainBones.length [-1, 0, 1, 2] [0, 1, 2, 3] ∧
    ∃ c1, MouseController.set_selection restCollaborators 4 3 chainController [1, 0, 1, 0]
        chainJoints chainBones [-1, 0, 1, 2] [0, 1, 2, 3] = some c1 ∧
      c1.m_selection = [1, 0, 1, 0] ∧
      isSel c1.m_selection 2 ∧ ancestorAt [-1, 0, 1, 2] 2 2 = 0 ∧
      isSel c1.m_selection (ancestorAt [-1, 0, 1, 2] 2 2) := by
  refine ⟨by decide, ?_⟩
  obtain ⟨c1, hrun, hsel, _⟩ := set_selection_of_normalize restCollaborators 4 3
    chainController [1, 0, 1, 0] chainJoints chainBones [-1, 0, 1, 2] [0, 1, 2, 3]
    [1, 0, 1, 0] (by decide) (by decide) (by decide) (by decide)
  refine ⟨c1, hrun, hsel, ?_, by decide, ?_⟩ <;> rw [hsel] <;> decide

/-- C5: the selection `R` that `set_selection` leaves is a fixed point of the
normaliser: one more pass (spread over the rigid groups, then clear below selected
parents) maps `R` to `R`, so the normalisation of `R`, and `set_selection` called
again with `R`, return `R` unchanged. -/
theorem set_selection_fixed_point (env : Collaborators) (wfuel pfuel : Nat)
    (c : MouseController) (S : VectorXi) (C : List Vector3d) (BE : List (Int × Int))
    (P RP : VectorXi)
    (hW : WellFormed BE.length P RP) (hS : S.length = BE.length)
    (hR : ValidRig env c.m_rotations C BE P) (hwf : BE.length ≤ wfuel) (hpf : 3 ≤ pfuel) :
    ∃ c1, MouseController.set_selection env wfuel pfuel c S C BE P RP = some c1 ∧
      normalize_pass wfuel BE.length P RP c1.m_selection = some c1.m_selection ∧
      set_selection_normalize wfuel pfuel c1.m_selection BE.length P RP
        = some c1.m_selection ∧
      ∃ c2, MouseController.set_selection env wfuel pfuel c1 c1.m_selection C BE P RP
          = some c2 ∧
        c2.m_selection = c1.m_selection := by
  obtain ⟨x1, R, Y, c1, _, _, hfix, _, hRl, _, _, _, hrun, hsel, hrot, _⟩ :=
    set_selection_result env wfuel pfuel c S C BE P RP hW hS hR hwf hpf
  have hnorm : set_selection_normalize wfuel pfuel R BE.length P RP = some R := by
    have hc : ¬ (R.length ≠ BE.length ∨ BE.length ≠ P.length ∨ BE.length ≠ RP.length) := by
      rw [hRl, hW.2.1, hW.2.2.1]; simp
    simp only [set_selection_normalize, hc, if_false]
    exact normalize_loop_fixed wfuel BE.length P RP R hfix pfuel (by omega)
  have hR1 : ValidRig env c1.m_rotations C BE P := by rw [hrot]; exact hR
  obtain ⟨c2, hrun2, hsel2, _⟩ :=
    set_selection_of_normalize env wfuel pfuel c1 R C BE P RP R hnorm hRl hW.2.1 hR1
  refine ⟨c1, hrun, ?_, ?_, c2, ?_, ?_⟩
  · rw [hsel]; exact hfix
  · rw [hsel]; exact hnorm
  · rw [hsel]; exact hrun2
  · rw [hsel]; exact hsel2

/-- C5, on the chain with bones 1 and 2 picked. -/
theorem set_selection_fixed_point_witness :
    ∃ c1, MouseController.set_selection restCollaborators 4 3 chainController [0, 1, 1, 0]
        chainJoints chainBones [-1, 0, 1, 2] [0, 1, 2, 3] = some c1 ∧
      normalize_pass 4 chainBones.length [-1, 0, 1, 2] [0, 1, 2, 3] c1.m_selection
        = some c1.m_selection ∧
      set_selection_normalize 4 3 c1.m_selection chainBones.length [-1, 0, 1, 2] [0, 1, 2, 3]
        = some c1.m_selection ∧
      ∃ c2, MouseController.set_selection restCollaborators 4 3 c1 c1.m_selection
          chainJoints chainBones [-1, 0, 1, 2] [0, 1, 2, 3] = some c2 ∧
        c2.m_selection = c1.m_selection :=
  set_selection_fixed_point restCollaborators 4 3 chainController [0, 1, 1, 0]
    chainJoints chainBones [-1, 0, 1, 2] [0, 1, 2, 3] (by decide) (by decide) (by decide)
    (by decide) (by decide)

theorem groupOr_nodup (RP : VectorXi) (x : VectorXb) (hnd : RP.Nodup) (j : Nat)
    (hj : j < RP.length) :
    ∀ k : Nat, k ≤ RP.length →
      groupOr RP x k (RP.getD j 0) = if j < k then x.getD j 0 else 0 := by
  intro k
  induction k with
  | zero => intro _; rfl
  | succ k ih =>
    intro hk
    have hkl : k < RP.length := by omega
    have hRk : RP[k]? = some RP[k] := List.getElem?_eq_getElem hkl
    have hRj : RP.getD j 0 = RP[j] :=
      getD_of_getElem? RP j _ (List.getElem?_eq_getElem hj)
    unfold groupOr
    rw [ih (by omega), hRk, hRj]
    by_cases hkj : k = j
    · subst hkj
      simp only [lt_irrefl, if_false, if_true, Nat.lt_succ_self]
      exact int_zero_lor _
    · have hne : ¬ (some RP[k] = some RP[j]) := by
        intro h
        exact hkj ((hnd.getElem_inj_iff).1 (Option.some.inj h))
      simp only [hne, if_false]
      by_cases hjk : j < k
      · simp only [hjk, if_true, Nat.lt_succ_of_lt hjk]
      · have : ¬ (j < k + 1) := by omega
        simp only [hjk, this, if_false]

/-- With one bone per rigid group a pass only clears below selected parents. -/
theorem normalize_pass_nodup (n : Nat) (P RP : VectorXi) (hW : WellFormed n P RP)
    (hnd : RP.Nodup) (wfuel : Nat) (hwf : n ≤ wfuel) (x : VectorXb) (hx : x.length = n) :
    ∃ X, normalize_pass wfuel n P RP x = some X ∧ X.length = n ∧
      ∀ j : Nat, j < n → X.getD j 0 = cleared P x j := by
  obtain ⟨Y, X, _, hp, hYl, hXl, hY, hX⟩ := normalize_pass_spec n P RP hW wfuel hwf x hx
  have hRP : RP.length = n := hW.2.2.1
  have hYx : Y = x := by
    apply list_ext_getD Y x (by omega)
    intro j hj
    have hj1 : j < n := by omega
    rw [hY j hj1, groupOr_nodup RP x hnd j (by omega) n (by omega)]
    simp only [hj1, if_true]
  subst hYx
  exact ⟨X, hp, hXl, hX⟩

/-- C6: when every bone is its own rigid group (`RP` has no repeated id), the
selection left by `set_selection` is exactly the picked bones whose parent is not
picked: `result[e] = S[e] AND (P[e] = -1 OR NOT S[P[e]])`, a selected entry keeping
its value. On the chain `P = [-1,0,1,2]` the raw pick `{2}` normalises to `{2}` and
the raw pick `{1,2}` to `{1}`. -/
theorem set_selection_singleton_groups :
    (∀ (env : Collaborators) (wfuel pfuel : Nat) (c : MouseController) (S : VectorXi)
      (C : List Vector3d) (BE : List (Int × Int)) (P RP : VectorXi),
      WellFormed BE.length P RP → S.length = BE.length →
      ValidRig env c.m_rotations C BE P → BE.length ≤ wfuel → 3 ≤ pfuel → RP.Nodup →
      ∃ c1, MouseController.set_selection env wfuel pfuel c S C BE P RP = some c1 ∧
        c1.m_selection.length = BE.length ∧
        ∀ e : Nat, e < BE.length →
          (isSel c1.m_selection (e : Int) ↔
            isSel S (e : Int) ∧
              (parentOf P (e : Int) = -1 ∨ ¬ isSel S (parentOf P (e : Int)))) ∧
          (c1.m_selection.getD e 0 = 0 ∨ c1.m_selection.getD e 0 = S.getD e 0)) ∧
    (∃ c1, MouseController.set_selection restCollaborators 4 3 chainController [0, 0, 1, 0]
        chainJoints chainBones [-1, 0, 1, 2] [0, 1, 2, 3] = some c1 ∧
      c1.m_selection = [0, 0, 1, 0]) ∧
    (∃ c1, MouseController.set_selection restCollaborators 4 3 chainController [0, 1, 1, 0]
        chainJoints chainBones [-1, 0, 1, 2] [0, 1, 2, 3] = some c1 ∧
      c1.m_selection = [0, 1, 0, 0]) := by
  refine ⟨?_, ?_, ?_⟩
  · intro env wfuel pfuel c S C BE P RP hW hS hR hwf hpf hnd
    obtain ⟨x1, R, Y, c1, h0, h1, _, hl1, hRl, _, _, _, hrun, hsel, _⟩ :=
      set_selection_result env wfuel pfuel c S C BE P RP hW hS hR hwf hpf
    obtain ⟨X1, hp0, _, hX1⟩ := normalize_pass_nodup BE.length P RP hW hnd wfuel hwf S hS
    obtain ⟨X2, hp1, _, hX2⟩ := normalize_pass_nodup BE.length P RP hW hnd wfuel hwf x1 hl1
    have e1 : X1 = x1 := by rw [h0] at hp0; exact (Option.some.inj hp0).symm
    have e2 : X2 = R := by rw [h1] at hp1; exact (Option.some.inj hp1).symm
    subst e1; subst e2
    have hRx : ∀ j : Nat, j < BE.length → X2.getD j 0 = cleared P S j := by
      intro j hj
      rw [hX2 j hj, ← hX1 j hj]
      by_cases hs : isSel X1 (j : Int)
      · exact cleared_of_not_parent P X1 j (cleared_no_parent P S X1 BE.length hl1 hX1 j hj hs)
      · exact cleared_of_not_sel P X1 j hs
    refine ⟨c1, hrun, by rw [hsel]; exact hRl, ?_⟩
    intro e he
    rw [hsel]
    refine ⟨?_, ?_⟩
    · rw [isSel_iff_getD, hRx e he, cleared_ne_zero_iff, ← isSel_iff_getD]
      constructor
      · rintro ⟨h1, h2⟩; exact ⟨h1, Or.inr h2⟩
      · rintro ⟨h1, h2 | h2⟩
        · refine ⟨h1, ?_⟩
          rw [h2]; exact not_isSel_neg S (-1) (by omega)
        · exact ⟨h1, h2⟩
    · rw [hRx e he]; exact cleared_cases P S e
  · obtain ⟨c1, hrun, hsel, _⟩ := set_selection_of_normalize restCollaborators 4 3
      chainController [0, 0, 1, 0] chainJoints chainBones [-1, 0, 1, 2] [0, 1, 2, 3]
      [0, 0, 1, 0] (by decide) (by decide) (by decide) (by decide)
    exact ⟨c1, hrun, hsel⟩
  · obtain ⟨c1, hrun, hsel, _⟩ := set_selection_of_normalize restCollaborators 4 3
      chainController [0, 1, 1, 0] chainJoints chainBones [-1, 0, 1, 2] [0, 1, 2, 3]
      [0, 1, 0, 0] (by decide) (by decide) (by decide) (by decide)
    exact ⟨c1, hrun, hsel⟩

/-- C6, the general part on the chain with bones 1 and 2 picked. -/
theorem set_selection_singleton_groups_witness :
    ∃ c1, MouseController.set_selection restCollaborators 4 3 chainController [0, 1, 1, 0]
        chainJoints chainBones [-1, 0, 1, 2] [0, 1, 2, 3] = some c1 ∧
      c1.m_selection.length = chainBones.length ∧
      ∀ e : Nat, e < chainBones.length →
        (isSel c1.m_selection (e : Int) ↔
          isSel [0, 1, 1, 0] (e : Int) ∧
            (parentOf [-1, 0, 1, 2] (e : Int) = -1 ∨
              ¬ isSel [0, 1, 1, 0] (parentOf [-1, 0, 1, 2] (e : Int)))) ∧
        (c1.m_selection.getD e 0 = 0 ∨
          c1.m_selection.getD e 0 = ([0, 1, 1, 0] : VectorXb).getD e 0) :=
  set_selection_singleton_groups.1 restCollaborators 4 3 chainController [0, 1, 1, 0]
    chainJoints chainBones [-1, 0, 1, 2] [0, 1, 2, 3] (by decide) (by decide) (by decide)
    (by decide) (by decide) (by decide)

/-! ### Dragging the widget -/

/-- With unit widget and frame quaternions, re-deriving with an unchanged widget
rotation gives back the rotation at selection. -/
theorem rederive_same (r f w : Quaterniond) (hw : w.squaredNorm = 1)
    (hf : f.squaredNorm = 1) : MouseController.rederive r f w w = r := by
  obtain ⟨a, b, c, d⟩ := r
  obtain ⟨p, q, s, t⟩ := f
  obtain ⟨u, v, m, k⟩ := w
  simp only [Quaterniond.squaredNorm] at hw hf
  simp only [MouseController.rederive, Quaterniond.mul, Quaterniond.conjugate, Quaterniond.mk.injEq]
  refine ⟨?_, ?_, ?_, ?_⟩
  · linear_combination (a * (p * p + q * q + s * s + t * t)) * hw + a * hf
  · linear_combination (b * (p * p + q * q + s * s + t * t)) * hw + b * hf
  · linear_combination (c * (p * p + q * q + s * s + t * t)) * hw + c * hf
  · linear_combination (d * (p * p + q * q + s * s + t * t)) * hw + d * hf

/-- The loop of `drag` over the bones runs to its end when the snapshots have one
entry per bone; it rewrites the rotation of every selected bone and no other. -/
theorem drag_loop_spec (c : MouseController)
    (hlen : c.m_selection.length = c.m_rotations.length)
    (hras : c.m_rotations_at_selection.length = c.m_selection.length)
    (hfk : c.m_fk_rotations_at_selection.length = c.m_selection.length) :
    ∃ rots, forLoop (MouseController.drag_body c) c.m_selection.length 0 c.m_rotations
        = some rots ∧
      rots.length = c.m_rotations.length ∧
      ∀ e : Nat, e < c.m_selection.length →
        (isSel c.m_selection (e : Int) →
          ∃ frame r0, c.m_fk_rotations_at_selection[e]? = some frame ∧
            c.m_rotations_at_selection[e]? = some r0 ∧
            rots[e]? = some (MouseController.rederive r0 frame c.m_widget.rot c.m_widget_rot_at_selection)) ∧
        (¬ isSel c.m_selection (e : Int) → rots[e]? = c.m_rotations[e]?) := by
  obtain ⟨rots, hrun, hl, hdone, _⟩ := forLoop_inv (MouseController.drag_body c)
    (fun k rots => rots.length = c.m_rotations.length ∧
      (∀ e : Nat, e < k →
        (isSel c.m_selection (e : Int) →
          ∃ frame r0, c.m_fk_rotations_at_selection[e]? = some frame ∧
            c.m_rotations_at_selection[e]? = some r0 ∧
            rots[e]? = some (MouseController.rederive r0 frame c.m_widget.rot c.m_widget_rot_at_selection)) ∧
        (¬ isSel c.m_selection (e : Int) → rots[e]? = c.m_rotations[e]?)) ∧
      ∀ e : Nat, k ≤ e → rots[e]? = c.m_rotations[e]?)
    c.m_selection.length 0
    (by
      intro e rots _ he ⟨hl, hdone, hrest⟩
      have he1 : e < c.m_selection.length := by omega
      have hs : c.m_selection[e]? = some (c.m_selection.getD e 0) :=
        getElem?_eq_getD _ e he1
      by_cases h0 : c.m_selection.getD e 0 = 0
      · have hns : ¬ isSel c.m_selection (e : Int) := by
          rw [isSel_iff_getD]; exact not_not.2 h0
        refine ⟨rots, by simp only [MouseController.drag_body, hs, h0, ne_eq, not_true,
          if_false], hl, ?_, fun j hj => hrest j (by omega)⟩
        intro j hj
        rcases Nat.lt_succ_iff_lt_or_eq.1 hj with h | rfl
        · exact hdone j h
        · exact ⟨fun h => absurd h hns, fun _ => hrest j (le_refl _)⟩
      · have hsel : isSel c.m_selection (e : Int) := (isSel_iff_getD _ e).2 h0
        have hf : c.m_fk_rotations_at_selection[e]? = some c.m_fk_rotations_at_selection[e] :=
          List.getElem?_eq_getElem (by omega)
        have hr : c.m_rotations_at_selection[e]? = some c.m_rotations_at_selection[e] :=
          List.getElem?_eq_getElem (by omega)
        have her : e < rots.length := by omega
        refine ⟨rots.set e (MouseController.rederive c.m_rotations_at_selection[e]
            c.m_fk_rotations_at_selection[e] c.m_widget.rot c.m_widget_rot_at_selection),
          by simp only [MouseController.drag_body, hs, h0, ne_eq, not_false_iff,
            if_true, hf, hr, her], by simp [hl], ?_, ?_⟩
        · intro j hj
          rcases Nat.lt_succ_iff_lt_or_eq.1 hj with h | rfl
          · have hne : j ≠ e := by omega
            rw [List.getElem?_set_ne (Ne.symm hne)]
            exact hdone j h
          · refine ⟨fun _ => ⟨_, _, hf, hr, by simp [her]⟩, fun h => absurd hsel h⟩
        · intro j hj
          have hne : e ≠ j := by omega
          rw [List.getElem?_set_ne hne]
          exact hrest j (by omega))
    c.m_rotations ⟨rfl, fun e he => by omega, fun e _ => rfl⟩
  exact ⟨rots, hrun, hl, fun e he => hdone e (by omega)⟩

/-- C7: rotation re-derivation round trip. When the controller is not selecting,
the widget accepts the drag and its rotation afterwards equals the widget rotation
captured at selection, the widget rotation and the frames being unit quaternions,
`drag` returns true and every selected bone `e` ends with `m_rotations[e]` equal to
`m_rotations_at_selection[e]`. Quaternion arithmetic is exact (rational). -/
theorem drag_round_trip (env : Collaborators) (c : MouseController) (x y : Int)
    (hns : c.m_is_selecting = false)
    (hacc : (env.widget_drag c.m_widget x (c.m_height - y)).1 = true)
    (hrot : (env.widget_drag c.m_widget x (c.m_height - y)).2.rot
      = c.m_widget_rot_at_selection)
    (hany : c.any_selection = true)
    (hlen : c.m_selection.length = c.m_rotations.length)
    (hras : c.m_rotations_at_selection.length = c.m_selection.length)
    (hfk : c.m_fk_rotations_at_selection.length = c.m_selection.length)
    (hunitw : c.m_widget_rot_at_selection.squaredNorm = 1)
    (hunitf : ∀ q ∈ c.m_fk_rotations_at_selection, q.squaredNorm = 1) :
    ∃ c1, MouseController.drag env c x y = some (true, c1) ∧
      ∀ e : Nat, e < c.m_selection.length → isSel c.m_selection (e : Int) →
        c1.m_rotations[e]? = c.m_rotations_at_selection[e]? := by
  obtain ⟨rots, hrun, _, hspec⟩ := drag_loop_spec
    { c with m_drag_x := x, m_drag_y := y,
             m_widget := (env.widget_drag c.m_widget x (c.m_height - y)).2 }
    hlen hras hfk
  have hany1 : any_of c.m_selection = true := hany
  have hne : ¬ (c.m_selection.length ≠ c.m_rotations.length) := not_not.2 hlen
  have hrun1 := hrun
  simp only [hns] at hrun1
  refine ⟨{ c with m_drag_x := x, m_drag_y := y,
                     m_widget := (env.widget_drag c.m_widget x (c.m_height - y)).2,
                     m_rotations := rots },
    by simp only [MouseController.drag, MouseController.any_selection, hns, hacc, hany1, hne,
      hrun1, Bool.false_eq_true, Bool.not_true, if_false], ?_⟩
  intro e he hsel
  obtain ⟨frame, r0, hf, hr, hval⟩ := (hspec e he).1 hsel
  show rots[e]? = c.m_rotations_at_selection[e]?
  have hf1 : c.m_fk_rotations_at_selection[e]? = some frame := hf
  have hr1 : c.m_rotations_at_selection[e]? = some r0 := hr
  have hmem : frame ∈ c.m_fk_rotations_at_selection := by
    obtain ⟨h1, h2⟩ := List.getElem?_eq_some.1 hf1
    rw [← h2]; exact List.getElem_mem _
  rw [hval, hr1]
  show some (MouseController.rederive r0 frame (env.widget_drag c.m_widget x (c.m_height - y)).2.rot
    c.m_widget_rot_at_selection) = some r0
  rw [hrot, rederive_same r0 frame _ hunitw (hunitf frame hmem)]

/-- C7, on the posed chain with bone 2 selected. -/
theorem drag_round_trip_witness :
    ∃ c1, MouseController.drag restCollaborators posedChain 25 95 = some (true, c1) ∧
      ∀ e : Nat, e < posedChain.m_selection.length → isSel posedChain.m_selection (e : Int) →
        c1.m_rotations[e]? = posedChain.m_rotations_at_selection[e]? :=
  drag_round_trip restCollaborators posedChain 25 95 (by decide) (by decide)
    (by with_unfolding_all decide) (by decide) (by decide) (by decide) (by decide)
    (by with_unfolding_all decide) (by with_unfolding_all decide)

/-! ### Snapshots, the marquee and resets -/

/-- C8, the code at the failing input: on the fresh controller after
`set_size(4)` an explicit `set_selection` with bone 2 picked leaves
`m_rotations_at_selection` empty, not equal to the four current rotations, and
the next accepted `drag` reads `m_rotations_at_selection[2]` out of range;
`set_selection_from_last_drag` on the same controller does take the snapshot. -/
theorem set_selection_explicit_keeps_stale_snapshot :
    (∃ c1, MouseController.set_selection restCollaborators 4 3 chainController [0, 0, 1, 0]
        chainJoints chainBones [-1, 0, 1, 2] [0, 1, 2, 3] = some c1 ∧
      c1.m_selection = [0, 0, 1, 0] ∧
      c1.m_rotations = List.replicate 4 Quaterniond.Identity ∧
      c1.m_rotations_at_selection = [] ∧
      c1.m_rotations_at_selection ≠ c1.m_rotations ∧
      MouseController.drag restCollaborators c1 25 95 = none) ∧
    (∃ c2, MouseController.set_selection_from_last_drag restCollaborators 4 3 marqueeChain
        chainJoints chainBones [-1, 0, 1, 2] [0, 1, 2, 3] = some c2 ∧
      c2.m_selection = [0, 0, 1, 0] ∧
      c2.m_rotations_at_selection = c2.m_rotations) := by
  refine ⟨⟨_, by with_unfolding_all rfl, ?_, ?_, ?_, ?_, ?_⟩,
    ⟨_, by with_unfolding_all rfl, ?_, ?_⟩⟩ <;> with_unfolding_all decide

theorem marquee_picks_total (env : Collaborators) (c : MouseController)
    (C : List Vector3d) (BE : List (Int × Int)) (P : VectorXi)
    (hR : ValidRig env c.m_rotations C BE P) :
    ∃ picks, MouseController.marquee_picks env c C BE P = some picks ∧
      picks.length = BE.length := by
  obtain ⟨hQ, hT, hrows⟩ := hR
  obtain ⟨picks, hrun, hl⟩ := forLoop_inv
    (MouseController.pick_body env c C BE (env.forward_kinematics C BE P c.m_rotations).1
      (env.forward_kinematics C BE P c.m_rotations).2)
    (fun _ sel => sel.length = BE.length) BE.length 0
    (by
      intro e sel _ he hl
      have he1 : e < BE.length := by omega
      have hb : BE[e]? = some BE[e] := List.getElem?_eq_getElem he1
      have hq : (env.forward_kinematics C BE P c.m_rotations).1[e]?
          = some (env.forward_kinematics C BE P c.m_rotations).1[e] :=
        List.getElem?_eq_getElem (by omega)
      have ht : (env.forward_kinematics C BE P c.m_rotations).2[e]?
          = some (env.forward_kinematics C BE P c.m_rotations).2[e] :=
        List.getElem?_eq_getElem (by omega)
      have hmem : BE[e] ∈ BE := List.getElem_mem _
      obtain ⟨s0, hs0⟩ := rowAt_of_valid C _ (hrows _ hmem).1.1 (hrows _ hmem).1.2
      obtain ⟨d0, hd0⟩ := rowAt_of_valid C _ (hrows _ hmem).2.1 (hrows _ hmem).2.2
      have hes : e < sel.length := by omega
      have hrun : ∃ a, MouseController.pick_body env c C BE
          (env.forward_kinematics C BE P c.m_rotations).1
          (env.forward_kinematics C BE P c.m_rotations).2 e sel = some a ∧
          a.length = BE.length := by
        simp only [MouseController.pick_body, hb, hs0, hd0, hq, ht, hes, if_true]
        exact ⟨_, rfl, by simp [hl]⟩
      exact hrun)
    (List.replicate BE.length 0) (by simp)
  exact ⟨picks, hrun, hl⟩

/-- What `set_selection_from_last_drag` does on well-formed input: it snapshots the
rotations, picks the bones under the marquee and hands the picks to
`set_selection`. -/
theorem set_selection_from_last_drag_spec (env : Collaborators) (wfuel pfuel : Nat)
    (c : MouseController) (C : List Vector3d) (BE : List (Int × Int)) (P RP : VectorXi)
    (hW : WellFormed BE.length P RP) (hR : ValidRig env c.m_rotations C BE P)
    (hwf : BE.length ≤ wfuel) (hpf : 3 ≤ pfuel) :
    ∃ picks c1, MouseController.marquee_picks env c C BE P = some picks ∧
      picks.length = BE.length ∧
      MouseController.set_selection_from_last_drag env wfuel pfuel c C BE P RP = some c1 ∧
      set_selection_normalize wfuel pfuel picks BE.length P RP = some c1.m_selection ∧
      c1.m_rotations = c.m_rotations ∧ c1.m_rotations_at_selection = c.m_rotations := by
  obtain ⟨picks, hpicks, hpl⟩ := marquee_picks_total env c C BE P hR
  obtain ⟨x1, R, _, _, _, _, hRl, hnorm⟩ :=
    set_selection_normalize_spec BE.length P RP hW wfuel pfuel hwf hpf picks hpl
  obtain ⟨c1, hrun, hsel, hrot, hras, _⟩ := set_selection_of_normalize env wfuel pfuel
    { c with m_rotations_at_selection := c.m_rotations, m_selection := picks }
    picks C BE P RP R hnorm hRl hW.2.1 hR
  have hpicks1 : MouseController.marquee_picks env
      { c with m_rotations_at_selection := c.m_rotations } C BE P = some picks := hpicks
  have hne : ¬ (BE.length ≠ P.length) := not_not.2 hW.2.1.symm
  refine ⟨picks, c1, hpicks, hpl, ?_, by rw [hsel]; exact hnorm, hrot, hras⟩
  simp only [MouseController.set_selection_from_last_drag, hne, if_false, hpicks1]
  exact hrun

/-- C9 fails as stated: from the controller after `set_size(4)` on the chain, the
sequence `down(22,95)`, `drag(28,105)`, `up(28,105)` draws a marquee that meets
bone 2 only, and after `up` no bone is selected. -/
theorem up_does_not_finalize_marquee :
    ∃ c2, MouseController.drag restCollaborators
        (MouseController.down restCollaborators chainController 22 95).2 28 105
        = some (true, c2) ∧
      (MouseController.up restCollaborators c2 28 105).2 = marqueeChain ∧
      MouseController.marquee_picks restCollaborators marqueeChain chainJoints chainBones
        [-1, 0, 1, 2] = some [0, 0, 1, 0] ∧
      (MouseController.up restCollaborators c2 28 105).2.m_selection = [0, 0, 0, 0] ∧
      ¬ isSel (MouseController.up restCollaborators c2 28 105).2.m_selection 2 := by
  refine ⟨_, by with_unfolding_all rfl, ?_, ?_, ?_, ?_⟩ <;> with_unfolding_all decide

/-- The raw picks, entry by entry: bone `e` is marked exactly when its projected
segment meets the marquee. -/
theorem marquee_picks_spec (env : Collaborators) (c : MouseController)
    (C : List Vector3d) (BE : List (Int × Int)) (P : VectorXi)
    (hR : ValidRig env c.m_rotations C BE P) :
    ∃ picks, MouseController.marquee_picks env c C BE P = some picks ∧
      picks.length = BE.length ∧
      ∀ e : Nat, e < BE.length → picks[e]? = some (ofBool (bone_in_marquee env c C BE P e)) := by
  obtain ⟨hQ, hT, hrows⟩ := hR
  obtain ⟨picks, hrun, hl, hv⟩ := forLoop_inv
    (MouseController.pick_body env c C BE (env.forward_kinematics C BE P c.m_rotations).1
      (env.forward_kinematics C BE P c.m_rotations).2)
    (fun k sel => sel.length = BE.length ∧
      ∀ i : Nat, i < k → sel[i]? = some (ofBool (bone_in_marquee env c C BE P i)))
    BE.length 0
    (by
      intro e sel _ he ⟨hl, hv⟩
      have he1 : e < BE.length := by omega
      have hb : BE[e]? = some BE[e] := List.getElem?_eq_getElem he1
      have hq : (env.forward_kinematics C BE P c.m_rotations).1[e]?
          = some (env.forward_kinematics C BE P c.m_rotations).1[e] :=
        List.getElem?_eq_getElem (by omega)
      have ht : (env.forward_kinematics C BE P c.m_rotations).2[e]?
          = some (env.forward_kinematics C BE P c.m_rotations).2[e] :=
        List.getElem?_eq_getElem (by omega)
      have hmem : BE[e] ∈ BE := List.getElem_mem _
      obtain ⟨s0, hs0⟩ := rowAt_of_valid C _ (hrows _ hmem).1.1 (hrows _ hmem).1.2
      obtain ⟨d0, hd0⟩ := rowAt_of_valid C _ (hrows _ hmem).2.1 (hrows _ hmem).2.2
      have hes : e < sel.length := by omega
      have hin : bone_in_marquee env c C BE P e
          = env.line_segment_in_rectangle
            ((env.project (env.transform (env.forward_kinematics C BE P c.m_rotations).2[e]
                (env.forward_kinematics C BE P c.m_rotations).1[e] s0)).x,
              (env.project (env.transform (env.forward_kinematics C BE P c.m_rotations).2[e]
                (env.forward_kinematics C BE P c.m_rotations).1[e] s0)).y)
            ((env.project (env.transform (env.forward_kinematics C BE P c.m_rotations).2[e]
                (env.forward_kinematics C BE P c.m_rotations).1[e] d0)).x,
              (env.project (env.transform (env.forward_kinematics C BE P c.m_rotations).2[e]
                (env.forward_kinematics C BE P c.m_rotations).1[e] d0)).y)
            ((c.m_down_x : ℚ), ((c.m_height - c.m_down_y : Int) : ℚ))
            ((c.m_drag_x : ℚ), ((c.m_height - c.m_drag_y : Int) : ℚ)) := by
        simp only [bone_in_marquee, hb, hq, ht, hs0, hd0]
      refine ⟨sel.set e (ofBool (bone_in_marquee env c C BE P e)), ?_, by simp [hl], ?_⟩
      · simp only [MouseController.pick_body, hb, hs0, hd0, hq, ht, hes, if_true, hin]
      · intro i hi
        rcases Nat.lt_succ_iff_lt_or_eq.1 hi with h | rfl
        · rw [List.getElem?_set_ne (by omega)]
          exact hv i h
        · rw [List.getElem?_set_self hes])
    (List.replicate BE.length 0) ⟨by simp, fun i hi => by omega⟩
  exact ⟨picks, hrun, hl, fun e he => hv e (by omega)⟩

/-- C9, amended: `up` only leaves the selecting state, releases the widget and
returns false; it does not touch the selection. The marquee is finalised by the
caller's `set_selection_from_last_drag(C,BE,P,RP)`: called on the controller as
`up` leaves it, it returns with the selection equal to the normalisation of the
picks, where bone `e` is picked exactly when its projected segment meets the
marquee rectangle, and with the rotation snapshot taken. -/
theorem marquee_finalized_by_set_selection_from_last_drag (env : Collaborators)
    (wfuel pfuel : Nat) (c : MouseController) (x y : Int) (C : List Vector3d)
    (BE : List (Int × Int)) (P RP : VectorXi)
    (hW : WellFormed BE.length P RP) (hR : ValidRig env c.m_rotations C BE P)
    (hwf : BE.length ≤ wfuel) (hpf : 3 ≤ pfuel) :
    (MouseController.up env c x y).1 = false ∧
    (MouseController.up env c x y).2
      = { c with m_is_selecting := false,
                 m_widget := (env.widget_up c.m_widget x (c.m_height - y)).2 } ∧
    (MouseController.up env c x y).2.m_is_selecting = false ∧
    (MouseController.up env c x y).2.m_widget
      = (env.widget_up c.m_widget x (c.m_height - y)).2 ∧
    (MouseController.up env c x y).2.m_selection = c.m_selection ∧
    ∃ picks c1,
      MouseController.marquee_picks env (MouseController.up env c x y).2 C BE P = some picks ∧
      picks.length = BE.length ∧
      (∀ e : Nat, e < BE.length →
        picks[e]? = some (ofBool (bone_in_marquee env c C BE P e)) ∧
        (isSel picks (e : Int) ↔ bone_in_marquee env c C BE P e = true)) ∧
      MouseController.set_selection_from_last_drag env wfuel pfuel
        (MouseController.up env c x y).2 C BE P RP = some c1 ∧
      set_selection_normalize wfuel pfuel picks BE.length P RP = some c1.m_selection ∧
      c1.m_rotations = c.m_rotations ∧
      c1.m_rotations_at_selection = c1.m_rotations := by
  refine ⟨rfl, rfl, rfl, rfl, rfl, ?_⟩
  obtain ⟨picks, c1, hpicks, hpl, hrun, hnorm, hrot, hras⟩ :=
    set_selection_from_last_drag_spec env wfuel pfuel (MouseController.up env c x y).2
      C BE P RP hW hR hwf hpf
  obtain ⟨picks1, hpicks1, _, hv⟩ :=
    marquee_picks_spec env (MouseController.up env c x y).2 C BE P hR
  have hsame : picks1 = picks := by
    rw [hpicks] at hpicks1; exact (Option.some.inj hpicks1).symm
  subst hsame
  refine ⟨picks1, c1, hpicks, hpl, ?_, hrun, hnorm, hrot, by rw [hras, hrot]⟩
  intro e he
  have hve : picks1[e]? = some (ofBool (bone_in_marquee env c C BE P e)) := hv e he
  refine ⟨hve, ?_⟩
  rw [isSel_natCast, hve]
  cases bone_in_marquee env c C BE P e <;> simp [ofBool]

/-- C9 amended, on the chain after `set_size(4)`: `down(22,95)`, `drag(28,105)`
leave the controller selecting with a marquee that meets bone 2 only; after
`up(28,105)` the caller's `set_selection_from_last_drag` ends with bone 2, and
only bone 2, selected. -/
theorem marquee_finalized_by_set_selection_from_last_drag_witness :
    MouseController.drag restCollaborators
        (MouseController.down restCollaborators chainController 22 95).2 28 105
      = some (true, selectingChain) ∧
    ((MouseController.up restCollaborators selectingChain 28 105).1 = false ∧
      (MouseController.up restCollaborators selectingChain 28 105).2
        = { selectingChain with
            m_is_selecting := false,
            m_widget := (restCollaborators.widget_up selectingChain.m_widget 28
              (selectingChain.m_height - 105)).2 } ∧
      (MouseController.up restCollaborators selectingChain 28 105).2.m_is_selecting = false ∧
      (MouseController.up restCollaborators selectingChain 28 105).2.m_widget
        = (restCollaborators.widget_up selectingChain.m_widget 28
            (selectingChain.m_height - 105)).2 ∧
      (MouseController.up restCollaborators selectingChain 28 105).2.m_selection
        = selectingChain.m_selection ∧
      ∃ picks c1,
        MouseController.marquee_picks restCollaborators
          (MouseController.up restCollaborators selectingChain 28 105).2 chainJoints chainBones [-1, 0, 1, 2] = some picks ∧
        picks.length = chainBones.length ∧
        (∀ e : Nat, e < chainBones.length →
          picks[e]? = some (ofBool (bone_in_marquee restCollaborators
            selectingChain chainJoints chainBones [-1, 0, 1, 2] e)) ∧
          (isSel picks (e : Int) ↔ bone_in_marquee restCollaborators
            selectingChain chainJoints chainBones [-1, 0, 1, 2] e = true)) ∧
        MouseController.set_selection_from_last_drag restCollaborators 4 3
          (MouseController.up restCollaborators selectingChain 28 105).2 chainJoints chainBones [-1, 0, 1, 2] [0, 1, 2, 3] = some c1 ∧
        set_selection_normalize 4 3 picks chainBones.length [-1, 0, 1, 2] [0, 1, 2, 3]
          = some c1.m_selection ∧
        c1.m_rotations = selectingChain.m_rotations ∧
        c1.m_rotations_at_selection = c1.m_rotations) ∧
    (List.range 4).map
        (bone_in_marquee restCollaborators selectingChain chainJoints chainBones [-1, 0, 1, 2])
      = [false, false, true, false] ∧
    ∃ c1, MouseController.set_selection_from_last_drag restCollaborators 4 3
        (MouseController.up restCollaborators selectingChain 28 105).2 chainJoints chainBones [-1, 0, 1, 2] [0, 1, 2, 3] = some c1 ∧
      c1.m_selection = [0, 0, 1, 0] :=
  ⟨by with_unfolding_all rfl,
    marquee_finalized_by_set_selection_from_last_drag restCollaborators 4 3
      selectingChain 28 105 chainJoints chainBones [-1, 0, 1, 2] [0, 1, 2, 3] (by decide) (by decide) (by decide) (by decide),
    by with_unfolding_all decide,
    ⟨_, by with_unfolding_all rfl, by with_unfolding_all decide⟩⟩

/-- C10: `reset_rotations()` sets every bone's relative rotation to the identity
quaternion, keeping the number of bones, sets every selection entry to false, and
`any_selection()` returns false afterwards, from every controller state. -/
theorem reset_rotations_spec (c : MouseController) :
    c.reset_rotations.m_rotations.length = c.m_rotations.length ∧
    (∀ q ∈ c.reset_rotations.m_rotations, q = Quaterniond.Identity) ∧
    c.reset_rotations.m_selection.length = c.m_selection.length ∧
    (∀ t ∈ c.reset_rotations.m_selection, t = 0) ∧
    c.reset_rotations.any_selection = false := by
  refine ⟨?_, ?_, ?_, ?_, ?_⟩
  · simp [MouseController.reset_rotations, MouseController.clear_selection]
  · intro q hq
    simp only [MouseController.reset_rotations, MouseController.clear_selection,
      List.mem_map] at hq
    obtain ⟨_, _, rfl⟩ := hq
    rfl
  · simp [MouseController.reset_rotations, MouseController.clear_selection]
  · intro t ht
    simp only [MouseController.reset_rotations, MouseController.clear_selection,
      List.mem_map] at ht
    obtain ⟨_, _, rfl⟩ := ht
    rfl
  · simp [MouseController.reset_rotations, MouseController.clear_selection,
      MouseController.any_selection, any_of, truthy]

/-! ### Bulk assignment of rotations -/

/-- C11: for every controller state and every rotation list `vQ` whose length
differs from the number of bone rotations, `set_rotations(vQ)` returns false
without reaching its assertion and leaves the whole controller, `m_rotations` and
the selection included, exactly as it was. -/
theorem set_rotations_size_mismatch (c : MouseController) (vQ : RotationList)
    (h : vQ.length ≠ c.m_rotations.length) :
    c.set_rotations vQ = some (false, c) := by
  simp only [MouseController.set_rotations, h, ne_eq, not_false_iff, if_true]

/-- C11, on the posed chain, whose selection is not empty, with a list of one
rotation. -/
theorem set_rotations_size_mismatch_witness :
    posedChain.set_rotations [Quaterniond.Identity] = some (false, posedChain) :=
  set_rotations_size_mismatch posedChain [Quaterniond.Identity] (by decide)

/-! ### Pointer events -/

theorem down_cases (env : Collaborators) (c : MouseController) (x y : Int) :
    (MouseController.down env c x y).1 = true ∧
    (MouseController.down env c x y).2.m_down_x = x ∧
    (MouseController.down env c x y).2.m_down_y = y ∧
    (MouseController.down env c x y).2.m_drag_x = x ∧
    (MouseController.down env c x y).2.m_drag_y = y ∧
    (MouseController.down env c x y).2.m_selection = c.m_selection ∧
    (MouseController.down env c x y).2.m_rotations = c.m_rotations ∧
    (MouseController.down env c x y).2.m_height = c.m_height ∧
    (c.any_selection = false →
      (MouseController.down env c x y).2.m_is_selecting = true ∧
      (MouseController.down env c x y).2.m_widget = c.m_widget) := by
  have hany : MouseController.any_selection
      { c with m_down_x := x, m_drag_x := x, m_down_y := y, m_drag_y := y }
      = c.any_selection := rfl
  by_cases ha : c.any_selection = true
  · by_cases hw : (env.widget_down c.m_widget x (c.m_height - y)).1 = true
    · simp only [MouseController.down, hany, ha, hw, if_true, Bool.not_true,
        Bool.false_eq_true, if_false, Bool.or_true]
      exact ⟨trivial, trivial, trivial, trivial, trivial, trivial, trivial, trivial,
        fun h => by cases h⟩
    · have hw1 : (env.widget_down c.m_widget x (c.m_height - y)).1 = false := by
        simpa using hw
      simp only [MouseController.down, hany, ha, hw1, if_true, Bool.not_false,
        Bool.or_false]
      exact ⟨trivial, trivial, trivial, trivial, trivial, trivial, trivial, trivial,
        fun h => by cases h⟩
  · have ha1 : c.any_selection = false := by simpa using ha
    simp only [MouseController.down, hany, ha1, Bool.false_eq_true, if_false,
      Bool.not_false, if_true, Bool.or_false]
    exact ⟨trivial, trivial, trivial, trivial, trivial, trivial, trivial, trivial,
      fun _ => ⟨trivial, trivial⟩⟩

/-- C16: `down(x,y)` returns true in every controller state and for every pointer
position, and records `(x,y)` as both the down and the drag position; when the
selection is empty the controller is selecting afterwards, the widget not being
asked at all. -/
theorem down_always_accepted (env : Collaborators) (c : MouseController) (x y : Int) :
    (MouseController.down env c x y).1 = true ∧
    (MouseController.down env c x y).2.m_down_x = x ∧
    (MouseController.down env c x y).2.m_down_y = y ∧
    (MouseController.down env c x y).2.m_drag_x = x ∧
    (MouseController.down env c x y).2.m_drag_y = y ∧
    (c.any_selection = false →
      (MouseController.down env c x y).2.m_is_selecting = true ∧
      (MouseController.down env c x y).2.m_widget = c.m_widget) := by
  obtain ⟨h1, h2, h3, h4, h5, _, _, _, h6⟩ := down_cases env c x y
  exact ⟨h1, h2, h3, h4, h5, h6⟩

/-- C16, on the chain controller after `set_size(4)`, whose selection is empty. -/
theorem down_always_accepted_witness :
    (MouseController.down restCollaborators chainController 15 95).2.m_is_selecting = true ∧
    (MouseController.down restCollaborators chainController 15 95).2.m_widget
      = chainController.m_widget :=
  (down_always_accepted restCollaborators chainController 15 95).2.2.2.2.2 (by decide)

/-- C18: `down(x,y)` immediately followed by `up(x,y)` leaves the selection and
every bone rotation unchanged and the controller not selecting, and `up` returns
false; this holds from every state. From a state with an empty selection the
widget only sees the `up`. -/
theorem down_up_leaves_selection (env : Collaborators) (c : MouseController) (x y : Int) :
    (MouseController.up env (MouseController.down env c x y).2 x y).1 = false ∧
    (MouseController.up env (MouseController.down env c x y).2 x y).2.m_selection
      = c.m_selection ∧
    (MouseController.up env (MouseController.down env c x y).2 x y).2.m_rotations
      = c.m_rotations ∧
    (MouseController.up env (MouseController.down env c x y).2 x y).2.m_is_selecting = false ∧
    (c.any_selection = false →
      (MouseController.up env (MouseController.down env c x y).2 x y).2.m_widget
        = (env.widget_up c.m_widget x (c.m_height - y)).2) := by
  obtain ⟨_, _, _, _, _, hsel, hrot, hh, hemp⟩ := down_cases env c x y
  refine ⟨rfl, hsel, hrot, rfl, ?_⟩
  intro h
  have hw := (hemp h).2
  show (env.widget_up (MouseController.down env c x y).2.m_widget x
    ((MouseController.down env c x y).2.m_height - y)).2 = _
  rw [hw, hh]

/-- C18, on the chain controller after `set_size(4)`, whose selection is empty. -/
theorem down_up_leaves_selection_witness :
    (MouseController.up restCollaborators
        (MouseController.down restCollaborators chainController 15 95).2 15 95).2.m_widget
      = (restCollaborators.widget_up chainController.m_widget 15
          (chainController.m_height - 95)).2 :=
  (down_up_leaves_selection restCollaborators chainController 15 95).2.2.2.2 (by decide)

/-! ### The three outcomes of `drag` -/

theorem drag_selecting (env : Collaborators) (c : MouseController) (x y : Int)
    (hs : c.m_is_selecting = true) :
    MouseController.drag env c x y
      = some (true, { c with m_drag_x := x, m_drag_y := y }) := by
  simp only [MouseController.drag, hs, if_true]

theorem drag_rejected (env : Collaborators) (c : MouseController) (x y : Int)
    (hns : c.m_is_selecting = false)
    (hrej : (env.widget_drag c.m_widget x (c.m_height - y)).1 = false) :
    MouseController.drag env c x y
      = some (false, { c with m_drag_x := x, m_drag_y := y,
                              m_widget := (env.widget_drag c.m_widget x (c.m_height - y)).2 }) := by
  simp only [MouseController.drag, hns, hrej, Bool.false_eq_true, if_false, Bool.not_false,
    if_true]

/-- An accepted drag of the widget, not selecting: either an assertion fails or a
snapshot is too short, or `drag` returns true with `m_rotations` rewritten by the
loop over the bones and nothing else touched but the drag position and the widget. -/
theorem drag_accepted_cases (env : Collaborators) (c : MouseController) (x y : Int)
    (hns : c.m_is_selecting = false)
    (hacc : (env.widget_drag c.m_widget x (c.m_height - y)).1 = true) :
    MouseController.drag env c x y = none ∨
    ∃ rots, MouseController.drag env c x y
      = some (true, { c with m_drag_x := x, m_drag_y := y,
                             m_widget := (env.widget_drag c.m_widget x (c.m_height - y)).2,
                             m_rotations := rots }) := by
  by_cases hany : any_of c.m_selection = true
  · by_cases hlen : c.m_selection.length = c.m_rotations.length
    · have hne : ¬ (c.m_selection.length ≠ c.m_rotations.length) := not_not.2 hlen
      cases hrun : forLoop (MouseController.drag_body
          { c with m_is_selecting := false, m_drag_x := x, m_drag_y := y,
                   m_widget := (env.widget_drag c.m_widget x (c.m_height - y)).2 })
          c.m_selection.length 0 c.m_rotations with
      | none =>
        left
        simp only [MouseController.drag, MouseController.any_selection, hns, hacc, hany, hne,
          hrun, Bool.false_eq_true, Bool.not_true, if_false]
      | some rots =>
        right
        refine ⟨rots, ?_⟩
        simp only [MouseController.drag, MouseController.any_selection, hns, hacc, hany, hne,
          hrun, Bool.false_eq_true, Bool.not_true, if_false]
    · left
      have hne : c.m_selection.length ≠ c.m_rotations.length := hlen
      simp only [MouseController.drag, MouseController.any_selection, hns, hacc, hany, hne,
        Bool.false_eq_true, Bool.not_true, if_false, ne_eq, not_false_iff, if_true]
  · left
    have hany1 : any_of c.m_selection = false := by simpa using hany
    simp only [MouseController.drag, MouseController.any_selection, hns, hacc, hany1,
      Bool.false_eq_true, Bool.not_true, Bool.not_false, if_false, if_true]

/-- An accepted drag of the widget with a non-empty selection and snapshots of
full length returns true; `rots`, the new `m_rotations`, holds the re-derived
rotation at every selected bone and the old rotation at every other bone. -/
theorem drag_accepted_spec (env : Collaborators) (c : MouseController) (x y : Int)
    (hns : c.m_is_selecting = false)
    (hacc : (env.widget_drag c.m_widget x (c.m_height - y)).1 = true)
    (hany : c.any_selection = true)
    (hlen : c.m_selection.length = c.m_rotations.length)
    (hras : c.m_rotations_at_selection.length = c.m_selection.length)
    (hfk : c.m_fk_rotations_at_selection.length = c.m_selection.length) :
    ∃ rots, MouseController.drag env c x y
        = some (true, { c with m_drag_x := x, m_drag_y := y,
                               m_widget := (env.widget_drag c.m_widget x (c.m_height - y)).2,
                               m_rotations := rots }) ∧
      rots.length = c.m_rotations.length ∧
      ∀ e : Nat, e < c.m_selection.length →
        (isSel c.m_selection (e : Int) →
          ∃ frame r0, c.m_fk_rotations_at_selection[e]? = some frame ∧
            c.m_rotations_at_selection[e]? = some r0 ∧
            rots[e]? = some (MouseController.rederive r0 frame
              (env.widget_drag c.m_widget x (c.m_height - y)).2.rot
              c.m_widget_rot_at_selection)) ∧
        (¬ isSel c.m_selection (e : Int) → rots[e]? = c.m_rotations[e]?) := by
  obtain ⟨rots, hrun, hl, hspec⟩ := drag_loop_spec
    { c with m_drag_x := x, m_drag_y := y,
             m_widget := (env.widget_drag c.m_widget x (c.m_height - y)).2 }
    hlen hras hfk
  have hany1 : any_of c.m_selection = true := hany
  have hne : ¬ (c.m_selection.length ≠ c.m_rotations.length) := not_not.2 hlen
  have hrun1 := hrun
  simp only [hns] at hrun1
  refine ⟨rots, ?_, hl, hspec⟩
  simp only [MouseController.drag, MouseController.any_selection, hns, hacc, hany1, hne,
    hrun1, Bool.false_eq_true, Bool.not_true, if_false]

/-- C17: whenever `drag(x,y)` returns, it returns true exactly when the controller
is selecting, or it is not selecting and the widget accepts the drag; the selection
is never changed, and when the controller is selecting or the widget rejects the
drag no relative rotation is changed either. It does return in those two cases,
and also when the widget accepts the drag with a non-empty selection and snapshots
of one entry per bone. -/
theorem drag_accepted_iff (env : Collaborators) (c : MouseController) (x y : Int) :
    (∀ (b : Bool) (c1 : MouseController), MouseController.drag env c x y = some (b, c1) →
      (b = true ↔ (c.m_is_selecting = true ∨ (c.m_is_selecting = false ∧
        (env.widget_drag c.m_widget x (c.m_height - y)).1 = true))) ∧
      c1.m_selection = c.m_selection ∧
      ((c.m_is_selecting = true ∨ (env.widget_drag c.m_widget x (c.m_height - y)).1 = false) →
        c1.m_rotations = c.m_rotations)) ∧
    ((c.m_is_selecting = true ∨ (env.widget_drag c.m_widget x (c.m_height - y)).1 = false) →
      ∃ c1, MouseController.drag env c x y = some (c.m_is_selecting, c1)) ∧
    (c.m_is_selecting = false →
      (env.widget_drag c.m_widget x (c.m_height - y)).1 = true →
      c.any_selection = true →
      c.m_selection.length = c.m_rotations.length →
      c.m_rotations_at_selection.length = c.m_selection.length →
      c.m_fk_rotations_at_selection.length = c.m_selection.length →
      ∃ c1, MouseController.drag env c x y = some (true, c1)) := by
  refine ⟨?_, ?_, ?_⟩
  · intro b c1 h
    by_cases hs : c.m_is_selecting = true
    · rw [drag_selecting env c x y hs] at h
      obtain ⟨rfl, rfl⟩ := Prod.mk.inj (Option.some.inj h)
      exact ⟨⟨fun _ => Or.inl hs, fun _ => rfl⟩, rfl, fun _ => rfl⟩
    · have hns : c.m_is_selecting = false := by simpa using hs
      by_cases hw : (env.widget_drag c.m_widget x (c.m_height - y)).1 = true
      · rcases drag_accepted_cases env c x y hns hw with h0 | ⟨rots, h1⟩
        · rw [h0] at h; cases h
        · rw [h1] at h
          obtain ⟨rfl, rfl⟩ := Prod.mk.inj (Option.some.inj h)
          refine ⟨⟨fun _ => Or.inr ⟨hns, hw⟩, fun _ => rfl⟩, rfl, ?_⟩
          rintro (h2 | h2)
          · exact absurd h2 hs
          · rw [hw] at h2; cases h2
      · have hrej : (env.widget_drag c.m_widget x (c.m_height - y)).1 = false := by
          simpa using hw
        rw [drag_rejected env c x y hns hrej] at h
        obtain ⟨rfl, rfl⟩ := Prod.mk.inj (Option.some.inj h)
        refine ⟨⟨fun h2 => Bool.noConfusion h2, ?_⟩, rfl, fun _ => rfl⟩
        rintro (h2 | ⟨_, h2⟩)
        · exact absurd h2 hs
        · exact absurd h2 hw
  · intro h
    by_cases hs : c.m_is_selecting = true
    · exact ⟨_, by rw [drag_selecting env c x y hs, hs]⟩
    · have hns : c.m_is_selecting = false := by simpa using hs
      rcases h with h | h
      · exact absurd h hs
      · exact ⟨_, by rw [drag_rejected env c x y hns h, hns]⟩
  · intro hns hacc hany hlen hras hfk
    obtain ⟨rots, hrun, _⟩ := drag_accepted_spec env c x y hns hacc hany hlen hras hfk
    exact ⟨_, hrun⟩

/-- C17, on the posed chain: the widget accepts the drag and bone 2 is selected. -/
theorem drag_accepted_iff_witness :
    ∃ c1, MouseController.drag restCollaborators posedChain 25 95 = some (true, c1) :=
  (drag_accepted_iff restCollaborators posedChain 25 95).2.2 (by decide) (by decide)
    (by decide) (by decide) (by decide) (by decide)

/-! ### Quaternion algebra of the re-derivation -/

theorem quat_mul_assoc (a b c : Quaterniond) : (a.mul b).mul c = a.mul (b.mul c) := by
  simp only [Quaterniond.mul, Quaterniond.mk.injEq]
  refine ⟨?_, ?_, ?_, ?_⟩ <;> ring

theorem quat_mul_conjugate_self (q : Quaterniond) (h : q.squaredNorm = 1) :
    q.mul q.conjugate = Quaterniond.Identity := by
  simp only [Quaterniond.squaredNorm] at h
  simp only [Quaterniond.mul, Quaterniond.conjugate, Quaterniond.Identity,
    Quaterniond.mk.injEq]
  refine ⟨?_, ?_, ?_, ?_⟩
  · linear_combination h
  · ring
  · ring
  · ring

theorem quat_identity_mul (q : Quaterniond) : Quaterniond.Identity.mul q = q := by
  simp [Quaterniond.mul, Quaterniond.Identity]

theorem quat_squaredNorm_mul (a b : Quaterniond) :
    (a.mul b).squaredNorm = a.squaredNorm * b.squaredNorm := by
  simp only [Quaterniond.mul, Quaterniond.squaredNorm]
  ring

/-- With the frame `qp * r0` of unit quaternions, the parent rotation `qp` times
the re-derived relative rotation is the widget increment times the frame. -/
theorem rederive_absolute (qp r0 w w0 : Quaterniond) (hq : qp.squaredNorm = 1)
    (hr : r0.squaredNorm = 1) :
    qp.mul (MouseController.rederive r0 (qp.mul r0) w w0)
      = (w.mul w0.conjugate).mul (qp.mul r0) := by
  have hf : (qp.mul r0).squaredNorm = 1 := by
    rw [quat_squaredNorm_mul, hq, hr]; norm_num
  unfold MouseController.rederive
  rw [← quat_mul_assoc qp, ← quat_mul_assoc qp, ← quat_mul_assoc qp,
    quat_mul_conjugate_self _ hf, quat_identity_mul]

/-- C19: forward-kinematics consistency of the re-derived rotation. After an
accepted drag of the widget, for a selected bone `e` whose frame at selection is
`qp * rotAtSelection[e]`, `qp` being the parent's absolute rotation (not changed
by the drag) and `qp`, `rotAtSelection[e]` unit quaternions, the new absolute
rotation `qp * m_rotations[e]` equals
`(widgetRotNow * conjugate(widgetRotAtSelection)) * frame`. Quaternion arithmetic
is exact (rational). -/
theorem drag_absolute_rotation (env : Collaborators) (c : MouseController) (x y : Int)
    (hns : c.m_is_selecting = false)
    (hacc : (env.widget_drag c.m_widget x (c.m_height - y)).1 = true)
    (hany : c.any_selection = true)
    (hlen : c.m_selection.length = c.m_rotations.length)
    (hras : c.m_rotations_at_selection.length = c.m_selection.length)
    (hfk : c.m_fk_rotations_at_selection.length = c.m_selection.length) :
    ∃ c1, MouseController.drag env c x y = some (true, c1) ∧
      ∀ (e : Nat) (qp r0 : Quaterniond), e < c.m_selection.length →
        isSel c.m_selection (e : Int) →
        c.m_rotations_at_selection[e]? = some r0 →
        c.m_fk_rotations_at_selection[e]? = some (qp.mul r0) →
        qp.squaredNorm = 1 → r0.squaredNorm = 1 →
        ∃ r1, c1.m_rotations[e]? = some r1 ∧
          qp.mul r1 = ((env.widget_drag c.m_widget x (c.m_height - y)).2.rot.mul
            c.m_widget_rot_at_selection.conjugate).mul (qp.mul r0) := by
  obtain ⟨rots, hrun, _, hspec⟩ := drag_accepted_spec env c x y hns hacc hany hlen hras hfk
  refine ⟨_, hrun, ?_⟩
  intro e qp r0 he hsel hr0 hframe hq hr
  obtain ⟨frame, r0a, hf, hr1, hval⟩ := (hspec e he).1 hsel
  rw [hframe] at hf
  rw [hr0] at hr1
  obtain rfl := Option.some.inj hf
  obtain rfl := Option.some.inj hr1
  exact ⟨_, hval, rederive_absolute qp r0 _ _ hq hr⟩

/-- C19, on the posed chain with bone 2 selected. -/
theorem drag_absolute_rotation_witness :
    ∃ c1, MouseController.drag restCollaborators posedChain 25 95 = some (true, c1) ∧
      ∀ (e : Nat) (qp r0 : Quaterniond), e < posedChain.m_selection.length →
        isSel posedChain.m_selection (e : Int) →
        posedChain.m_rotations_at_selection[e]? = some r0 →
        posedChain.m_fk_rotations_at_selection[e]? = some (qp.mul r0) →
        qp.squaredNorm = 1 → r0.squaredNorm = 1 →
        ∃ r1, c1.m_rotations[e]? = some r1 ∧
          qp.mul r1 = ((restCollaborators.widget_drag posedChain.m_widget 25
            (posedChain.m_height - 95)).2.rot.mul
            posedChain.m_widget_rot_at_selection.conjugate).mul (qp.mul r0) :=
  drag_absolute_rotation restCollaborators posedChain 25 95 (by decide) (by decide)
    (by decide) (by decide) (by decide) (by decide)

/-- C20: an accepted manipulating drag changes only the relative rotations of
selected bones: `m_rotations[e]` is unchanged for every bone `e` with
`m_selection[e]` false, the number of rotations is kept, and the selection, the
snapshots `m_rotations_at_selection` and `m_fk_rotations_at_selection` and the
widget rotation captured at selection are unchanged. -/
theorem drag_changes_selected_only (env : Collaborators) (c : MouseController) (x y : Int)
    (hns : c.m_is_selecting = false)
    (hacc : (env.widget_drag c.m_widget x (c.m_height - y)).1 = true)
    (hany : c.any_selection = true)
    (hlen : c.m_selection.length = c.m_rotations.length)
    (hras : c.m_rotations_at_selection.length = c.m_selection.length)
    (hfk : c.m_fk_rotations_at_selection.length = c.m_selection.length) :
    ∃ c1, MouseController.drag env c x y = some (true, c1) ∧
      (∀ e : Nat, e < c.m_selection.length → ¬ isSel c.m_selection (e : Int) →
        c1.m_rotations[e]? = c.m_rotations[e]?) ∧
      c1.m_rotations.length = c.m_rotations.length ∧
      c1.m_selection = c.m_selection ∧
      c1.m_rotations_at_selection = c.m_rotations_at_selection ∧
      c1.m_fk_rotations_at_selection = c.m_fk_rotations_at_selection ∧
      c1.m_widget_rot_at_selection = c.m_widget_rot_at_selection := by
  obtain ⟨rots, hrun, hl, hspec⟩ :=
    drag_accepted_spec env c x y hns hacc hany hlen hras hfk
  exact ⟨_, hrun, fun e he hn => (hspec e he).2 hn, hl, rfl, rfl, rfl, rfl⟩

/-- C20, on the posed chain with bone 2 selected. -/
theorem drag_changes_selected_only_witness :
    ∃ c1, MouseController.drag restCollaborators posedChain 25 95 = some (true, c1) ∧
      (∀ e : Nat, e < posedChain.m_selection.length → ¬ isSel posedChain.m_selection (e : Int) →
        c1.m_rotations[e]? = posedChain.m_rotations[e]?) ∧
      c1.m_rotations.length = posedChain.m_rotations.length ∧
      c1.m_selection = posedChain.m_selection ∧
      c1.m_rotations_at_selection = posedChain.m_rotations_at_selection ∧
      c1.m_fk_rotations_at_selection = posedChain.m_fk_rotations_at_selection ∧
      c1.m_widget_rot_at_selection = posedChain.m_widget_rot_at_selection :=
  drag_changes_selected_only restCollaborators posedChain 25 95 (by decide) (by decide)
    (by decide) (by decide) (by decide) (by decide)

/-! ### Termination of the normalisation and the widget flag -/

/-- The result of a pass does not depend on the walk fuel once the fuel covers
the number of bones. -/
theorem normalize_pass_fuel (n : Nat) (P RP : VectorXi) (hW : WellFormed n P RP)
    (wf1 wf2 : Nat) (h1 : n ≤ wf1) (h2 : n ≤ wf2) (x : VectorXb) (hx : x.length = n) :
    normalize_pass wf1 n P RP x = normalize_pass wf2 n P RP x := by
  obtain ⟨Y1, X1, hs1, hp1, _, hl1, _, hv1⟩ := normalize_pass_spec n P RP hW wf1 h1 x hx
  obtain ⟨Y2, X2, hs2, hp2, _, hl2, _, hv2⟩ := normalize_pass_spec n P RP hW wf2 h2 x hx
  have hY : Y1 = Y2 := by rw [hs1] at hs2; exact Option.some.inj hs2
  subst hY
  rw [hp1, hp2]
  congr 1
  apply list_ext_getD X1 X2 (by omega)
  intro j hj
  rw [hv1 j (by omega), hv2 j (by omega)]

/-- C14: for every forest `P`, every rigid-group array `RP` without negative ids
and every selection `S` of matching length (at least one bone), the normalisation
in `set_selection` terminates: `n` iterations are enough for each upward clearing
walk and three passes are enough for the spread-then-clear loop to reach its exit
test; more fuel gives the same selection. -/
theorem set_selection_normalize_terminates (n : Nat) (P RP : VectorXi)
    (hW : WellFormed n P RP) (S : VectorXb) (hS : S.length = n) :
    ∃ R, set_selection_normalize n 3 S n P RP = some R ∧
      ∀ wfuel pfuel : Nat, n ≤ wfuel → 3 ≤ pfuel →
        set_selection_normalize wfuel pfuel S n P RP = some R := by
  obtain ⟨x1, R, h0, h1, _, hl1, _, hnorm⟩ :=
    set_selection_normalize_spec n P RP hW n 3 (le_refl _) (le_refl _) S hS
  refine ⟨R, hnorm, ?_⟩
  intro wfuel pfuel hwf hpf
  obtain ⟨y1, R1, g0, g1, _, _, _, gnorm⟩ :=
    set_selection_normalize_spec n P RP hW wfuel pfuel hwf hpf S hS
  have e1 : y1 = x1 := by
    rw [normalize_pass_fuel n P RP hW wfuel n hwf (le_refl _) S hS, h0] at g0
    exact (Option.some.inj g0).symm
  subst e1
  have e2 : R1 = R := by
    rw [normalize_pass_fuel n P RP hW wfuel n hwf (le_refl _) y1 hl1, h1] at g1
    exact (Option.some.inj g1).symm
  rw [gnorm, e2]

/-- C14, on the chain with bones 0 and 2 in one rigid group and bones 0, 1, 2
picked, where the third pass is needed: two passes do not reach the exit test. -/
theorem set_selection_normalize_terminates_witness :
    (∃ R, set_selection_normalize 4 3 [1, 1, 1, 0] 4 [-1, 0, 1, 2] [0, 1, 0, 2] = some R ∧
      ∀ wfuel pfuel : Nat, 4 ≤ wfuel → 3 ≤ pfuel →
        set_selection_normalize wfuel pfuel [1, 1, 1, 0] 4 [-1, 0, 1, 2] [0, 1, 0, 2]
          = some R) ∧
    set_selection_normalize 4 2 [1, 1, 1, 0] 4 [-1, 0, 1, 2] [0, 1, 0, 2] = none :=
  ⟨set_selection_normalize_terminates 4 [-1, 0, 1, 2] [0, 1, 0, 2] (by decide) [1, 1, 1, 0]
    (by decide), by decide⟩

/-- C15: after `set_selection` the widget is disabled exactly when root
manipulation is disabled (`m_root_enabled` false, a flag the call does not change)
and some bone `s` of the normalised selection is a tree root (`m_selection[s]`
true and `P[s] = -1`); in every other case the widget is enabled, whatever its
flag was before the call. -/
theorem set_selection_widget_enabled (env : Collaborators) (wfuel pfuel : Nat)
    (c : MouseController) (S : VectorXi) (C : List Vector3d) (BE : List (Int × Int))
    (P RP : VectorXi)
    (hW : WellFormed BE.length P RP) (hS : S.length = BE.length)
    (hR : ValidRig env c.m_rotations C BE P) (hwf : BE.length ≤ wfuel) (hpf : 3 ≤ pfuel) :
    ∃ c1, MouseController.set_selection env wfuel pfuel c S C BE P RP = some c1 ∧
      c1.m_root_enabled = c.m_root_enabled ∧
      (c1.m_widget.m_is_enabled = false ↔
        c.m_root_enabled = false ∧
          ∃ s : Nat, s < BE.length ∧ isSel c1.m_selection (s : Int) ∧ P.getD s 0 = -1) ∧
      (c1.m_widget.m_is_enabled = true ↔
        ¬ (c.m_root_enabled = false ∧
          ∃ s : Nat, s < BE.length ∧ isSel c1.m_selection (s : Int) ∧ P.getD s 0 = -1)) := by
  obtain ⟨x1, R, _, _, _, _, hRl, hnorm⟩ :=
    set_selection_normalize_spec BE.length P RP hW wfuel pfuel hwf hpf S hS
  obtain ⟨c1, hrun, hsel, _, _, _, _, hre, hen⟩ :=
    set_selection_of_normalize env wfuel pfuel c S C BE P RP R hnorm hRl hW.2.1 hR
  have hiff : c1.m_widget.m_is_enabled = false ↔
      c.m_root_enabled = false ∧
        ∃ s : Nat, s < BE.length ∧ isSel c1.m_selection (s : Int) ∧ P.getD s 0 = -1 := by
    rw [hen, hsel]
    constructor
    · rintro ⟨h1, s, h2, h3, h4⟩
      exact ⟨h1, s, h2, (isSel_iff_getD R s).2 h3, h4⟩
    · rintro ⟨h1, s, h2, h3, h4⟩
      exact ⟨h1, s, h2, (isSel_iff_getD R s).1 h3, h4⟩
  refine ⟨c1, hrun, hre, hiff, ?_⟩
  rw [← hiff]
  cases c1.m_widget.m_is_enabled <;> simp

/-- C15, on the chain with root manipulation disabled and the root bone 0 picked. -/
theorem set_selection_widget_enabled_witness :
    ∃ c1, MouseController.set_selection restCollaborators 4 3
        { chainController with m_root_enabled := false } [1, 0, 0, 0]
        chainJoints chainBones [-1, 0, 1, 2] [0, 1, 2, 3] = some c1 ∧
      c1.m_root_enabled = false ∧
      (c1.m_widget.m_is_enabled = false ↔
        false = false ∧
          ∃ s : Nat, s < chainBones.length ∧ isSel c1.m_selection (s : Int) ∧
            ([-1, 0, 1, 2] : VectorXi).getD s 0 = -1) ∧
      (c1.m_widget.m_is_enabled = true ↔
        ¬ (false = false ∧
          ∃ s : Nat, s < chainBones.length ∧ isSel c1.m_selection (s : Int) ∧
            ([-1, 0, 1, 2] : VectorXi).getD s 0 = -1)) :=
  set_selection_widget_enabled restCollaborators 4 3
    { chainController with m_root_enabled := false } [1, 0, 0, 0]
    chainJoints chainBones [-1, 0, 1, 2] [0, 1, 2, 3] (by decide) (by decide) (by decide)
    (by decide) (by decide)

/-! ### Propagation on parent arrays with cycles -/

theorem count_false_set (l : List Bool) (i : Nat) (h : l[i]? = some false) :
    (l.set i true).count false + 1 = l.count false := by
  induction l generalizing i with
  | nil => simp at h
  | cons a l ih =>
    cases i with
    | zero =>
      simp only [List.getElem?_cons_zero, Option.some.injEq] at h
      subst h
      simp [List.count_cons]
    | succ j =>
      simp only [List.getElem?_cons_succ] at h
      have := ih j h
      simp only [List.set_cons_succ, List.count_cons]
      omega

/-- The look-up returns for every parent array with valid entries, forest or not:
every call that recurses first marks a bone that was not seen, so fuel above the
number of unseen bones is never used up. -/
theorem look_up_total (P : VectorXi) (n : Nat) (hP : P.length = n) (hV : ValidParents P) :
    ∀ (fuel : Nat) (e : Int) (T : VectorXb) (seen : List Bool),
      T.length = n → seen.length = n →
      (e = -1 ∨ (0 ≤ e ∧ e < (n : Int))) →
      seen.count false < fuel →
      ∃ b T1 seen1, look_up P fuel e (T, seen) = some (b, (T1, seen1)) ∧
        T1.length = n ∧ seen1.length = n ∧ seen1.count false ≤ seen.count false := by
  intro fuel
  induction fuel with
  | zero => intro e T seen _ _ _ h; omega
  | succ fuel ih =>
    intro e T seen hT hS he hc
    rcases he with rfl | ⟨he0, hen⟩
    · exact ⟨false, T, seen, by simp [look_up], hT, hS, le_refl _⟩
    · obtain ⟨i, rfl⟩ := Int.eq_ofNat_of_zero_le he0
      have hi : i < n := by exact_mod_cast hen
      have hne : ¬ ((i : Int) = -1) := by omega
      have hnn : ¬ ((i : Int) < 0) := by omega
      have hTi : T[i]? = some T[i] := List.getElem?_eq_getElem (by omega)
      have hseen : seen[i]? = some seen[i] := List.getElem?_eq_getElem (by omega)
      cases hsn : seen[i] with
      | true =>
        rw [hsn] at hseen
        exact ⟨truthy T[i], T, seen, by simp [look_up, hne, hnn, hseen, hTi], hT, hS,
          le_refl _⟩
      | false =>
        rw [hsn] at hseen
        have hp : P[i]? = some P[i] := List.getElem?_eq_getElem (by omega)
        have hval : P[i] = -1 ∨ (0 ≤ P[i] ∧ P[i] < (n : Int)) := by
          have := hV.getElem? i _ hp
          rcases this with h | ⟨h1, h2⟩
          · exact Or.inl h
          · exact Or.inr ⟨h1, by omega⟩
        have hcnt := count_false_set seen i hseen
        obtain ⟨b, T1, seen1, hrun, hT1, hS1, hc1⟩ :=
          ih P[i] T (seen.set i true) hT (by simp [hS]) hval (by omega)
        have hT1i : T1[i]? = some T1[i] := List.getElem?_eq_getElem (by omega)
        have hiT1 : i < T1.length := by omega
        refine ⟨truthy (Int.lor T1[i] (ofBool b)), T1.set i (Int.lor T1[i] (ofBool b)), seen1,
          ?_, by simp [hT1], hS1, by omega⟩
        simp [look_up, hne, hnn, hseen, hp, hrun, hT1i, hiT1]

/-- For every parent array with valid entries the propagation returns a vector of
the length of `S`. -/
theorem propogate_total (S : VectorXb) (P : VectorXi) (hlen : P.length = S.length)
    (hV : ValidParents P) (fuel : Nat) (hfuel : S.length < fuel) :
    ∃ T, propogate_to_descendants_if fuel S P = some T ∧ T.length = S.length := by
  obtain ⟨st1, hrun, hT, _⟩ := forLoop_inv (propogate_body fuel P)
    (fun _ st => st.1.length = S.length ∧ st.2.length = S.length) S.length 0
    (by
      intro e st _ he ⟨hT, hS⟩
      obtain ⟨T, seen⟩ := st
      simp only at hT hS
      have hseen : seen[e]? = some seen[e] := List.getElem?_eq_getElem (by omega)
      cases hsn : seen[e] with
      | true =>
        rw [hsn] at hseen
        exact ⟨(T, seen), by simp [propogate_body, hseen], hT, hS⟩
      | false =>
        rw [hsn] at hseen
        have hcount : seen.count false < fuel := by
          have := List.count_le_length false seen
          omega
        obtain ⟨b, T1, seen1, hrun, hT1, hS1, _⟩ :=
          look_up_total P S.length hlen hV fuel (e : Int) T seen hT hS
            (Or.inr ⟨by omega, by exact_mod_cast (by omega : e < S.length)⟩) hcount
        exact ⟨(T1.set e (ofBool b), seen1), by simp [propogate_body, hseen, hrun],
          by simp [hT1], hS1⟩)
    (S, List.replicate S.length false) ⟨rfl, by simp⟩
  exact ⟨st1.1, by simp [propogate_to_descendants_if, hlen, hrun], hT⟩

/-- C13 fails as stated: on the two-bone parent array `[1,0]`, a cycle, with bone
0 picked the call signals nothing and returns the vector `[1,1]`. -/
theorem propogate_returns_on_cycle :
    ¬ IsForest [1, 0] ∧ ValidParents [1, 0] ∧
    propogate_to_descendants_if 3 [1, 0] [1, 0] = some [1, 1] := by
  decide

/-- C13, amended: `propogate_to_descendants_if` has no cycle check that signals
an error. For every parent array with entries `-1` or a valid index, with a cycle
or without, the `seen` flags end every recursion and the call returns a selection
vector `T` of the length of `S`. -/
theorem propogate_returns_without_cycle_check (S : VectorXb) (P : VectorXi)
    (hlen : P.length = S.length) (hV : ValidParents P) (fuel : Nat)
    (hfuel : S.length < fuel) :
    ∃ T, propogate_to_descendants_if fuel S P = some T ∧ T.length = S.length :=
  propogate_total S P hlen hV fuel hfuel

/-- C13 amended, on the three-bone cycle `0→1→2→0` with bone 2 picked. -/
theorem propogate_returns_without_cycle_check_witness :
    ¬ IsForest [1, 2, 0] ∧
    ∃ T, propogate_to_descendants_if 4 [0, 0, 1] [1, 2, 0] = some T ∧
      T.length = ([0, 0, 1] : VectorXb).length :=
  ⟨by decide,
    propogate_returns_without_cycle_check [0, 0, 1] [1, 2, 0] (by decide) (by decide) 4
      (by decide)⟩

/-! ### What one call of the look-up does to the state -/

/-- The three ways a call of `look_up` returns: at `-1`, at a bone already seen,
or at an unseen bone `i` after the call for its parent. -/
theorem look_up_inv (P : VectorXi) (fuel : Nat) (e : Int) (T : VectorXb) (seen : List Bool)
    (b : Bool) (T1 : VectorXb) (seen1 : List Bool)
    (h : look_up P (fuel + 1) e (T, seen) = some (b, (T1, seen1))) :
    (e = -1 ∧ b = false ∧ T1 = T ∧ seen1 = seen) ∨
    (∃ i : Nat, e = (i : Int) ∧ seen[i]? = some true ∧ T1 = T ∧ seen1 = seen ∧
      ∃ t, T[i]? = some t ∧ b = truthy t) ∨
    (∃ (i : Nat) (p : Int) (b0 : Bool) (T0 : VectorXb) (t : Int),
      e = (i : Int) ∧ seen[i]? = some false ∧ P[i]? = some p ∧
      look_up P fuel p (T, seen.set i true) = some (b0, (T0, seen1)) ∧
      T0[i]? = some t ∧ T1 = T0.set i (Int.lor t (ofBool b0)) ∧
      b = truthy (Int.lor t (ofBool b0))) := by
  by_cases h1 : e = -1
  · left
    subst h1
    simp only [look_up, if_true, Option.some.injEq, Prod.mk.injEq] at h
    obtain ⟨hb, hT, hs⟩ := h
    exact ⟨rfl, hb.symm, hT.symm, hs.symm⟩
  · right
    by_cases h2 : e < 0
    · simp [look_up, h1, h2] at h
    · obtain ⟨i, rfl⟩ := Int.eq_ofNat_of_zero_le (by omega : 0 ≤ e)
      simp only [look_up, h1, h2, if_false, Int.toNat_ofNat] at h
      cases hs : seen[i]? with
      | none => simp [hs] at h
      | some sn =>
        cases sn with
        | true =>
          left
          simp only [hs, if_true] at h
          cases ht : T[i]? with
          | none => simp [ht] at h
          | some t =>
            simp only [ht, Option.some.injEq, Prod.mk.injEq] at h
            obtain ⟨hb, hT, hs1⟩ := h
            exact ⟨i, rfl, hs, hT.symm, hs1.symm, t, ht, hb.symm⟩
        | false =>
          right
          simp only [hs, Bool.false_eq_true, if_false] at h
          cases hp : P[i]? with
          | none => simp [hp] at h
          | some p =>
            simp only [hp] at h
            cases hr : look_up P fuel p (T, seen.set i true) with
            | none => simp [hr] at h
            | some r =>
              obtain ⟨b0, T0, s0⟩ := r
              simp only [hr] at h
              cases ht : T0[i]? with
              | none => simp [ht] at h
              | some t =>
                have hlt : i < T0.length := by
                  by_contra hge
                  rw [List.getElem?_eq_none (by omega)] at ht
                  cases ht
                simp only [ht, List.getElem?_set_self hlt, Option.some.injEq,
                  Prod.mk.injEq] at h
                obtain ⟨hb, hT, hs1⟩ := h
                subst hs1
                exact ⟨i, p, b0, T0, t, rfl, hs, hp, hr, ht, hT.symm, hb.symm⟩

theorem ancestorAt_succ_right (P : VectorXi) (k : Nat) (e : Int) :
    ancestorAt P (k + 1) e = parentOf P (ancestorAt P k e) := by
  rw [ancestorAt_add P k 1 e]; rfl

/-- Facts that hold after every returning call of `look_up`, forest or not: sizes
are kept; bones seen before stay seen and keep their entry; the answer is the
entry of `e` afterwards; `e` is seen afterwards; every newly seen bone lies on the
upward path from `e` and its parent, if any, is seen afterwards. -/
theorem look_up_post (P : VectorXi) :
    ∀ (fuel : Nat) (e : Int) (T : VectorXb) (seen : List Bool) (b : Bool) (T1 : VectorXb)
      (seen1 : List Bool),
      look_up P fuel e (T, seen) = some (b, (T1, seen1)) →
      T1.length = T.length ∧ seen1.length = seen.length ∧
      (e = -1 ∨ 0 ≤ e) ∧
      (∀ i : Nat, seen[i]? = some true → seen1[i]? = some true ∧ T1[i]? = T[i]?) ∧
      (b = true ↔ isSel T1 e) ∧
      (0 ≤ e → seen1[e.toNat]? = some true) ∧
      (∀ i : Nat, seen1[i]? = some true →
        seen[i]? = some true ∨ (seen[i]? = some false ∧ ∃ k, ancestorAt P k e = (i : Int))) ∧
      (∀ i : Nat, seen[i]? = some false → seen1[i]? = some true →
        parentOf P (i : Int) = -1 ∨
          ∃ p : Nat, parentOf P (i : Int) = (p : Int) ∧ seen1[p]? = some true) := by
  intro fuel
  induction fuel with
  | zero => intro e T seen b T1 seen1 h; simp [look_up] at h
  | succ fuel ih =>
    intro e T seen b T1 seen1 h
    rcases look_up_inv P fuel e T seen b T1 seen1 h with
      ⟨rfl, rfl, rfl, rfl⟩ | ⟨i, rfl, hs, rfl, rfl, t, ht, rfl⟩ |
      ⟨i, p, b0, T0, t, rfl, hs, hp, hr, ht, rfl, rfl⟩
    · refine ⟨rfl, rfl, Or.inl rfl, fun i hi => ⟨hi, rfl⟩, ?_, fun h0 => by omega,
        fun i hi => Or.inl hi, fun i h0 h1 => by rw [h0] at h1; cases h1⟩
      constructor
      · intro h0; cases h0
      · intro h0; exact absurd h0 (not_isSel_neg _ (-1) (by omega))
    · refine ⟨rfl, rfl, Or.inr (by omega), fun j hj => ⟨hj, rfl⟩, ?_,
        fun _ => by simpa using hs, fun j hj => Or.inl hj,
        fun j h0 h1 => by rw [h0] at h1; cases h1⟩
      rw [isSel_natCast, ht]
      simp [truthy]
    · obtain ⟨hl0, hsl0, hpv, hfr, hb0, hself, hnew, hcl⟩ := ih p T (seen.set i true) b0 T0 _ hr
      have hpar : parentOf P (i : Int) = p := parentOf_of_getElem? P i p hp
      have his : i < seen.length := by
        by_contra hge
        rw [List.getElem?_eq_none (by omega)] at hs
        cases hs
      have hseti : (seen.set i true)[i]? = some true := List.getElem?_set_self his
      have hi1 : seen1[i]? = some true := (hfr i hseti).1
      have hlt : i < T0.length := by
        by_contra hge
        rw [List.getElem?_eq_none (by omega)] at ht
        cases ht
      refine ⟨by simp [hl0], by simpa using hsl0, Or.inr (by omega), ?_, ?_,
        fun _ => by simpa using hi1, ?_, ?_⟩
      · intro j hj
        have hij : i ≠ j := by rintro rfl; rw [hs] at hj; cases hj
        have hj1 : (seen.set i true)[j]? = some true := by
          rw [List.getElem?_set_ne hij]; exact hj
        exact ⟨(hfr j hj1).1, by rw [List.getElem?_set_ne hij]; exact (hfr j hj1).2⟩
      · rw [isSel_natCast, List.getElem?_set_self hlt]
        simp [truthy]
      · intro j hj
        rcases hnew j hj with h0 | ⟨h0, k, hk⟩
        · by_cases hij : i = j
          · subst hij; exact Or.inr ⟨hs, 0, rfl⟩
          · rw [List.getElem?_set_ne hij] at h0; exact Or.inl h0
        · have hij : i ≠ j := by
            rintro rfl; rw [hseti] at h0; cases h0
          rw [List.getElem?_set_ne hij] at h0
          refine Or.inr ⟨h0, k + 1, ?_⟩
          simp only [ancestorAt, hpar]; exact hk
      · intro j hj0 hj1
        by_cases hij : i = j
        · subst hij
          rw [hpar]
          rcases hpv with hneg | hnn
          · exact Or.inl hneg
          · obtain ⟨pn, rfl⟩ := Int.eq_ofNat_of_zero_le hnn
            exact Or.inr ⟨pn, rfl, by simpa using hself hnn⟩
        · exact hcl j (by rw [List.getElem?_set_ne hij]; exact hj0) hj1

theorem int_lor_one_one (a : Int) : Int.lor (Int.lor a 1) 1 = Int.lor a 1 := by
  cases a with
  | ofNat n =>
    show Int.lor (Int.lor (Int.ofNat n) (Int.ofNat 1)) (Int.ofNat 1)
      = Int.lor (Int.ofNat n) (Int.ofNat 1)
    simp only [Int.lor]
    have : (n ||| 1) ||| 1 = n ||| 1 := by
      rw [Nat.lor_assoc, Nat.or_self]
    rw [this]
  | negSucc n =>
    show Int.lor (Int.lor (Int.negSucc n) (Int.ofNat 1)) (Int.ofNat 1)
      = Int.lor (Int.negSucc n) (Int.ofNat 1)
    simp only [Int.lor]
    congr 1
    apply Nat.eq_of_testBit_eq; intro i
    simp [Nat.testBit_ldiff]

theorem list_set_same (T : List Int) (i : Nat) (t : Int) (h : T[i]? = some t) :
    T.set i t = T := by
  apply List.ext_getElem?
  intro j
  by_cases hij : i = j
  · subst hij
    have : i < T.length := by
      by_contra hge
      rw [List.getElem?_eq_none (by omega)] at h
      cases h
    rw [List.getElem?_set_self this, h]
  · rw [List.getElem?_set_ne hij]

theorem isSel_set_ne (T : VectorXb) (i : Nat) (v : Int) (x : Int) (h : x ≠ (i : Int)) :
    isSel (T.set i v) x ↔ isSel T x := by
  by_cases h0 : 0 ≤ x
  · obtain ⟨k, rfl⟩ := Int.eq_ofNat_of_zero_le h0
    have hik : i ≠ k := by rintro rfl; exact h rfl
    rw [isSel_natCast, isSel_natCast, List.getElem?_set_ne hik]
  · exact ⟨fun h1 => absurd h1 (not_isSel_neg _ x (by omega)),
      fun h1 => absurd h1 (not_isSel_neg _ x (by omega))⟩

/-- In a forest, every bone newly seen by a call of `look_up` ends with its old
entry or-ed with the truth value of its parent's final entry. -/
theorem look_up_local (P : VectorXi) (hF : IsForest P) :
    ∀ (fuel : Nat) (e : Int) (T : VectorXb) (seen : List Bool) (b : Bool) (T1 : VectorXb)
      (seen1 : List Bool),
      look_up P fuel e (T, seen) = some (b, (T1, seen1)) →
      ∀ i : Nat, seen[i]? = some false → seen1[i]? = some true →
        ∃ t b1, T[i]? = some t ∧ T1[i]? = some (Int.lor t (ofBool b1)) ∧
          (b1 = true ↔ isSel T1 (parentOf P (i : Int))) := by
  intro fuel
  induction fuel with
  | zero => intro e T seen b T1 seen1 h; simp [look_up] at h
  | succ fuel ih =>
    intro e T seen b T1 seen1 h j hj0 hj1
    rcases look_up_inv P fuel e T seen b T1 seen1 h with
      ⟨rfl, rfl, rfl, rfl⟩ | ⟨i, rfl, hs, rfl, rfl, t, ht, rfl⟩ |
      ⟨i, p, b0, T0, t, rfl, hs, hp, hr, ht, rfl, rfl⟩
    · rw [hj0] at hj1; cases hj1
    · rw [hj0] at hj1; cases hj1
    · obtain ⟨hl0, hsl0, hpv, hfr, hb0, hself, hnew, hcl⟩ :=
        look_up_post P fuel p T (seen.set i true) b0 T0 _ hr
      have hpar : parentOf P (i : Int) = p := parentOf_of_getElem? P i p hp
      have hiP : i < P.length := by
        by_contra hge
        rw [List.getElem?_eq_none (by omega)] at hp
        cases hp
      have his : i < seen.length := by
        by_contra hge
        rw [List.getElem?_eq_none (by omega)] at hs
        cases hs
      have hseti : (seen.set i true)[i]? = some true := List.getElem?_set_self his
      have hlt : i < T0.length := by
        by_contra hge
        rw [List.getElem?_eq_none (by omega)] at ht
        cases ht
      by_cases hij : i = j
      · subst hij
        refine ⟨t, b0, ?_, List.getElem?_set_self hlt, ?_⟩
        · rw [← (hfr i hseti).2]; exact ht
        · rw [hb0, hpar]
          have hne : p ≠ (i : Int) := by
            have := hF.no_cycle i hiP 1 (by omega)
            simpa [ancestorAt, hpar] using this
          exact (isSel_set_ne T0 i _ p hne).symm
      · have hj0a : (seen.set i true)[j]? = some false := by
          rw [List.getElem?_set_ne hij]; exact hj0
        obtain ⟨tj, b1, h1, h2, h3⟩ := ih p T (seen.set i true) b0 T0 _ hr j hj0a hj1
        refine ⟨tj, b1, h1, by rw [List.getElem?_set_ne hij]; exact h2, ?_⟩
        rw [h3]
        have hne : parentOf P (j : Int) ≠ (i : Int) := by
          rcases hnew j hj1 with h0 | ⟨_, k, hk⟩
          · rw [hj0a] at h0; cases h0
          · have hk2 : ancestorAt P (k + 1 + 1) (i : Int) = parentOf P (j : Int) := by
              rw [ancestorAt_succ_right, ← hk]
              simp only [ancestorAt, hpar]
            rw [← hk2]
            exact hF.no_cycle i hiP (k + 1 + 1) (by omega)
        exact (isSel_set_ne T0 i _ _ hne).symm

/-- A vector in which every bone below a true parent has its lowest bit set is not
changed by `look_up`. -/
theorem look_up_fixed (P : VectorXi) (T : VectorXb)
    (hQ : ∀ (i : Nat) (t : Int), T[i]? = some t → isSel T (parentOf P (i : Int)) →
      Int.lor t 1 = t) :
    ∀ (fuel : Nat) (e : Int) (seen : List Bool) (b : Bool) (T1 : VectorXb)
      (seen1 : List Bool),
      look_up P fuel e (T, seen) = some (b, (T1, seen1)) → T1 = T := by
  intro fuel
  induction fuel with
  | zero => intro e seen b T1 seen1 h; simp [look_up] at h
  | succ fuel ih =>
    intro e seen b T1 seen1 h
    rcases look_up_inv P fuel e T seen b T1 seen1 h with
      ⟨rfl, rfl, rfl, rfl⟩ | ⟨i, rfl, hs, rfl, rfl, t, ht, rfl⟩ |
      ⟨i, p, b0, T0, t, rfl, hs, hp, hr, ht, rfl, rfl⟩
    · rfl
    · rfl
    · have hT0 : T0 = T := ih p (seen.set i true) b0 T0 _ hr
      subst hT0
      obtain ⟨_, _, _, _, hb0, _⟩ := look_up_post P fuel p T0 (seen.set i true) b0 T0 _ hr
      have hpar : parentOf P (i : Int) = p := parentOf_of_getElem? P i p hp
      have hval : Int.lor t (ofBool b0) = t := by
        cases b0 with
        | true => exact hQ i t ht (by rw [hpar]; exact hb0.1 rfl)
        | false => exact int_lor_zero t
      rw [hval]
      exact list_set_same T0 i t ht

/-! ### The outer loop of the propagation, step by step -/

/-- One round of the outer loop on a state of the right sizes: nothing happens at
a seen bone; at an unseen bone `look_up` returns and its answer is stored. -/
theorem propogate_body_step (P : VectorXi) (n : Nat) (hP : P.length = n)
    (hV : ValidParents P) (fuel : Nat) (hfuel : n < fuel) (e : Nat) (he : e < n)
    (T : VectorXb) (seen : List Bool) (hT : T.length = n) (hS : seen.length = n) :
    (seen[e]? = some true ∧ propogate_body fuel P e (T, seen) = some (T, seen)) ∨
    (seen[e]? = some false ∧ ∃ b T1 seen1,
      look_up P fuel (e : Int) (T, seen) = some (b, (T1, seen1)) ∧
      propogate_body fuel P e (T, seen) = some (T1.set e (ofBool b), seen1)) := by
  have hseen : seen[e]? = some seen[e] := List.getElem?_eq_getElem (by omega)
  cases hsn : seen[e] with
  | true =>
    rw [hsn] at hseen
    exact Or.inl ⟨hseen, by simp [propogate_body, hseen]⟩
  | false =>
    rw [hsn] at hseen
    have hcount : seen.count false < fuel := by
      have := List.count_le_length false seen
      omega
    obtain ⟨b, T1, seen1, hrun, _, _, _⟩ :=
      look_up_total P n hP hV fuel (e : Int) T seen hT hS
        (Or.inr ⟨by omega, by exact_mod_cast he⟩) hcount
    exact Or.inr ⟨hseen, b, T1, seen1, hrun, by simp [propogate_body, hseen, hrun]⟩

theorem seenClosed_look_up (P : VectorXi) (fuel : Nat) (e : Int) (T : VectorXb)
    (seen : List Bool) (b : Bool) (T1 : VectorXb) (seen1 : List Bool)
    (h : look_up P fuel e (T, seen) = some (b, (T1, seen1))) (hC : SeenClosed P seen) :
    SeenClosed P seen1 := by
  obtain ⟨_, _, _, hfr, _, _, hnew, hcl⟩ := look_up_post P fuel e T seen b T1 seen1 h
  intro i hi
  rcases hnew i hi with h0 | ⟨h0, _⟩
  · rcases hC i h0 with h1 | ⟨p, hp, hps⟩
    · exact Or.inl h1
    · exact Or.inr ⟨p, hp, (hfr p hps).1⟩
  · exact hcl i h0 hi

theorem seenClosed_chain (P : VectorXi) (seen : List Bool) (hC : SeenClosed P seen)
    (e : Nat) (he : seen[e]? = some true) :
    ∀ (k i : Nat), ancestorAt P k (e : Int) = (i : Int) → seen[i]? = some true := by
  intro k
  induction k with
  | zero =>
    intro i hi
    simp only [ancestorAt] at hi
    have : e = i := by exact_mod_cast hi
    rw [← this]; exact he
  | succ k ih =>
    intro i hi
    rw [ancestorAt_succ_right] at hi
    by_cases h0 : 0 ≤ ancestorAt P k (e : Int)
    · obtain ⟨a, ha⟩ := Int.eq_ofNat_of_zero_le h0
      rw [ha] at hi
      rcases hC a (ih a ha) with h1 | ⟨p, hp, hps⟩
      · rw [h1] at hi; omega
      · rw [hp] at hi
        have : p = i := by exact_mod_cast hi
        rw [← this]; exact hps
    · rw [parentOf_neg P _ (by omega)] at hi
      omega

theorem isSel_set_ofBool (T1 : VectorXb) (e : Nat) (b : Bool) (he : e < T1.length)
    (hb : b = true ↔ isSel T1 (e : Int)) (x : Int) :
    isSel (T1.set e (ofBool b)) x ↔ isSel T1 x := by
  by_cases hx : x = (e : Int)
  · subst hx
    rw [← hb, isSel_natCast, List.getElem?_set_self he]
    cases b <;> simp [ofBool]
  · exact isSel_set_ne T1 e _ x hx

theorem isSel_congr_getElem? (A B : VectorXb) (p : Nat) (h : A[p]? = B[p]?) :
    isSel A (p : Int) ↔ isSel B (p : Int) := by
  rw [isSel_natCast, isSel_natCast, h]

/-- The invariants of the outer loop survive one round, in a forest. -/
theorem propogate_body_shape (P : VectorXi) (n : Nat) (hP : P.length = n)
    (hF : IsForest P) (fuel : Nat) (hfuel : n < fuel) (e : Nat) (he : e < n)
    (st : VectorXb × List Bool)
    (hI : st.1.length = n ∧ st.2.length = n ∧ (∀ i : Nat, i < e → st.2[i]? = some true) ∧
      SeenClosed P st.2 ∧ LowBit P st.1 st.2 ∧ NormOrCovered P st.1 st.2) :
    ∃ st1, propogate_body fuel P e st = some st1 ∧
      (st1.1.length = n ∧ st1.2.length = n ∧
        (∀ i : Nat, i < e + 1 → st1.2[i]? = some true) ∧
        SeenClosed P st1.2 ∧ LowBit P st1.1 st1.2 ∧ NormOrCovered P st1.1 st1.2) := by
  obtain ⟨T, seen⟩ := st
  obtain ⟨hT, hS, hall, hC, hLB, hN⟩ := hI
  simp only at hT hS hall hC hLB hN
  rcases propogate_body_step P n hP hF.1 fuel hfuel e he T seen hT hS with
    ⟨hse, hrun⟩ | ⟨hse, b, T1, seen1, hlook, hrun⟩
  · refine ⟨(T, seen), hrun, hT, hS, ?_, hC, hLB, hN⟩
    intro i hi
    rcases Nat.lt_succ_iff_lt_or_eq.1 hi with h | rfl
    · exact hall i h
    · exact hse
  · obtain ⟨hl, hsl, _, hfr, hb, hself, hnew, hcl⟩ :=
      look_up_post P fuel (e : Int) T seen b T1 seen1 hlook
    have hloc := look_up_local P hF fuel (e : Int) T seen b T1 seen1 hlook
    have he1 : e < T1.length := by omega
    have hse1 : seen1[e]? = some true := by simpa using hself (by omega)
    have htruth := isSel_set_ofBool T1 e b he1 hb
    refine ⟨(T1.set e (ofBool b), seen1), hrun, by simp [hl, hT], by simp [hsl, hS], ?_,
      seenClosed_look_up P fuel _ T seen b T1 seen1 hlook hC, ?_, ?_⟩
    · intro i hi
      rcases Nat.lt_succ_iff_lt_or_eq.1 hi with h | rfl
      · exact (hfr i (hall i h)).1
      · exact hse1
    · intro i t hsi hti hpar
      simp only at hsi hti hpar
      rw [htruth] at hpar
      by_cases hie : e = i
      · subst hie
        rw [List.getElem?_set_self he1] at hti
        obtain ⟨t0, b1, _, h2, h3⟩ := hloc e hse hse1
        have hb1 : b1 = true := h3.2 hpar
        subst hb1
        have hsel : isSel T1 (e : Int) := by
          rw [isSel_natCast]
          refine ⟨_, h2, ?_⟩
          rw [Ne, lor_eq_zero_iff]
          simp [ofBool]
        have hbt : b = true := hb.2 hsel
        subst hbt
        rw [← Option.some.inj hti]
        decide
      · rw [List.getElem?_set_ne hie] at hti
        rcases hnew i hsi with h0 | ⟨h0, _⟩
        · have hti0 : T[i]? = some t := by rw [← (hfr i h0).2]; exact hti
          rcases hC i h0 with h1 | ⟨p, hp, hps⟩
          · rw [h1] at hpar
            exact absurd hpar (not_isSel_neg _ (-1) (by omega))
          · apply hLB i t h0 hti0
            rw [hp] at hpar ⊢
            exact (isSel_congr_getElem? T1 T p (hfr p hps).2).1 hpar
        · obtain ⟨t0, b1, _, h2, h3⟩ := hloc i h0 hsi
          have hb1 : b1 = true := h3.2 hpar
          subst hb1
          rw [h2] at hti
          rw [← Option.some.inj hti]
          exact int_lor_one_one t0
    · intro i t hsi hti
      simp only at hsi hti
      by_cases hie : e = i
      · subst hie
        rw [List.getElem?_set_self he1] at hti
        rw [← Option.some.inj hti]
        cases b
        · exact Or.inl (Or.inl rfl)
        · exact Or.inl (Or.inr rfl)
      · rw [List.getElem?_set_ne hie] at hti
        rcases hnew i hsi with h0 | ⟨h0, k, hk⟩
        · exact hN i t h0 (by rw [← (hfr i h0).2]; exact hti)
        · right
          refine ⟨e, k, ?_, hk⟩
          by_contra hle
          have hlt : i < e := by omega
          rw [hall i hlt] at h0
          cases h0

/-- The shape of the propagated vector in a forest: a bone below a true parent has
the lowest bit of its entry set, and an entry other than `0` and `1` belongs to an
ancestor of a bone with a smaller index. -/
theorem propogate_shape (S : VectorXb) (P : VectorXi) (hlen : P.length = S.length)
    (hF : IsForest P) (fuel : Nat) (hfuel : S.length < fuel) :
    ∃ T, propogate_to_descendants_if fuel S P = some T ∧ T.length = S.length ∧
      (∀ (i : Nat) (t : Int), T[i]? = some t → isSel T (parentOf P (i : Int)) →
        Int.lor t 1 = t) ∧
      (∀ (i : Nat) (t : Int), T[i]? = some t →
        (t = 0 ∨ t = 1) ∨ ∃ e k : Nat, e < i ∧ ancestorAt P k (e : Int) = (i : Int)) := by
  have hfalse : ∀ i : Nat, (List.replicate S.length false)[i]? = some true → False := by
    intro i hi
    rw [List.getElem?_replicate] at hi
    split at hi <;> simp at hi
  obtain ⟨st1, hrun, hT, hS, hall, _, hLB, hN⟩ := forLoop_inv (propogate_body fuel P)
    (fun k st => st.1.length = S.length ∧ st.2.length = S.length ∧
      (∀ i : Nat, i < k → st.2[i]? = some true) ∧
      SeenClosed P st.2 ∧ LowBit P st.1 st.2 ∧ NormOrCovered P st.1 st.2) S.length 0
    (fun e st _ he hI =>
      propogate_body_shape P S.length hlen hF fuel hfuel e (by omega) st hI)
    (S, List.replicate S.length false)
    ⟨rfl, by simp, fun i hi => by omega, fun i hi => (hfalse i hi).elim,
      fun i t hi => (hfalse i hi).elim, fun i t hi => (hfalse i hi).elim⟩
  have hseen : ∀ (i : Nat) (t : Int), st1.1[i]? = some t → st1.2[i]? = some true := by
    intro i t ht
    apply hall
    by_contra hge
    rw [List.getElem?_eq_none (by omega)] at ht
    cases ht
  refine ⟨st1.1, by simp [propogate_to_descendants_if, hlen, hrun], hT, ?_, ?_⟩
  · intro i t ht hpar
    exact hLB i t (hseen i t ht) ht hpar
  · intro i t ht
    exact hN i t (hseen i t ht) ht

/-- A vector of that shape is returned unchanged by the propagation. -/
theorem propogate_unchanged (T : VectorXb) (P : VectorXi) (hlen : P.length = T.length)
    (hV : ValidParents P)
    (hQ : ∀ (i : Nat) (t : Int), T[i]? = some t → isSel T (parentOf P (i : Int)) →
      Int.lor t 1 = t)
    (hN : ∀ (i : Nat) (t : Int), T[i]? = some t →
      (t = 0 ∨ t = 1) ∨ ∃ e k : Nat, e < i ∧ ancestorAt P k (e : Int) = (i : Int))
    (fuel : Nat) (hfuel : T.length < fuel) :
    propogate_to_descendants_if fuel T P = some T := by
  obtain ⟨st1, hrun, hT1, _⟩ := forLoop_inv (propogate_body fuel P)
    (fun k st => st.1 = T ∧ st.2.length = T.length ∧
      (∀ i : Nat, i < k → st.2[i]? = some true) ∧ SeenClosed P st.2) T.length 0
    (by
      intro e st _ he ⟨hT, hS, hall, hC⟩
      obtain ⟨T0, seen⟩ := st
      simp only at hT hS hall hC
      subst hT
      have he1 : e < T0.length := by omega
      rcases propogate_body_step P T0.length hlen hV fuel hfuel e he1 T0 seen rfl hS with
        ⟨hse, hrun⟩ | ⟨hse, b, T1, seen1, hlook, hrun⟩
      · refine ⟨(T0, seen), hrun, rfl, hS, ?_, hC⟩
        intro i hi
        rcases Nat.lt_succ_iff_lt_or_eq.1 hi with h | rfl
        · exact hall i h
        · exact hse
      · have hfix : T1 = T0 := look_up_fixed P T0 hQ fuel _ seen b T1 seen1 hlook
        subst hfix
        obtain ⟨_, hsl, _, hfr, hb, hself, _, _⟩ :=
          look_up_post P fuel (e : Int) T1 seen b T1 seen1 hlook
        have hte : T1[e]? = some T1[e] := List.getElem?_eq_getElem he1
        have hval : ofBool b = T1[e] := by
          rcases hN e _ hte with (h0 | h1) | ⟨e0, k, hlt, hk⟩
          · have hnb : ¬ (b = true) := by
              rw [hb, isSel_natCast, hte]
              rintro ⟨t, ht, hne⟩
              exact hne ((Option.some.inj ht).symm.trans h0)
            have hbf : b = false := by simpa using hnb
            rw [hbf, h0]; rfl
          · have hbt : b = true := by
              rw [hb, isSel_natCast, hte]
              exact ⟨_, rfl, by rw [h1]; decide⟩
            rw [hbt, h1]; rfl
          · have := seenClosed_chain P seen hC e0 (hall e0 hlt) k e hk
            rw [hse] at this
            cases this
        refine ⟨(T1.set e (ofBool b), seen1), hrun, ?_, by simp [hsl, hS], ?_,
          seenClosed_look_up P fuel _ T1 seen b T1 seen1 hlook hC⟩
        · show T1.set e (ofBool b) = T1
          rw [hval]
          exact list_set_same T1 e _ hte
        · intro i hi
          rcases Nat.lt_succ_iff_lt_or_eq.1 hi with h | rfl
          · exact (hfr i (hall i h)).1
          · simpa using hself (by omega))
    (T, List.replicate T.length false)
    ⟨rfl, by simp, fun i hi => by omega, by
      intro i hi
      rw [List.getElem?_replicate] at hi
      split at hi <;> simp at hi⟩
  have hst : st1.1 = T := hT1
  simp [propogate_to_descendants_if, hlen, hrun, hst]

/-- C12: for every forest `P`, propagation is idempotent: the output `T` of
`propogate_to_descendants_if` on a selection `S` is returned unchanged when the
function is applied to `T` with the same `P`, i.e.
`propagate(propagate(S)) = propagate(S)`. This holds for every int vector `S`,
vectors of `0` and `1` included. -/
theorem propogate_idempotent (S : VectorXb) (P : VectorXi) (hlen : P.length = S.length)
    (hF : IsForest P) (fuel : Nat) (hfuel : S.length < fuel) :
    ∃ T, propogate_to_descendants_if fuel S P = some T ∧
      propogate_to_descendants_if fuel T P = some T := by
  obtain ⟨T, hrun, hT, hQ, hN⟩ := propogate_shape S P hlen hF fuel hfuel
  exact ⟨T, hrun, propogate_unchanged T P (by omega) hF.1 hQ hN fuel (by omega)⟩

/-- C12, on the branching forest `P = [1,2,-1,2]` with entries that are not all
`0` or `1`. -/
theorem propogate_idempotent_witness :
    ∃ T, propogate_to_descendants_if 5 [0, 2, 4, 0] [1, 2, -1, 2] = some T ∧
      propogate_to_descendants_if 5 T [1, 2, -1, 2] = some T :=
  propogate_idempotent [0, 2, 4, 0] [1, 2, -1, 2] (by decide) (by decide) 5 (by decide)

/-! ### Normalisation keeps the top of every selected run -/

/-- A selected entry lies inside the vector. -/
theorem isSel_lt (Y : VectorXb) (a : Int) (h : isSel Y a) :
    ∃ j : Nat, a = (j : Int) ∧ j < Y.length ∧ Y.getD j 0 ≠ 0 := by
  by_cases h0 : 0 ≤ a
  · obtain ⟨j, rfl⟩ := Int.eq_ofNat_of_zero_le h0
    have hv := (isSel_iff_getD Y j).1 h
    exact ⟨j, rfl, getD_ne_zero_lt Y j hv, hv⟩
  · exact absurd h (not_isSel_neg Y a (by omega))

/-- Two passes, pointwise: with `Y0`, `Y1` the spread selections and `x1`, `R` the
cleared ones, `R` lies inside `Y1` and `Y1` inside `Y0`, and every bone of `Y0`
has itself or an ancestor in `R`, namely the top of its run of selected bones. -/
theorem normalize_covers (n : Nat) (P RP : VectorXi) (hRP : RP.length = n)
    (x0 Y0 x1 Y1 R : VectorXb) (hY0l : Y0.length = n) (hY1l : Y1.length = n)
    (hY0 : ∀ j : Nat, j < n → Y0.getD j 0 = groupOr RP x0 n (RP.getD j 0))
    (hx1 : ∀ j : Nat, j < n → x1.getD j 0 = cleared P Y0 j)
    (hY1 : ∀ j : Nat, j < n → Y1.getD j 0 = groupOr RP x1 n (RP.getD j 0))
    (hR : ∀ j : Nat, j < n → R.getD j 0 = cleared P Y1 j) :
    (∀ j : Nat, j < n → Y1.getD j 0 ≠ 0 → Y0.getD j 0 ≠ 0) ∧
    (∀ j : Nat, j < n → R.getD j 0 ≠ 0 → Y0.getD j 0 ≠ 0) ∧
    (∀ m e : Nat, e < n → ancestorAt P m (e : Int) = -1 → Y0.getD e 0 ≠ 0 →
      Anc R P (e : Int)) := by
  have h10 : ∀ j : Nat, j < n → Y1.getD j 0 ≠ 0 → Y0.getD j 0 ≠ 0 := by
    intro j hj hv
    rw [hY1 j hj, groupOr_ne_zero] at hv
    obtain ⟨e, he, hg, hx⟩ := hv
    rw [hx1 e he, cleared_ne_zero_iff] at hx
    have hY0e := hx.1
    rw [hY0 e he, getD_of_getElem? RP e _ hg] at hY0e
    rw [hY0 j hj]
    exact hY0e
  refine ⟨h10, ?_, ?_⟩
  · intro j hj hv
    rw [hR j hj, cleared_ne_zero_iff] at hv
    exact h10 j hj hv.1
  · intro m
    induction m with
    | zero =>
      intro e _ h _
      simp only [ancestorAt] at h
      omega
    | succ m ih =>
      intro e he h hv
      simp only [ancestorAt] at h
      by_cases hp : isSel Y0 (parentOf P (e : Int))
      · obtain ⟨p, hpe, hpl, hpv⟩ := isSel_lt Y0 _ hp
        rw [hpe] at h
        rw [Anc_step, hpe]
        exact Or.inr (ih p (by omega) h hpv)
      · have hx : x1.getD e 0 ≠ 0 := by
          rw [hx1 e he, cleared_of_not_parent P Y0 e hp]; exact hv
        have hY1e : Y1.getD e 0 ≠ 0 := by
          rw [hY1 e he, groupOr_ne_zero]
          exact ⟨e, he, getElem?_eq_getD RP e (by omega), hx⟩
        have hp1 : ¬ isSel Y1 (parentOf P (e : Int)) := by
          intro h1
          obtain ⟨p, hpe, hpl, hpv⟩ := isSel_lt Y1 _ h1
          apply hp
          rw [hpe, isSel_iff_getD]
          exact h10 p (by omega) hpv
        refine ⟨0, ?_⟩
        show isSel R (e : Int)
        rw [isSel_iff_getD, hR e he, cleared_of_not_parent P Y1 e hp1]
        exact hY1e

/-- Two selections have the same descendants when one lies inside the other and
covers it from above. -/
theorem Anc_congr_cover (P : VectorXi) (A B : VectorXb)
    (hsub : ∀ a : Int, isSel A a → isSel B a)
    (hcov : ∀ a : Int, isSel B a → Anc A P a) (e : Int) :
    Anc A P e ↔ Anc B P e := by
  constructor
  · rintro ⟨k, hk⟩
    exact ⟨k, hsub _ hk⟩
  · rintro ⟨k, hk⟩
    obtain ⟨k1, h1⟩ := hcov _ hk
    exact ⟨k + k1, by rw [ancestorAt_add]; exact h1⟩

/-! ### Vectors of `0` and `1` -/

theorem forLoop_preserve {σ : Type} (body : Nat → σ → Option σ) (Inv : σ → Prop)
    (hstep : ∀ (e : Nat) (s s1 : σ), body e s = some s1 → Inv s → Inv s1) :
    ∀ (k lo : Nat) (s s1 : σ), forLoop body k lo s = some s1 → Inv s → Inv s1 := by
  intro k
  induction k with
  | zero =>
    intro lo s s1 h hI
    simp only [forLoop, Option.some.injEq] at h
    rw [← h]; exact hI
  | succ k ih =>
    intro lo s s1 h hI
    simp only [forLoop] at h
    cases hb : body lo s with
    | none => rw [hb] at h; cases h
    | some s2 =>
      rw [hb] at h
      exact ih (lo + 1) s2 s1 h (hstep lo s s2 hb hI)

theorem set_two_valued (T : List Int) (i : Nat) (v : Int)
    (hT : ∀ (j : Nat) (t : Int), T[j]? = some t → t = 0 ∨ t = 1) (hv : v = 0 ∨ v = 1) :
    ∀ (j : Nat) (t : Int), (T.set i v)[j]? = some t → t = 0 ∨ t = 1 := by
  intro j t h
  by_cases hij : i = j
  · subst hij
    by_cases hi : i < T.length
    · rw [List.getElem?_set_self hi] at h
      rw [← Option.some.inj h]; exact hv
    · rw [List.getElem?_eq_none (by simp only [List.length_set]; omega)] at h
      cases h
  · rw [List.getElem?_set_ne hij] at h
    exact hT j t h

theorem lor_ofBool_two_valued (t : Int) (b : Bool) (h : t = 0 ∨ t = 1) :
    Int.lor t (ofBool b) = 0 ∨ Int.lor t (ofBool b) = 1 := by
  rcases h with rfl | rfl <;> cases b <;> decide

/-- A call of `look_up` on a vector of `0` and `1` leaves a vector of `0` and `1`. -/
theorem look_up_two_valued (P : VectorXi) :
    ∀ (fuel : Nat) (e : Int) (T : VectorXb) (seen : List Bool) (b : Bool) (T1 : VectorXb)
      (seen1 : List Bool),
      look_up P fuel e (T, seen) = some (b, (T1, seen1)) →
      (∀ (j : Nat) (t : Int), T[j]? = some t → t = 0 ∨ t = 1) →
      ∀ (j : Nat) (t : Int), T1[j]? = some t → t = 0 ∨ t = 1 := by
  intro fuel
  induction fuel with
  | zero => intro e T seen b T1 seen1 h; simp [look_up] at h
  | succ fuel ih =>
    intro e T seen b T1 seen1 h hT
    rcases look_up_inv P fuel e T seen b T1 seen1 h with
      ⟨rfl, rfl, rfl, rfl⟩ | ⟨i, rfl, hs, rfl, rfl, t, ht, rfl⟩ |
      ⟨i, p, b0, T0, t, rfl, hs, hp, hr, ht, rfl, rfl⟩
    · exact hT
    · exact hT
    · have h0 := ih p T (seen.set i true) b0 T0 seen1 hr hT
      exact set_two_valued T0 i _ h0 (lor_ofBool_two_valued t b0 (h0 i t ht))

/-- Propagation of a vector of `0` and `1` returns a vector of `0` and `1`. -/
theorem propogate_two_valued (fuel : Nat) (S : VectorXb) (P : VectorXi) (T : VectorXb)
    (h : propogate_to_descendants_if fuel S P = some T)
    (hS : ∀ (j : Nat) (t : Int), S[j]? = some t → t = 0 ∨ t = 1) :
    ∀ (j : Nat) (t : Int), T[j]? = some t → t = 0 ∨ t = 1 := by
  have hstep : ∀ (e : Nat) (s s1 : VectorXb × List Bool),
      propogate_body fuel P e s = some s1 →
      (∀ (j : Nat) (t : Int), s.1[j]? = some t → t = 0 ∨ t = 1) →
      ∀ (j : Nat) (t : Int), s1.1[j]? = some t → t = 0 ∨ t = 1 := by
    intro e s s1 hb hI
    obtain ⟨T0, seen⟩ := s
    unfold propogate_body at hb
    simp only at hb
    cases hse : seen[e]? with
    | none => rw [hse] at hb; cases hb
    | some sn =>
      rw [hse] at hb
      cases sn with
      | true =>
        simp only [Option.some.injEq] at hb
        rw [← hb]; exact hI
      | false =>
        simp only at hb
        cases hl : look_up P fuel (e : Int) (T0, seen) with
        | none => rw [hl] at hb; cases hb
        | some r =>
          obtain ⟨b, T1, seen1⟩ := r
          rw [hl] at hb
          simp only [Option.some.injEq] at hb
          rw [← hb]
          exact set_two_valued T1 e _
            (look_up_two_valued P fuel _ T0 seen b T1 seen1 hl hI)
            (by cases b <;> decide)
  unfold propogate_to_descendants_if at h
  simp only at h
  split at h
  · cases h
  · cases hrun : forLoop (propogate_body fuel P) S.length 0
        (S, List.replicate S.length false) with
    | none => rw [hrun] at h; cases h
    | some st =>
      rw [hrun] at h
      simp only [Option.map_some', Option.some.injEq] at h
      rw [← h]
      exact forLoop_preserve (propogate_body fuel P)
        (fun s => ∀ (j : Nat) (t : Int), s.1[j]? = some t → t = 0 ∨ t = 1) hstep
        S.length 0 _ st hrun hS

/-! ### The normalised selection against the spread raw pick -/

/-- The normalisation of `set_selection` next to the spread of the raw pick `S`:
the result `R` lies inside the spread pick `Y`, every bone of `Y` has itself or
an ancestor in `R`, and both are vectors of `0` and `1` when `S` is. -/
theorem normalize_against_spread (n : Nat) (P RP : VectorXi) (hW : WellFormed n P RP)
    (wfuel pfuel : Nat) (hwf : n ≤ wfuel) (hpf : 3 ≤ pfuel) (S : VectorXb)
    (hS : S.length = n) :
    ∃ R Y, set_selection_normalize wfuel pfuel S n P RP = some R ∧
      spread n RP S = some Y ∧ R.length = n ∧ Y.length = n ∧
      (∀ j : Nat, j < n → Y.getD j 0 = groupOr RP S n (RP.getD j 0)) ∧
      (∀ a : Int, isSel R a → isSel Y a) ∧
      (∀ a : Int, isSel Y a → Anc R P a) ∧
      ((∀ t ∈ S, t = 0 ∨ t = 1) →
        (∀ (j : Nat) (t : Int), R[j]? = some t → t = 0 ∨ t = 1) ∧
        (∀ (j : Nat) (t : Int), Y[j]? = some t → t = 0 ∨ t = 1)) := by
  obtain ⟨x1, R, h0, h1, _, hl1, hl2, hnorm⟩ :=
    set_selection_normalize_spec n P RP hW wfuel pfuel hwf hpf S hS
  obtain ⟨Y0, X0, hs0, hp0, hY0l, _, hY0, hX0⟩ :=
    normalize_pass_spec n P RP hW wfuel hwf S hS
  obtain ⟨Y1, X1, _, hp1, hY1l, _, hY1, hX1⟩ :=
    normalize_pass_spec n P RP hW wfuel hwf x1 hl1
  have e0 : X0 = x1 := by rw [h0] at hp0; exact (Option.some.inj hp0).symm
  have e1 : X1 = R := by rw [h1] at hp1; exact (Option.some.inj hp1).symm
  subst e0 e1
  obtain ⟨_, hP, hRP, hF, _⟩ := hW
  obtain ⟨_, hR0, hcov⟩ :=
    normalize_covers n P RP hRP S Y0 X0 Y1 X1 hY0l hY1l hY0 hX0 hY1 hX1
  refine ⟨X1, Y0, hnorm, hs0, hl2, hY0l, hY0, ?_, ?_, ?_⟩
  · intro a ha
    obtain ⟨j, rfl, hj, hv⟩ := isSel_lt X1 a ha
    rw [isSel_iff_getD]
    exact hR0 j (by omega) hv
  · intro a ha
    obtain ⟨j, rfl, hj, hv⟩ := isSel_lt Y0 a ha
    refine hcov n j (by omega) ?_ hv
    have := hF.2 j (by omega)
    rw [hP] at this
    exact this
  · intro hb
    have hSv : ∀ e : Nat, S.getD e 0 = 0 ∨ S.getD e 0 = 1 := by
      intro e
      by_cases he : e < S.length
      · have hm : S.getD e 0 ∈ S := by
          rw [List.getD_eq_getElem?_getD, List.getElem?_eq_getElem he]
          exact List.getElem_mem _
        exact hb _ hm
      · left
        rw [List.getD_eq_getElem?_getD, List.getElem?_eq_none (by omega)]; rfl
    have hY0v : ∀ j : Nat, j < n → Y0.getD j 0 = 0 ∨ Y0.getD j 0 = 1 := by
      intro j hj
      rw [hY0 j hj]
      exact groupOr_two_valued RP S n _ 1 (fun e _ _ => hSv e)
    have hX0v : ∀ j : Nat, j < n → X0.getD j 0 = 0 ∨ X0.getD j 0 = 1 := by
      intro j hj
      rw [hX0 j hj]
      rcases cleared_cases P Y0 j with h | h
      · exact Or.inl h
      · rw [h]; exact hY0v j hj
    have hY1v : ∀ j : Nat, j < n → Y1.getD j 0 = 0 ∨ Y1.getD j 0 = 1 := by
      intro j hj
      rw [hY1 j hj]
      exact groupOr_two_valued RP X0 n _ 1 (fun e he _ => hX0v e he)
    have hX1v : ∀ j : Nat, j < n → X1.getD j 0 = 0 ∨ X1.getD j 0 = 1 := by
      intro j hj
      rw [hX1 j hj]
      rcases cleared_cases P Y1 j with h | h
      · exact Or.inl h
      · rw [h]; exact hY1v j hj
    have conv : ∀ (A : List Int), A.length = n →
        (∀ j : Nat, j < n → A.getD j 0 = 0 ∨ A.getD j 0 = 1) →
        ∀ (j : Nat) (t : Int), A[j]? = some t → t = 0 ∨ t = 1 := by
      intro A hA hv j t ht
      have hj : j < n := by
        by_contra hge
        rw [List.getElem?_eq_none (by omega)] at ht
        cases ht
      rw [← getD_of_getElem? A j t ht]
      exact hv j hj
    exact ⟨conv X1 hl2 hX1v, conv Y0 hY0l hY0v⟩

/-- C21: normalisation loses no pick. For every forest `P`, grouping `RP` and
selection `S` (well-formed input of `BE.rows()` bones), `set_selection` returns,
its `m_selection` being the normalised `S`, and `propogate_to_descendants_if` of
that selection marks the same set of bones as `propogate_to_descendants_if` of the
spread raw pick `Y`, where the spread step marks exactly the bones whose rigid
group contains a picked bone. For a pick of `0` and `1` the two propagated vectors
are equal. In particular every raw-picked bone is, or has an ancestor that is,
selected after `set_selection`. -/
theorem set_selection_loses_no_pick (env : Collaborators) (wfuel pfuel fuel : Nat)
    (c : MouseController) (S : VectorXi) (C : List Vector3d) (BE : List (Int × Int))
    (P RP : VectorXi)
    (hW : WellFormed BE.length P RP) (hS : S.length = BE.length)
    (hR : ValidRig env c.m_rotations C BE P) (hwf : BE.length ≤ wfuel) (hpf : 3 ≤ pfuel)
    (hfuel : BE.length < fuel) :
    ∃ c1 Y TR TY,
      MouseController.set_selection env wfuel pfuel c S C BE P RP = some c1 ∧
      set_selection_normalize wfuel pfuel S BE.length P RP = some c1.m_selection ∧
      spread BE.length RP S = some Y ∧
      (∀ j : Nat, j < BE.length →
        (isSel Y (j : Int) ↔
          ∃ e : Nat, e < BE.length ∧ RP[e]? = RP[j]? ∧ isSel S (e : Int))) ∧
      propogate_to_descendants_if fuel c1.m_selection P = some TR ∧
      propogate_to_descendants_if fuel Y P = some TY ∧
      (∀ e : Nat, e < BE.length → (isSel TR (e : Int) ↔ isSel TY (e : Int))) ∧
      ((∀ t ∈ S, t = 0 ∨ t = 1) → TR = TY) ∧
      (∀ e : Nat, e < BE.length → isSel S (e : Int) →
        ∃ k, isSel c1.m_selection (ancestorAt P k (e : Int))) := by
  obtain ⟨R, Y, hnorm, hY, hRl, hYl, hYv, hsub, hcov, hbits⟩ :=
    normalize_against_spread BE.length P RP hW wfuel pfuel hwf hpf S hS
  obtain ⟨c1, hrun, hsel, _⟩ :=
    set_selection_of_normalize env wfuel pfuel c S C BE P RP R hnorm hRl hW.2.1 hR
  obtain ⟨_, hP, hRP, hF, _⟩ := hW
  obtain ⟨TR, hTR, hTRl, hTRv⟩ :=
    propogate_all_done R P (by omega) hF fuel (by omega)
  obtain ⟨TY, hTY, hTYl, hTYv⟩ :=
    propogate_all_done Y P (by omega) hF fuel (by omega)
  have hspread : ∀ j : Nat, j < BE.length →
      (isSel Y (j : Int) ↔
        ∃ e : Nat, e < BE.length ∧ RP[e]? = RP[j]? ∧ isSel S (e : Int)) := by
    intro j hj
    rw [isSel_iff_getD, hYv j hj, groupOr_ne_zero, getElem?_eq_getD RP j (by omega)]
    constructor
    · rintro ⟨e, he, hg, hv⟩
      exact ⟨e, he, hg, (isSel_iff_getD S e).2 hv⟩
    · rintro ⟨e, he, hg, hv⟩
      exact ⟨e, he, hg, (isSel_iff_getD S e).1 hv⟩
  have hset : ∀ e : Nat, e < BE.length → (isSel TR (e : Int) ↔ isSel TY (e : Int)) := by
    intro e he
    rw [hTRv e (by omega), hTYv e (by omega)]
    exact Anc_congr_cover P R Y hsub hcov _
  refine ⟨c1, Y, TR, TY, hrun, by rw [hsel]; exact hnorm, hY, hspread,
    by rw [hsel]; exact hTR, hTY, hset, ?_, ?_⟩
  · intro hb
    obtain ⟨hRb, hYb⟩ := hbits hb
    have hTRb := propogate_two_valued fuel R P TR hTR hRb
    have hTYb := propogate_two_valued fuel Y P TY hTY hYb
    apply list_ext_getD TR TY (by omega)
    intro j hj
    have hiff := hset j (by omega)
    rw [isSel_iff_getD, isSel_iff_getD] at hiff
    have ha := hTRb j _ (getElem?_eq_getD TR j hj)
    have hc := hTYb j _ (getElem?_eq_getD TY j (by omega))
    rcases ha with ha | ha <;> rcases hc with hc | hc <;> rw [ha, hc] at hiff ⊢ <;>
      first | rfl | exact absurd hiff (by decide)
  · intro e he hpick
    rw [hsel]
    apply hcov
    rw [hspread e he]
    exact ⟨e, he, rfl, hpick⟩

/-- C21, on the chain with bones 0 and 1 in one rigid group and bones 1 and 2
picked: the normalisation keeps bone 0 only. -/
theorem set_selection_loses_no_pick_witness :
    ∃ c1 Y TR TY,
      MouseController.set_selection restCollaborators 4 3 chainController [0, 1, 1, 0]
        chainJoints chainBones [-1, 0, 1, 2] [0, 0, 1, 2] = some c1 ∧
      set_selection_normalize 4 3 [0, 1, 1, 0] chainBones.length [-1, 0, 1, 2] [0, 0, 1, 2]
        = some c1.m_selection ∧
      spread chainBones.length [0, 0, 1, 2] [0, 1, 1, 0] = some Y ∧
      (∀ j : Nat, j < chainBones.length →
        (isSel Y (j : Int) ↔
          ∃ e : Nat, e < chainBones.length ∧
            ([0, 0, 1, 2] : VectorXi)[e]? = ([0, 0, 1, 2] : VectorXi)[j]? ∧
            isSel [0, 1, 1, 0] (e : Int))) ∧
      propogate_to_descendants_if 5 c1.m_selection [-1, 0, 1, 2] = some TR ∧
      propogate_to_descendants_if 5 Y [-1, 0, 1, 2] = some TY ∧
      (∀ e : Nat, e < chainBones.length → (isSel TR (e : Int) ↔ isSel TY (e : Int))) ∧
      ((∀ t ∈ ([0, 1, 1, 0] : VectorXi), t = 0 ∨ t = 1) → TR = TY) ∧
      (∀ e : Nat, e < chainBones.length → isSel [0, 1, 1, 0] (e : Int) →
        ∃ k, isSel c1.m_selection (ancestorAt [-1, 0, 1, 2] k (e : Int))) :=
  set_selection_loses_no_pick restCollaborators 4 3 5 chainController [0, 1, 1, 0]
    chainJoints chainBones [-1, 0, 1, 2] [0, 0, 1, 2] (by decide) (by decide) (by decide)
    (by decide) (by decide) (by decide)

/-- The two propagated vectors mark the same bones but need not hold the same
ints when the pick has entries other than `0` and `1`: with bone 2 picked as `2`
in a single rigid group on `P = [-1,2,0]`, the normalised selection `[2,0,0]`
propagates to `[1,1,1]` and the spread pick `[2,2,2]` to `[1,1,3]`. -/
theorem propagated_ints_may_differ :
    WellFormed 3 [-1, 2, 0] [0, 0, 0] ∧
    set_selection_normalize 3 3 [0, 0, 2] 3 [-1, 2, 0] [0, 0, 0] = some [2, 0, 0] ∧
    spread 3 [0, 0, 0] [0, 0, 2] = some [2, 2, 2] ∧
    propogate_to_descendants_if 4 [2, 0, 0] [-1, 2, 0] = some [1, 1, 1] ∧
    propogate_to_descendants_if 4 [2, 2, 2] [-1, 2, 0] = some [1, 1, 3] := by
  decide

/-- The chain with bones 0 and 1 in one rigid group and bones 1 and 2 picked,
evaluated: the pick spreads to bones 0, 1, 2, the normalisation keeps bone 0, and
both propagate to all four bones. -/
theorem loses_no_pick_on_chain :
    set_selection_normalize 4 3 [0, 1, 1, 0] 4 [-1, 0, 1, 2] [0, 0, 1, 2]
      = some [1, 0, 0, 0] ∧
    spread 4 [0, 0, 1, 2] [0, 1, 1, 0] = some [1, 1, 1, 0] ∧
    propogate_to_descendants_if 5 [1, 0, 0, 0] [-1, 0, 1, 2] = some [1, 1, 1, 1] ∧
    propogate_to_descendants_if 5 [1, 1, 1, 0] [-1, 0, 1, 2] = some [1, 1, 1, 1] := by
  decide

/-! ### The segment-in-rectangle test of the stand-in -/

/-- The values `A + l * (B - A)`, `0 ≤ l ≤ 1`, between `A` and `B` reach the
interval from `ly` to `hy` exactly when the two ranges overlap. -/
theorem affine_meets_interval (A B ly hy : ℚ) (h : ly ≤ hy) :
    max (min A B) ly ≤ min (max A B) hy ↔
      ∃ l : ℚ, 0 ≤ l ∧ l ≤ 1 ∧ ly ≤ A + l * (B - A) ∧ A + l * (B - A) ≤ hy := by
  rw [max_le_iff, le_min_iff, le_min_iff]
  constructor
  · rintro ⟨⟨_, h1⟩, h2, _⟩
    by_cases hA : ly ≤ A ∧ A ≤ hy
    · exact ⟨0, le_refl _, by norm_num, by simpa using hA.1, by simpa using hA.2⟩
    by_cases hB : ly ≤ B ∧ B ≤ hy
    · exact ⟨1, by norm_num, le_refl _, by simpa using hB.1, by simpa using hB.2⟩
    rcases le_total A B with hAB | hAB
    · rw [min_eq_left hAB] at h1
      rw [max_eq_right hAB] at h2
      have hAl : A < ly := by
        by_contra hc; exact hA ⟨not_lt.1 hc, h1⟩
      have hBh : hy < B := by
        by_contra hc; exact hB ⟨h2, not_lt.1 hc⟩
      have hpos : 0 < B - A := by linarith
      refine ⟨(ly - A) / (B - A), div_nonneg (by linarith) hpos.le,
        (div_le_one hpos).2 (by linarith), ?_, ?_⟩
      · rw [div_mul_cancel₀ _ (ne_of_lt hpos).symm]; linarith
      · rw [div_mul_cancel₀ _ (ne_of_lt hpos).symm]; linarith
    · rw [min_eq_right hAB] at h1
      rw [max_eq_left hAB] at h2
      have hBl : B < ly := by
        by_contra hc; exact hB ⟨not_lt.1 hc, h1⟩
      have hAh : hy < A := by
        by_contra hc; exact hA ⟨h2, not_lt.1 hc⟩
      have hpos : 0 < A - B := by linarith
      refine ⟨(A - hy) / (A - B), div_nonneg (by linarith) hpos.le,
        (div_le_one hpos).2 (by linarith), ?_, ?_⟩
      · have : (A - hy) / (A - B) * (B - A) = -(A - hy) := by
          field_simp; ring
        rw [this]; linarith
      · have : (A - hy) / (A - B) * (B - A) = -(A - hy) := by
          field_simp; ring
        rw [this]; linarith
  · rintro ⟨l, hl0, hl1, hv1, hv2⟩
    have hlo : min A B ≤ A + l * (B - A) := by
      rcases le_total A B with hAB | hAB
      · rw [min_eq_left hAB]; nlinarith [mul_nonneg hl0 (sub_nonneg.2 hAB)]
      · rw [min_eq_right hAB]
        nlinarith [mul_nonneg (sub_nonneg.2 hl1) (sub_nonneg.2 hAB)]
    have hhi : A + l * (B - A) ≤ max A B := by
      rcases le_total A B with hAB | hAB
      · rw [max_eq_right hAB]
        nlinarith [mul_nonneg (sub_nonneg.2 hl1) (sub_nonneg.2 hAB)]
      · rw [max_eq_left hAB]; nlinarith [mul_nonneg hl0 (sub_nonneg.2 hAB)]
    exact ⟨⟨min_le_max, by linarith⟩, by linarith, h⟩

theorem param_between (sx ex t : ℚ) (h0 : 0 ≤ t) (h1 : t ≤ 1) :
    min sx ex ≤ sx + t * (ex - sx) ∧ sx + t * (ex - sx) ≤ max sx ex := by
  rcases le_total sx ex with h | h
  · rw [min_eq_left h, max_eq_right h]
    constructor
    · nlinarith [mul_nonneg h0 (sub_nonneg.2 h)]
    · nlinarith [mul_nonneg (sub_nonneg.2 h1) (sub_nonneg.2 h)]
  · rw [min_eq_right h, max_eq_left h]
    constructor
    · nlinarith [mul_nonneg (sub_nonneg.2 h1) (sub_nonneg.2 h)]
    · nlinarith [mul_nonneg h0 (sub_nonneg.2 h)]

theorem between_param (sx ex x : ℚ) (hne : ex - sx ≠ 0) (hlo : min sx ex ≤ x)
    (hhi : x ≤ max sx ex) :
    0 ≤ (x - sx) / (ex - sx) ∧ (x - sx) / (ex - sx) ≤ 1 := by
  rcases lt_or_gt_of_ne hne with hneg | hpos
  · have hle : ex ≤ sx := by linarith
    rw [min_eq_right hle] at hlo
    rw [max_eq_left hle] at hhi
    constructor
    · exact div_nonneg_of_nonpos (by linarith) hneg.le
    · rw [div_le_one_of_neg hneg]; linarith
  · have hle : sx ≤ ex := by linarith
    rw [min_eq_left hle] at hlo
    rw [max_eq_right hle] at hhi
    constructor
    · exact div_nonneg (by linarith) hpos.le
    · rw [div_le_one hpos]; linarith

/-- The segment-in-rectangle test of the stand-in is the geometric one: it answers
true exactly when some point `s + t * (d - s)`, `0 ≤ t ≤ 1`, of the closed segment
lies in the closed rectangle with opposite corners `a` and `b`. -/
theorem segment_meets_rectangle_iff (s d a b : ℚ × ℚ) :
    segment_meets_rectangle s d a b = true ↔
      ∃ t : ℚ, 0 ≤ t ∧ t ≤ 1 ∧
        min a.1 b.1 ≤ s.1 + t * (d.1 - s.1) ∧ s.1 + t * (d.1 - s.1) ≤ max a.1 b.1 ∧
        min a.2 b.2 ≤ s.2 + t * (d.2 - s.2) ∧ s.2 + t * (d.2 - s.2) ≤ max a.2 b.2 := by
  obtain ⟨sx, sy⟩ := s
  obtain ⟨ex, ey⟩ := d
  obtain ⟨ax, ay⟩ := a
  obtain ⟨bx, b_y⟩ := b
  simp only [segment_meets_rectangle]
  have hlx : min ax bx ≤ max ax bx := min_le_max
  have hly : min ay b_y ≤ max ay b_y := min_le_max
  generalize min ax bx = lx at hlx ⊢
  generalize max ax bx = hx at hlx ⊢
  generalize min ay b_y = ly at hly ⊢
  generalize max ay b_y = hy at hly ⊢
  have hclip : ∀ x : ℚ, (max (min sx ex) lx ≤ x ∧ x ≤ min (max sx ex) hx) ↔
      (min sx ex ≤ x ∧ x ≤ max sx ex) ∧ lx ≤ x ∧ x ≤ hx := by
    intro x
    rw [max_le_iff, le_min_iff]; tauto
  by_cases hempty : min (max sx ex) hx < max (min sx ex) lx
  · simp only [hempty, if_true, Bool.false_eq_true, false_iff]
    rintro ⟨t, h0, h1, hx1, hx2, _, _⟩
    have hb := param_between sx ex t h0 h1
    have := (hclip (sx + t * (ex - sx))).2 ⟨hb, hx1, hx2⟩
    linarith [this.1, this.2]
  · simp only [hempty, if_false, decide_eq_true_eq]
    have hne : max (min sx ex) lx ≤ min (max sx ex) hx := not_lt.1 hempty
    rw [affine_meets_interval _ _ ly hy hly]
    by_cases hdx : ex - sx = 0
    · simp only [hdx, if_true]
      have hex : ex = sx := by linarith
      rw [hex] at hne
      simp only [min_self, max_self] at hne
      have h1 : lx ≤ sx := le_trans (le_max_right sx lx) (le_trans hne (min_le_left sx hx))
      have h2 : sx ≤ hx := le_trans (le_max_left sx lx) (le_trans hne (min_le_right sx hx))
      constructor
      · rintro ⟨l, h0, h1l, hv1, hv2⟩
        refine ⟨l, h0, h1l, ?_, ?_, hv1, hv2⟩
        · rw [mul_zero, add_zero]; exact h1
        · rw [mul_zero, add_zero]; exact h2
      · rintro ⟨t, h0, h1l, _, _, hv1, hv2⟩
        exact ⟨t, h0, h1l, hv1, hv2⟩
    · simp only [hdx, if_false]
      constructor
      · rintro ⟨l, h0, h1, hv1, hv2⟩
        have hxb := param_between (max (min sx ex) lx) (min (max sx ex) hx) l h0 h1
        rw [min_eq_left hne, max_eq_right hne] at hxb
        obtain ⟨hseg, hxl, hxh⟩ := (hclip _).1 hxb
        obtain ⟨ht0, ht1⟩ := between_param sx ex _ hdx hseg.1 hseg.2
        refine ⟨_, ht0, ht1, ?_, ?_, ?_, ?_⟩
        · rw [div_mul_cancel₀ _ hdx]; linarith
        · rw [div_mul_cancel₀ _ hdx]; linarith
        · have : sy + (max (min sx ex) lx + l * (min (max sx ex) hx - max (min sx ex) lx) - sx)
              / (ex - sx) * (ey - sy)
            = sy + (ey - sy) / (ex - sx) * (max (min sx ex) lx - sx)
              + l * (sy + (ey - sy) / (ex - sx) * (min (max sx ex) hx - sx)
                - (sy + (ey - sy) / (ex - sx) * (max (min sx ex) lx - sx))) := by
            field_simp; ring
          rw [this]; exact hv1
        · have : sy + (max (min sx ex) lx + l * (min (max sx ex) hx - max (min sx ex) lx) - sx)
              / (ex - sx) * (ey - sy)
            = sy + (ey - sy) / (ex - sx) * (max (min sx ex) lx - sx)
              + l * (sy + (ey - sy) / (ex - sx) * (min (max sx ex) hx - sx)
                - (sy + (ey - sy) / (ex - sx) * (max (min sx ex) lx - sx))) := by
            field_simp; ring
          rw [this]; exact hv2
      · rintro ⟨t, h0, h1, hx1, hx2, hv1, hv2⟩
        have hb := param_between sx ex t h0 h1
        obtain ⟨hm1, hm2⟩ := (hclip (sx + t * (ex - sx))).2 ⟨hb, hx1, hx2⟩
        by_cases hw : min (max sx ex) hx - max (min sx ex) lx = 0
        · refine ⟨0, le_refl _, by norm_num, ?_, ?_⟩
          · have hxe : max (min sx ex) lx = sx + t * (ex - sx) := by linarith
            rw [hxe]
            have : sy + (ey - sy) / (ex - sx) * (sx + t * (ex - sx) - sx) = sy + t * (ey - sy) := by
              field_simp; ring
            rw [this]; simpa using hv1
          · have hxe : max (min sx ex) lx = sx + t * (ex - sx) := by linarith
            rw [hxe]
            have : sy + (ey - sy) / (ex - sx) * (sx + t * (ex - sx) - sx) = sy + t * (ey - sy) := by
              field_simp; ring
            rw [this]; simpa using hv2
        · obtain ⟨hl0, hl1⟩ := between_param (max (min sx ex) lx) (min (max sx ex) hx)
            (sx + t * (ex - sx)) hw (by rw [min_eq_left hne]; exact hm1)
            (by rw [max_eq_right hne]; exact hm2)
          refine ⟨_, hl0, hl1, ?_, ?_⟩
          · have : sy + (ey - sy) / (ex - sx) * (max (min sx ex) lx - sx)
                + (sx + t * (ex - sx) - max (min sx ex) lx)
                  / (min (max sx ex) hx - max (min sx ex) lx)
                  * (sy + (ey - sy) / (ex - sx) * (min (max sx ex) hx - sx)
                    - (sy + (ey - sy) / (ex - sx) * (max (min sx ex) lx - sx)))
                = sy + t * (ey - sy) := by
              field_simp; ring
            rw [this]; exact hv1
          · have : sy + (ey - sy) / (ex - sx) * (max (min sx ex) lx - sx)
                + (sx + t * (ex - sx) - max (min sx ex) lx)
                  / (min (max sx ex) hx - max (min sx ex) lx)
                  * (sy + (ey - sy) / (ex - sx) * (min (max sx ex) hx - sx)
                    - (sy + (ey - sy) / (ex - sx) * (max (min sx ex) lx - sx)))
                = sy + t * (ey - sy) := by
              field_simp; ring
            rw [this]; exact hv2

end igl
